import Mathlib

/-!
# MazeBuilder: the Dijkstra extension (`cpp_port/djikstras.cpp`)

A shallow embedding of the classes `Distances` and `Dijkstra`, followed by the properties
proved about them.

Conventions of the embedding.

* `int` is `Int`; the only arithmetic that could leave the range of `int` is
  `cellDistance + 1`, which is wrapped explicitly (`addOne`).
* A `std::string` is the list of its characters (`Str`).
* A `Cell&` or `Cell*` is the position `(row, col)` of the cell: the cell of the grid at that
  position when the position is in bounds.  Two cells are the same object exactly when their
  positions are equal.
* `Grid`, `Cell`, `Direction` and `DIRECTION_OFFSETS` are declared outside
  `djikstras.cpp`; they are modelled from the specification (section 6).
* A `std::unordered_map` enumerates its entries in an order that the language leaves open.
  The entries are kept in a list, and every function that enumerates the map does so through
  an `IterOrder`, an arbitrary rearrangement of that list.
* The two `while` loops take a fuel argument; `none` means that no value is returned (the
  fuel ran out, or `std::stoi` threw).  The entry points supply a fuel that is shown to be
  enough.
-/

namespace MazeBuilder

/-! ## Strings and keys -/

/-- A `std::string`, as the list of its characters. -/
abbrev Str := List Char

/-- The value of `std::numeric_limits<int>::max()`. -/
def INT_MAX : Int := 2147483647

/-- The value of `std::numeric_limits<int>::min()`. -/
def INT_MIN : Int := -2147483648

/-- Model of `std::to_string(int)`: a minus sign for a negative number, then the decimal
digits. -/
def to_string (n : Int) : Str :=
  if n < 0 then '-' :: Nat.toDigits 10 n.natAbs else Nat.toDigits 10 n.toNat

/-- Model of `std::string::find(char)`: the index of the first occurrence, `none` for
`npos`. -/
def find (c : Char) : Str → Option Nat
  | [] => none
  | x :: xs => if x = c then some 0 else (find c xs).map (· + 1)

/-- Model of `isspace` in the C locale. -/
def isspace (c : Char) : Bool :=
  c.toNat = 32 || (9 ≤ c.toNat && c.toNat ≤ 13)

/-- Value of the longest prefix of decimal digits of a string, continuing from `acc`. -/
def digitsValue : Nat → Str → Nat
  | acc, [] => acc
  | acc, c :: t => if c.isDigit then digitsValue (acc * 10 + (c.toNat - 48)) t else acc

/-- The sign and digits part of `std::stoi`, after the leading white space. -/
def stoiSigned (s : Str) : Option Int :=
  match s with
  | [] => none
  | c :: t =>
    if c = '-' then
      match t with
      | [] => none
      | e :: _ => if e.isDigit then some (-(digitsValue 0 t : Int)) else none
    else if c = '+' then
      match t with
      | [] => none
      | e :: _ => if e.isDigit then some (digitsValue 0 t : Int) else none
    else if c.isDigit then some (digitsValue 0 s : Int)
    else none

/-- Model of `std::stoi(str)`: skip white space, read an optional sign and the longest run
of digits, ignore what follows.  `none` stands for the `std::invalid_argument` exception
thrown when there is no digit to read.  (`std::out_of_range` is not modelled: the strings
parsed by the program are produced by `std::to_string` from an `int`.) -/
def stoi (s : Str) : Option Int :=
  stoiSigned (s.dropWhile isspace)

/-- `Distances::key(int row, int col)`, also the lambda `key` of `calculateDistances`. -/
def key (row col : Int) : Str :=
  to_string row ++ ',' :: to_string col

/-- Outcome of the parsing block `find(',')`, `stoi(substr(0, commaPos))`,
`stoi(substr(commaPos + 1))` shared by `getCells`, `getMaxCell` and
`calculateDistances`. -/
inductive Parsed where
  | noComma : Parsed
  | threw : Parsed
  | pos : Int → Int → Parsed
  deriving DecidableEq, Repr

/-- The parsing block itself. -/
def parseKey (cellKey : Str) : Parsed :=
  match find ',' cellKey with
  | none => Parsed.noComma
  | some commaPos =>
    match stoi (cellKey.take commaPos), stoi (cellKey.drop (commaPos + 1)) with
    | some row, some col => Parsed.pos row col
    | _, _ => Parsed.threw

/-- `operator<` of `std::string`: lexicographic comparison of the characters. -/
def strLt : Str → Str → Bool
  | [], [] => false
  | [], _ :: _ => true
  | _ :: _, [] => false
  | a :: as, b :: bs =>
    if a.toNat < b.toNat then true
    else if b.toNat < a.toNat then false
    else strLt as bs

/-! ## The grid collaborator -/

/-- Modelled from the spec: the enumeration `Direction` of the four cardinal directions is
declared outside `djikstras.cpp`. -/
inductive Direction where
  | NORTH : Direction
  | SOUTH : Direction
  | EAST : Direction
  | WEST : Direction
  deriving DecidableEq, Repr

/-- Modelled from the spec: the table `DIRECTION_OFFSETS` is declared outside
`djikstras.cpp`; `first` is the column offset and `second` the row offset of the neighbour
in that direction (`neighborPosition`, offset arithmetic for the four cardinal
directions). -/
def DIRECTION_OFFSETS : Direction → Int × Int
  | Direction.NORTH => (0, -1)
  | Direction.SOUTH => (0, 1)
  | Direction.EAST => (1, 0)
  | Direction.WEST => (-1, 0)

/-- A cell, identified with its position. -/
structure Cell where
  row : Int
  col : Int
  deriving DecidableEq, Repr

/-- `Cell::getRow`. -/
def Cell.getRow (c : Cell) : Int := c.row

/-- `Cell::getCol`. -/
def Cell.getCol (c : Cell) : Int := c.col

/-- The position next to `c` in direction `dir`:
`(row + DIRECTION_OFFSETS[dir].second, col + DIRECTION_OFFSETS[dir].first)`. -/
def Cell.neighbor (c : Cell) (dir : Direction) : Cell :=
  ⟨c.row + (DIRECTION_OFFSETS dir).2, c.col + (DIRECTION_OFFSETS dir).1⟩

/-- Modelled from the spec: the class `Grid` is declared outside `djikstras.cpp`.  It has
`dimensions()` (`rows`, `cols`) and, for every position, the link directions of the cell
there (`linksOf`), in the order in which `Cell::getLinks` lists them. -/
structure Grid where
  rows : Int
  cols : Int
  links : Int → Int → List Direction

/-- Modelled from the spec: `Grid::isValid(row, col)`, the bounds check. -/
def Grid.isValid (g : Grid) (row col : Int) : Bool :=
  decide (0 ≤ row) && decide (row < g.rows) && decide (0 ≤ col) && decide (col < g.cols)

/-- Modelled from the spec: `Grid::at(row, col)`, the cell at a position. -/
def Grid.at (_g : Grid) (row col : Int) : Cell := ⟨row, col⟩

/-- `Cell::getLinks()` for a cell of the grid. -/
def Grid.getLinks (g : Grid) (c : Cell) : List Direction := g.links c.row c.col

/-! ## `class Distances` -/

/-- An enumeration order for a hash map: any rearrangement of the entries. -/
structure IterOrder where
  enum : List (Str × Int) → List (Str × Int)
  perm : ∀ l, (enum l).Perm l

/-- The enumeration that lists the entries as they are stored. -/
def IterOrder.stored : IterOrder := ⟨fun l => l, fun l => List.Perm.refl l⟩

/-- Lookup in the entries of a map (`cells.find(k)`, then `cells.at(k)`). -/
def lookup (k : Str) : List (Str × Int) → Option Int
  | [] => none
  | (k1, v) :: t => if k1 = k then some v else lookup k t

/-- The assignment `cells[k] = v`: overwrite the entry with key `k`, or add one. -/
def assign (k : Str) (v : Int) : List (Str × Int) → List (Str × Int)
  | [] => [(k, v)]
  | (k1, v1) :: t => if k1 = k then (k, v) :: t else (k1, v1) :: assign k v t

/-- The class `Distances`: the map `cells` and the `root` cell. -/
structure Distances where
  cells : List (Str × Int)
  root : Cell
  deriving DecidableEq, Repr

namespace Distances

/-- `Distances::key(const Cell&)`. -/
def key (cell : Cell) : Str := MazeBuilder.key cell.getRow cell.getCol

/-- The constructor `Distances(Cell& start)`. -/
def new (start : Cell) : Distances := ⟨assign (key start) 0 [], start⟩

/-- `Distances::getDistance`. -/
def getDistance (d : Distances) (cell : Cell) : Int :=
  match lookup (key cell) d.cells with
  | some v => v
  | none => INT_MAX

/-- `Distances::setDistance`. -/
def setDistance (d : Distances) (cell : Cell) (distance : Int) : Distances :=
  ⟨assign (key cell) distance d.cells, d.root⟩

/-- The loop of `Distances::getCells` over the entries. -/
def getCellsLoop (g : Grid) : List (Str × Int) → List Cell → Option (List Cell)
  | [], result => some result
  | (cellKey, _) :: t, result =>
    match parseKey cellKey with
    | Parsed.noComma => getCellsLoop g t result
    | Parsed.threw => none
    | Parsed.pos row col =>
      if g.isValid row col then getCellsLoop g t (result ++ [g.at row col])
      else getCellsLoop g t result

/-- `Distances::getCells`. -/
def getCells (o : IterOrder) (d : Distances) (g : Grid) : Option (List Cell) :=
  getCellsLoop g (o.enum d.cells) []

/-- The loop of `Distances::getMaxCell` over the entries; the state is
`(maxCell, maxDistance)`. -/
def getMaxCellLoop (g : Grid) : List (Str × Int) → Cell × Int → Option (Cell × Int)
  | [], acc => some acc
  | (cellKey, second) :: t, (maxCell, maxDistance) =>
    if second > maxDistance then
      match parseKey cellKey with
      | Parsed.noComma => getMaxCellLoop g t (maxCell, maxDistance)
      | Parsed.threw => none
      | Parsed.pos row col =>
        if g.isValid row col then getMaxCellLoop g t (g.at row col, second)
        else getMaxCellLoop g t (maxCell, maxDistance)
    else getMaxCellLoop g t (maxCell, maxDistance)

/-- `Distances::getMaxCell`. -/
def getMaxCell (o : IterOrder) (d : Distances) (g : Grid) : Option Cell :=
  (getMaxCellLoop g (o.enum d.cells) (d.root, 0)).map (fun acc => acc.1)

/-- `Distances::getMaxDistance`. -/
def getMaxDistance (o : IterOrder) (d : Distances) : Int :=
  (o.enum d.cells).foldl (fun maxDistance pair => max maxDistance pair.2) 0

end Distances

/-! ## `class Dijkstra` -/

/-- An entry `(distance, cell_key)` of the priority queue. -/
abbrev Entry := Int × Str

/-- `operator<` of `std::pair<int, std::string>`. -/
def entryLt (a b : Entry) : Bool :=
  decide (a.1 < b.1) || (!decide (b.1 < a.1) && strLt a.2 b.2)

/-- The least entry among `m` and the entries of a list. -/
def leastEntry : Entry → List Entry → Entry
  | m, [] => m
  | m, x :: xs => if entryLt x m then leastEntry x xs else leastEntry m xs

/-- `frontier.top()` for the min-heap `frontier`, kept as the list of its entries: the least
entry under `operator<`; `none` when the queue is empty. -/
def top : List Entry → Option Entry
  | [] => none
  | x :: xs => some (leastEntry x xs)

/-- `frontier.pop()`: remove one copy of the entry `current = frontier.top()`. -/
def pop (current : Entry) (frontier : List Entry) : List Entry :=
  frontier.erase current

/-- `frontier.push(e)`. -/
def push (e : Entry) (frontier : List Entry) : List Entry :=
  frontier ++ [e]

/-- The sum `cellDistance + 1` in `int` arithmetic (two's complement wrap-around). -/
def addOne (cellDistance : Int) : Int :=
  (cellDistance + 1 - INT_MIN) % 4294967296 + INT_MIN

namespace Dijkstra

/-- The body of the loop `for (Direction dir : links)` of `calculateDistances`, on the
state `(distances, frontier)`. -/
def relax (g : Grid) (row col cellDistance : Int) (st : Distances × List Entry)
    (dir : Direction) : Distances × List Entry :=
  let neighborRow := row + (DIRECTION_OFFSETS dir).2
  let neighborCol := col + (DIRECTION_OFFSETS dir).1
  if g.isValid neighborRow neighborCol then
    let neighbor := g.at neighborRow neighborCol
    let newDistance := addOne cellDistance
    let neighborDistance := st.1.getDistance neighbor
    if newDistance < neighborDistance then
      (st.1.setDistance neighbor newDistance, push (newDistance, Distances.key neighbor) st.2)
    else st
  else st

/-- The loop `while (!frontier.empty())` of `calculateDistances`. -/
def searchLoop (g : Grid) : Nat → Distances → List Entry → Option Distances
  | 0, _, _ => none
  | fuel + 1, distances, frontier =>
    match top frontier with
    | none => some distances
    | some current =>
      let frontier := pop current frontier
      match parseKey current.2 with
      | Parsed.noComma => searchLoop g fuel distances frontier
      | Parsed.threw => none
      | Parsed.pos row col =>
        if g.isValid row col then
          let cell := g.at row col
          let cellDistance := distances.getDistance cell
          let st := (g.getLinks cell).foldl (relax g row col cellDistance) (distances, frontier)
          searchLoop g fuel st.1 st.2
        else searchLoop g fuel distances frontier

/-- Fuel for the search loop: two more than the number of cells of the grid. -/
def searchFuel (g : Grid) : Nat := (g.rows * g.cols).toNat + 2

/-- `Dijkstra::calculateDistances`. -/
def calculateDistances (g : Grid) (start : Cell) : Option Distances :=
  searchLoop g (searchFuel g) (Distances.new start) (push (0, Distances.key start) [])

/-- The body of the loop `for (Direction dir : links)` of `shortestPath`, on the state
`(nextCell, nextDistance)`. -/
def pick (g : Grid) (distances : Distances) (row col : Int) (st : Option Cell × Int)
    (dir : Direction) : Option Cell × Int :=
  let neighborRow := row + (DIRECTION_OFFSETS dir).2
  let neighborCol := col + (DIRECTION_OFFSETS dir).1
  if g.isValid neighborRow neighborCol then
    let neighbor := g.at neighborRow neighborCol
    let neighborDistance := distances.getDistance neighbor
    if neighborDistance < st.2 then (some neighbor, neighborDistance) else st
  else st

/-- One pass of the backward walk: the linked neighbour chosen from `current`, if any. -/
def nextCell (g : Grid) (distances : Distances) (current : Cell) : Option Cell :=
  ((g.getLinks current).foldl (pick g distances current.getRow current.getCol)
    (none, distances.getDistance current)).1

/-- The loop `while (current != &start)` of `shortestPath`; `path` is in walk order. -/
def walkLoop (g : Grid) (distances : Distances) (start : Cell) :
    Nat → Cell → List Cell → Option (List Cell)
  | 0, _, _ => none
  | fuel + 1, current, path =>
    if current = start then some path
    else
      match nextCell g distances current with
      | none => some path
      | some next => walkLoop g distances start fuel next (path ++ [next])

/-- `Dijkstra::shortestPath`. -/
def shortestPath (g : Grid) (start «end» : Cell) : Option (List Cell) :=
  match calculateDistances g start with
  | none => none
  | some distances =>
    if distances.getDistance «end» = INT_MAX then some []
    else
      (walkLoop g distances start ((distances.getDistance «end»).toNat + 1) «end»
        [«end»]).map List.reverse

/-- `Dijkstra::longestPath`.  The access `grid.at(0, 0)` has no value on a grid without
cells. -/
def longestPath (o : IterOrder) (g : Grid) : Option (List Cell) :=
  if g.isValid 0 0 then
    let start := g.at 0 0
    match calculateDistances g start with
    | none => none
    | some distances =>
      match distances.getMaxCell o g with
      | none => none
      | some farthest =>
        match calculateDistances g farthest with
        | none => none
        | some distances2 =>
          match distances2.getMaxCell o g with
          | none => none
          | some last => shortestPath g farthest last
  else none

end Dijkstra

/-! ## Notions used to state the properties -/

/-- The check `cells.find(key(cell)) != cells.end()`: the cell has an entry in the map. -/
def Distances.contains (d : Distances) (cell : Cell) : Bool :=
  (lookup (Distances.key cell) d.cells).isSome

/-- The position of the cell is within the bounds of the grid. -/
def Grid.validCell (g : Grid) (c : Cell) : Bool := g.isValid c.row c.col

/-- A link step: `p` is a cell of the grid, and `q` is the in-bounds neighbour of `p` in a
direction of the link set of `p`. -/
def Grid.linked (g : Grid) (p q : Cell) : Bool :=
  g.validCell p && g.validCell q && (g.getLinks p).any (fun dir => decide (p.neighbor dir = q))

/-- `Chain g root p n`: there is a chain of `n` link steps from `root` to `p`. -/
inductive Chain (g : Grid) (root : Cell) : Cell → Nat → Prop where
  | nil : Chain g root root 0
  | snoc {p q : Cell} {n : Nat} : Chain g root p n → g.linked p q = true → Chain g root q (n + 1)

/-- The cell `p` can be reached from `root` through links. -/
def Reachable (g : Grid) (root p : Cell) : Prop := ∃ n, Chain g root p n

/-- The links of the grid are bidirectional: a link step can always be taken back. -/
def Grid.bidirectional (g : Grid) : Prop :=
  ∀ p q : Cell, g.linked p q = true → g.linked q p = true

/-- The cells of the grid, row by row. -/
def Grid.allCells (g : Grid) : List Cell :=
  (List.range g.rows.toNat).flatMap fun (r : Nat) =>
    (List.range g.cols.toNat).map fun (c : Nat) => Cell.mk (Int.ofNat r) (Int.ofNat c)

/-! ## The invariant of the search -/

/-- Number of cells of the grid that have an entry in the map. -/
def recordedCount (g : Grid) (D : Distances) : Nat :=
  g.allCells.countP fun c => D.contains c

/-- Every link step from `c` leads to a cell whose distance is at most one more. -/
def Closed (g : Grid) (D : Distances) (c : Cell) : Prop :=
  ∀ q, g.linked c q = true → D.getDistance q ≤ D.getDistance c + 1

/-- The invariant of the loop of `calculateDistances` for an in-bounds `root`, in a state
with map `D` and frontier `F`.  `L` is a lower bound of the distances in the frontier, and
`P` holds of the cell whose links are being processed. -/
structure SearchInv (g : Grid) (root : Cell) (L : Int) (P : Cell → Prop) (D : Distances)
    (F : List Entry) : Prop where
  root_eq : D.root = root
  root_in : D.contains root = true
  root_zero : D.getDistance root = 0
  keys : ∀ kv ∈ D.cells, ∃ c, kv.1 = Distances.key c ∧ g.validCell c = true
  nodup : (D.cells.map Prod.fst).Nodup
  range : ∀ c, D.contains c = true →
    0 ≤ D.getDistance c ∧ D.getDistance c < INT_MAX ∧ D.getDistance c ≤ L + 1 ∧
      D.getDistance c + 1 ≤ recordedCount g D
  frontier : ∀ e ∈ F, L ≤ e.1 ∧
    ∃ c, e.2 = Distances.key c ∧ D.contains c = true ∧ D.getDistance c = e.1
  sound : ∀ c, D.contains c = true → Chain g root c (D.getDistance c).toNat
  closed : ∀ c, D.contains c = true →
    P c ∨ (∃ e ∈ F, e.2 = Distances.key c) ∨ Closed g D c

/-- What holds of the map `D` when the search from the in-bounds cell `root` is over: the
invariant, with an empty frontier. -/
def SearchDone (g : Grid) (root : Cell) (D : Distances) : Prop :=
  ∃ L, SearchInv g root L (fun _ => False) D []

/-- `WalkTo g D start cur c`: the backward walk of `shortestPath`, when it stands at `cur`,
stands at `c` now or after some more passes of its loop. -/
inductive WalkTo (g : Grid) (D : Distances) (start : Cell) : Cell → Cell → Prop where
  | here (c : Cell) : WalkTo g D start c c
  | next {cur q c : Cell} : cur ≠ start → Dijkstra.nextCell g D cur = some q →
      WalkTo g D start q c → WalkTo g D start cur c

/-! ## Trees and diameters -/

/-- The link graph of a grid: two cells are adjacent when a link step leads from each one to
the other. -/
def linkGraph (g : Grid) : SimpleGraph Cell where
  Adj p q := g.linked p q = true ∧ g.linked q p = true
  symm := fun _ _ h => ⟨h.2, h.1⟩
  loopless := fun p h => by
    have h1 := h.1
    simp only [Grid.linked, Bool.and_eq_true, List.any_eq_true, decide_eq_true_eq] at h1
    obtain ⟨_, dir, _, hnb⟩ := h1
    cases p
    cases dir <;> simp [Cell.neighbor, DIRECTION_OFFSETS] at hnb

/-- The link graph is a tree over all the cells of the grid: the grid has a cell, the links
are bidirectional, every cell can be reached from every cell, and there is no cycle. -/
structure Grid.IsTree (g : Grid) : Prop where
  nonempty : g.validCell ⟨0, 0⟩ = true
  bidirectional : g.bidirectional
  connected : ∀ p q, g.validCell p = true → g.validCell q = true → Reachable g p q
  acyclic : (linkGraph g).IsAcyclic

/-- `n` is the shortest-path distance from `p` to `q`: the length of a shortest chain of
link steps. -/
def IsDist (g : Grid) (p q : Cell) (n : Nat) : Prop :=
  Chain g p q n ∧ ∀ m, Chain g p q m → n ≤ m

/-- `n` is the diameter of the link graph: the largest shortest-path distance between two
cells of the grid. -/
def IsDiameter (g : Grid) (n : Nat) : Prop :=
  (∃ p q, g.validCell p = true ∧ g.validCell q = true ∧ IsDist g p q n) ∧
    ∀ p q m, g.validCell p = true → g.validCell q = true → IsDist g p q m → m ≤ n

/-- The step of the backward walk as a function on cells: the cell chosen by `nextCell`,
or the cell itself when there is none. -/
def parent (g : Grid) (D : Distances) (x : Cell) : Cell :=
  (Dijkstra.nextCell g D x).getD x

/-! ## The maps that can exist -/

/-- The maps that an object of the class `Distances` can hold: the one made by the
constructor, and those obtained from it by calls of `setDistance`. -/
inductive Distances.Built : Distances → Prop where
  | new (start : Cell) : Distances.Built (Distances.new start)
  | set {d : Distances} (cell : Cell) (distance : Int) :
      Distances.Built d → Distances.Built (d.setDistance cell distance)

/-- The representation invariant of `Distances`: the keys of the entries are distinct, and
each of them is the key of a position. -/
def Distances.WF (d : Distances) : Prop :=
  (d.cells.map Prod.fst).Nodup ∧ ∀ kv ∈ d.cells, ∃ c, kv.1 = Distances.key c

/-! ## The search with a record of what it does -/

/-- What the loop of `calculateDistances` does, step by step.
`extract d cell cellDistance`: the entry `(d, key(cell))` is taken from the frontier and
`cellDistance = distances.getDistance(cell)` is read.
`skip d cellKey`: the entry `(d, cellKey)` is taken from the frontier and dropped by one of
the two `continue`.
`record cell present newDistance`: `setDistance(cell, newDistance)` and
`frontier.push((newDistance, key(cell)))` are executed; `present` tells whether the cell had
an entry in the map just before.  The constructor and the first `push` make the first
`record`, for the root. -/
inductive Event where
  | extract : Int → Cell → Int → Event
  | skip : Int → Str → Event
  | record : Cell → Bool → Int → Event
  deriving DecidableEq, Repr

/-- The step is as the claim describes it: an extracted entry carries the recorded distance
of its cell, which is finite and non-negative; no entry is skipped; a distance is recorded
only for a cell that had none. -/
def Event.fresh : Event → Bool
  | Event.extract d _ cellDistance =>
    decide (d = cellDistance) && decide (0 ≤ cellDistance) && decide (cellDistance < INT_MAX)
      && decide (addOne cellDistance = cellDistance + 1)
  | Event.skip _ _ => false
  | Event.record _ present _ => !present

/-- The cells recorded and pushed, in the order of the steps. -/
def recordedCells : List Event → List Cell
  | [] => []
  | Event.record cell _ _ :: t => cell :: recordedCells t
  | _ :: t => recordedCells t

namespace Dijkstra

/-- The body `relax` of the inner loop, with the record of the steps. -/
def relaxLog (g : Grid) (row col cellDistance : Int)
    (st : (Distances × List Entry) × List Event) (dir : Direction) :
    (Distances × List Entry) × List Event :=
  let neighborRow := row + (DIRECTION_OFFSETS dir).2
  let neighborCol := col + (DIRECTION_OFFSETS dir).1
  if g.isValid neighborRow neighborCol then
    let neighbor := g.at neighborRow neighborCol
    let newDistance := addOne cellDistance
    let neighborDistance := st.1.1.getDistance neighbor
    if newDistance < neighborDistance then
      ((st.1.1.setDistance neighbor newDistance,
          push (newDistance, Distances.key neighbor) st.1.2),
        st.2 ++ [Event.record neighbor (st.1.1.contains neighbor) newDistance])
    else st
  else st

/-- The loop `searchLoop`, with the record of the steps. -/
def searchLoopLog (g : Grid) :
    Nat → Distances → List Entry → List Event → Option (Distances × List Event)
  | 0, _, _, _ => none
  | fuel + 1, distances, frontier, log =>
    match top frontier with
    | none => some (distances, log)
    | some current =>
      let frontier := pop current frontier
      match parseKey current.2 with
      | Parsed.noComma =>
        searchLoopLog g fuel distances frontier (log ++ [Event.skip current.1 current.2])
      | Parsed.threw => none
      | Parsed.pos row col =>
        if g.isValid row col then
          let cell := g.at row col
          let cellDistance := distances.getDistance cell
          let st := (g.getLinks cell).foldl (relaxLog g row col cellDistance)
            ((distances, frontier), log ++ [Event.extract current.1 cell cellDistance])
          searchLoopLog g fuel st.1.1 st.1.2 st.2
        else
          searchLoopLog g fuel distances frontier (log ++ [Event.skip current.1 current.2])

/-- `calculateDistances`, with the record of the steps. -/
def calculateDistancesLog (g : Grid) (start : Cell) : Option (Distances × List Event) :=
  searchLoopLog g (searchFuel g) (Distances.new start) (push (0, Distances.key start) [])
    [Event.record start false 0]

end Dijkstra

/-- The invariant of the record of the steps: every step so far is as the claim describes
it, no cell was recorded twice, and the cells recorded are those that have an entry in the
map. -/
structure LogInv (D : Distances) (log : List Event) : Prop where
  fresh : ∀ e ∈ log, e.fresh = true
  nodup : (recordedCells log).Nodup
  present : ∀ c ∈ recordedCells log, D.contains c = true
  complete : ∀ c, D.contains c = true → c ∈ recordedCells log

/-! ## Example grids -/

/-- A corridor of one row and `n` columns, linked end to end. -/
def corridor (n : Nat) : Grid :=
  { rows := 1
    cols := n
    links := fun _ col =>
      (if 0 < col then [Direction.WEST] else []) ++
        (if col + 1 < n then [Direction.EAST] else []) }

/-- The grid `g` is a corridor of one row and `n` columns linked end to end: each cell lists
the direction `WEST` when it has a cell on its west side, the direction `EAST` when it has a
cell on its east side, and nothing else (in any order). -/
def IsCorridor (g : Grid) (n : Nat) : Prop :=
  g.rows = 1 ∧ g.cols = n ∧
    ∀ (col : Int) (dir : Direction), 0 ≤ col → col < n →
      (dir ∈ g.links 0 col ↔
        (dir = Direction.WEST ∧ 0 < col) ∨ (dir = Direction.EAST ∧ col + 1 < n))

/-- The corridor of one row and `n` columns whose cells list `EAST` before `WEST`. -/
def corridorRev (n : Nat) : Grid :=
  { rows := 1
    cols := n
    links := fun _ col =>
      (if col + 1 < n then [Direction.EAST] else []) ++
        (if 0 < col then [Direction.WEST] else []) }

/-- A perfect maze of `R` rows and `C` columns, in the shape of a comb: the row 0 is a
corridor, and every column hangs from it. -/
def comb (R C : Nat) : Grid :=
  { rows := R
    cols := C
    links := fun row col =>
      (if row = 0 ∧ 0 < col then [Direction.WEST] else []) ++
        (if row = 0 ∧ col + 1 < C then [Direction.EAST] else []) ++
        (if 0 < row then [Direction.NORTH] else []) ++
        (if row + 1 < R then [Direction.SOUTH] else []) }

/-- A grid of `R` rows and `C` columns in which every cell lists the four directions, those
that point outside the grid included. -/
def openGrid (R C : Nat) : Grid :=
  { rows := R
    cols := C
    links := fun _ _ =>
      [Direction.NORTH, Direction.SOUTH, Direction.EAST, Direction.WEST] }

/-- A grid of one row and two columns with a one-way link: the cell `(0, 0)` lists the
direction `EAST` to `(0, 1)`, which lists no direction back. -/
def oneWay : Grid :=
  { rows := 1
    cols := 2
    links := fun _ col => if col = 0 then [Direction.EAST] else [] }

/-- A perfect maze of two rows and `n` columns in the shape of a U: each of the two rows is
a corridor linked end to end, and the two rows are linked at the column `n - 1`. -/
def uMaze (n : Nat) : Grid :=
  { rows := 2
    cols := n
    links := fun row col =>
      (if 0 < col then [Direction.WEST] else []) ++
        (if col + 1 < n then [Direction.EAST] else []) ++
        (if row = 0 ∧ col + 1 = n then [Direction.SOUTH] else []) ++
        (if row = 1 ∧ col + 1 = n then [Direction.NORTH] else []) }

/-- The rank of a cell along the U of `uMaze n`: the row 0 from the column `0` to the column
`n - 1`, then the row 1 from the column `n - 1` back to the column `0`. -/
def uRank (n : Nat) (c : Cell) : Int :=
  if c.row = 0 then c.col else 2 * (n : Int) - 1 - c.col

/-- The cell of rank `k` along the U of `uMaze n`. -/
def uCell (n : Nat) (k : Int) : Cell :=
  if k < n then ⟨0, k⟩ else ⟨1, 2 * (n : Int) - 1 - k⟩

/-- The U-shaped perfect maze of two rows and 1073741825 columns.  Both dimensions are
values of an `int`; the number of cells, 2147483650, is above `INT_MAX`. -/
def wideU : Grid := uMaze 1073741825

end MazeBuilder

namespace MazeBuilder

/-! ## Keys can be read back -/

theorem digitChar_facts (k : Nat) (h : k < 10) :
    (Nat.digitChar k).isDigit = true ∧ (Nat.digitChar k).toNat - 48 = k ∧
      Nat.digitChar k ≠ ',' ∧ Nat.digitChar k ≠ '-' ∧ Nat.digitChar k ≠ '+' ∧
      isspace (Nat.digitChar k) = false := by
  interval_cases k <;> decide

/-- Value of a list of digits read left to right, continuing from `acc`. -/
theorem digitsValue_digits (L : Str) (hL : ∀ c ∈ L, c.isDigit = true) :
    ∀ (acc : Nat) (rest : Str), (∀ c, rest.head? = some c → c.isDigit = false) →
      digitsValue acc (L ++ rest) = L.foldl (fun a c => a * 10 + (c.toNat - 48)) acc := by
  induction L with
  | nil =>
    intro acc rest hrest
    cases rest with
    | nil => simp [digitsValue]
    | cons c t => simp [digitsValue, hrest c (by simp)]
  | cons x xs ih =>
    intro acc rest hrest
    have hx := hL x (by simp)
    simp only [List.cons_append, digitsValue, hx, if_true, List.foldl_cons]
    exact ih (fun c hc => hL c (by simp [hc])) _ rest hrest

theorem toDigitsCore_spec (fuel : Nat) : ∀ (n : Nat) (ds : Str), n < fuel →
    ∃ L : Str, Nat.toDigitsCore 10 fuel n ds = L ++ ds ∧ L ≠ [] ∧
      (∀ c ∈ L, c.isDigit = true ∧ c ≠ ',' ∧ c ≠ '-' ∧ c ≠ '+' ∧ isspace c = false) ∧
      L.foldl (fun a c => a * 10 + (c.toNat - 48)) 0 = n := by
  induction fuel with
  | zero => intro n ds h; omega
  | succ f ih =>
    intro n ds h
    have hd := digitChar_facts (n % 10) (Nat.mod_lt _ (by decide))
    by_cases h0 : n / 10 = 0
    · refine ⟨[Nat.digitChar (n % 10)], ?_, by simp, ?_, ?_⟩
      · simp [Nat.toDigitsCore, h0]
      · intro c hc
        simp only [List.mem_singleton] at hc
        subst hc
        exact ⟨hd.1, hd.2.2⟩
      · simp only [List.foldl_cons, List.foldl_nil, hd.2.1]
        omega
    · obtain ⟨L, hL, _, hdig, hval⟩ := ih (n / 10) (Nat.digitChar (n % 10) :: ds) (by omega)
      refine ⟨L ++ [Nat.digitChar (n % 10)], ?_, by simp, ?_, ?_⟩
      · simp [Nat.toDigitsCore, h0, hL]
      · intro c hc
        rcases List.mem_append.mp hc with hc | hc
        · exact hdig c hc
        · simp only [List.mem_singleton] at hc
          subst hc
          exact ⟨hd.1, hd.2.2⟩
      · rw [List.foldl_append, hval]
        simp only [List.foldl_cons, List.foldl_nil, hd.2.1]
        omega

/-- The digits printed for a natural number. -/
theorem toDigits_spec (n : Nat) :
    ∃ L : Str, Nat.toDigits 10 n = L ∧ L ≠ [] ∧
      (∀ c ∈ L, c.isDigit = true ∧ c ≠ ',' ∧ c ≠ '-' ∧ c ≠ '+' ∧ isspace c = false) ∧
      L.foldl (fun a c => a * 10 + (c.toNat - 48)) 0 = n := by
  obtain ⟨L, h1, h2, h3, h4⟩ := toDigitsCore_spec (n + 1) n [] (by omega)
  exact ⟨L, by simpa [Nat.toDigits] using h1, h2, h3, h4⟩

theorem find_append_comma (a b : Str) (ha : ∀ c ∈ a, c ≠ ',') :
    find ',' (a ++ ',' :: b) = some a.length := by
  induction a with
  | nil => simp [find]
  | cons x xs ih =>
    have hx : x ≠ ',' := ha x (by simp)
    simp [find, hx, ih (fun c hc => ha c (by simp [hc]))]

theorem to_string_no_comma (n : Int) : ∀ c ∈ to_string n, c ≠ ',' := by
  intro c hc
  unfold to_string at hc
  split at hc
  · obtain ⟨L, h1, _, h3, _⟩ := toDigits_spec n.natAbs
    rw [h1] at hc
    rcases List.mem_cons.mp hc with hc | hc
    · subst hc; decide
    · exact (h3 c hc).2.1
  · obtain ⟨L, h1, _, h3, _⟩ := toDigits_spec n.toNat
    rw [h1] at hc
    exact (h3 c hc).2.1

theorem stoi_to_string (n : Int) (rest : Str)
    (hrest : ∀ c, rest.head? = some c → c.isDigit = false) :
    stoi (to_string n ++ rest) = some n := by
  unfold to_string
  split
  · rename_i hneg
    obtain ⟨L, h1, h2, h3, h4⟩ := toDigits_spec n.natAbs
    rw [h1]
    obtain ⟨e, t, rfl⟩ := List.exists_cons_of_ne_nil h2
    have he := h3 e (by simp)
    have hv := digitsValue_digits (e :: t) (fun c hc => (h3 c hc).1) 0 rest hrest
    have hsp : isspace '-' = false := by decide
    have hdw : List.dropWhile isspace ('-' :: e :: t ++ rest) = '-' :: (e :: t ++ rest) := by
      simp [List.dropWhile_cons, hsp]
    rw [stoi, hdw]
    simp only [stoiSigned, if_true, List.cons_append, he.1]
    simp only [List.cons_append] at hv
    rw [hv, h4]
    simp only [Option.some.injEq]
    omega
  · rename_i hpos
    obtain ⟨L, h1, h2, h3, h4⟩ := toDigits_spec n.toNat
    rw [h1]
    obtain ⟨e, t, rfl⟩ := List.exists_cons_of_ne_nil h2
    have he := h3 e (by simp)
    have hv := digitsValue_digits (e :: t) (fun c hc => (h3 c hc).1) 0 rest hrest
    have hdw : List.dropWhile isspace (e :: t ++ rest) = e :: (t ++ rest) := by
      simp [List.dropWhile_cons, he.2.2.2.2]
    rw [stoi, hdw]
    simp only [stoiSigned, he.2.2.1, he.2.2.2.1, he.1, if_true, if_false]
    simp only [List.cons_append] at hv
    rw [hv, h4]
    simp only [Option.some.injEq]
    omega

/-- Parsing the key of a position gives the position back. -/
theorem parseKey_key (row col : Int) : parseKey (key row col) = Parsed.pos row col := by
  unfold parseKey key
  rw [find_append_comma _ _ (to_string_no_comma row)]
  have h1 : List.take (to_string row).length (to_string row ++ ',' :: to_string col)
      = to_string row := by simp
  have h2 : List.drop ((to_string row).length + 1) (to_string row ++ ',' :: to_string col)
      = to_string col := by
    rw [List.drop_append_eq_append_drop]
    simp
  simp only [h1, h2]
  have e1 := stoi_to_string row [] (by simp)
  have e2 := stoi_to_string col [] (by simp)
  simp only [List.append_nil] at e1 e2
  rw [e1, e2]

theorem key_inj {r1 c1 r2 c2 : Int} (h : key r1 c1 = key r2 c2) : r1 = r2 ∧ c1 = c2 := by
  have h1 := parseKey_key r1 c1
  rw [h, parseKey_key] at h1
  injection h1 with ha hb
  exact ⟨ha.symm, hb.symm⟩

theorem Distances.key_eq_iff (a b : Cell) : Distances.key a = Distances.key b ↔ a = b := by
  constructor
  · intro h
    obtain ⟨h1, h2⟩ := key_inj h
    cases a; cases b
    simp only [Cell.getRow, Cell.getCol] at h1 h2
    simp [h1, h2]
  · intro h; rw [h]

theorem parseKey_cell (c : Cell) : parseKey (Distances.key c) = Parsed.pos c.row c.col :=
  parseKey_key c.row c.col

end MazeBuilder

namespace MazeBuilder

/-! ## The map as a function of the cell -/

theorem lookup_assign (k k1 : Str) (v : Int) (l : List (Str × Int)) :
    lookup k1 (assign k v l) = if k1 = k then some v else lookup k1 l := by
  induction l with
  | nil =>
    by_cases h : k1 = k
    · simp [assign, lookup, h]
    · have h2 : ¬ k = k1 := fun e => h e.symm
      simp [assign, lookup, h, h2]
  | cons a t ih =>
    obtain ⟨ka, va⟩ := a
    by_cases h1 : ka = k
    · subst h1
      by_cases h : k1 = ka
      · simp [assign, lookup, h]
      · have h2 : ¬ ka = k1 := fun e => h e.symm
        simp [assign, lookup, h, h2]
    · by_cases h : k1 = k
      · subst h
        simp [assign, lookup, h1, ih]
      · by_cases h3 : ka = k1
        · subst h3
          simp [assign, lookup, h1]
        · simp [assign, lookup, h1, h, h3, ih]

theorem assign_of_lookup_none (k : Str) (v : Int) (l : List (Str × Int))
    (h : lookup k l = none) : assign k v l = l ++ [(k, v)] := by
  induction l with
  | nil => rfl
  | cons a t ih =>
    obtain ⟨ka, va⟩ := a
    by_cases h1 : ka = k
    · simp [lookup, h1] at h
    · simp only [lookup, h1, if_false] at h
      simp [assign, h1, ih h]

theorem lookup_eq_some_of_mem (l : List (Str × Int)) (hnd : (l.map Prod.fst).Nodup)
    (k : Str) (v : Int) (h : (k, v) ∈ l) : lookup k l = some v := by
  induction l with
  | nil => simp at h
  | cons a t ih =>
    obtain ⟨ka, va⟩ := a
    simp only [List.map_cons, List.nodup_cons] at hnd
    rcases List.mem_cons.mp h with h | h
    · injection h with h1 h2
      simp [lookup, h1, h2]
    · have hne : ¬ ka = k := by
        intro e
        apply hnd.1
        rw [e]
        exact List.mem_map_of_mem Prod.fst h
      simp only [lookup, hne, if_false]
      exact ih hnd.2 h

theorem mem_of_lookup_eq_some (l : List (Str × Int)) (k : Str) (v : Int)
    (h : lookup k l = some v) : (k, v) ∈ l := by
  induction l with
  | nil => simp [lookup] at h
  | cons a t ih =>
    obtain ⟨ka, va⟩ := a
    by_cases h1 : ka = k
    · simp only [lookup, h1, if_true, Option.some.injEq] at h
      simp [h1, h]
    · simp only [lookup, h1, if_false] at h
      exact List.mem_cons_of_mem _ (ih h)

theorem lookup_eq_none_iff (l : List (Str × Int)) (k : Str) :
    lookup k l = none ↔ k ∉ l.map Prod.fst := by
  induction l with
  | nil => simp [lookup]
  | cons a t ih =>
    obtain ⟨ka, va⟩ := a
    by_cases h1 : ka = k
    · simp [lookup, h1]
    · have h2 : ¬ k = ka := fun e => h1 e.symm
      simp only [lookup, h1, if_false, ih]
      simp [h2]

namespace Distances

theorem getDistance_setDistance (d : Distances) (c c1 : Cell) (v : Int) :
    (d.setDistance c v).getDistance c1 = if c1 = c then v else d.getDistance c1 := by
  unfold getDistance setDistance
  simp only [lookup_assign, key_eq_iff]
  by_cases h : c1 = c <;> simp [h]

theorem contains_setDistance (d : Distances) (c c1 : Cell) (v : Int) :
    (d.setDistance c v).contains c1 = (decide (c1 = c) || d.contains c1) := by
  unfold contains setDistance
  simp only [lookup_assign, key_eq_iff]
  by_cases h : c1 = c <;> simp [h]

theorem getDistance_of_not_contains (d : Distances) (c : Cell) (h : d.contains c = false) :
    d.getDistance c = INT_MAX := by
  unfold contains at h
  unfold getDistance
  cases hl : lookup (key c) d.cells with
  | none => rfl
  | some v => simp [hl] at h

theorem root_setDistance (d : Distances) (c : Cell) (v : Int) :
    (d.setDistance c v).root = d.root := rfl

theorem getDistance_new (start c : Cell) :
    (new start).getDistance c = if c = start then 0 else INT_MAX := by
  unfold getDistance new
  simp only [lookup_assign, key_eq_iff, lookup]
  by_cases h : c = start
  · simp [h]
  · have h2 : ¬ start = c := fun e => h e.symm
    simp [h, h2]

theorem contains_new (start c : Cell) : (new start).contains c = decide (c = start) := by
  unfold contains new
  simp only [lookup_assign, key_eq_iff, lookup]
  by_cases h : c = start
  · simp [h]
  · have h2 : ¬ start = c := fun e => h e.symm
    simp [h, h2]

end Distances

end MazeBuilder

namespace MazeBuilder

/-! ## The priority queue -/

theorem entryLt_true_le {a b : Entry} (h : entryLt a b = true) : a.1 ≤ b.1 := by
  unfold entryLt at h
  simp only [Bool.or_eq_true, decide_eq_true_eq, Bool.and_eq_true, Bool.not_eq_true',
    decide_eq_false_iff_not] at h
  rcases h with h | h
  · omega
  · omega

theorem entryLt_false_le {a b : Entry} (h : entryLt a b = false) : b.1 ≤ a.1 := by
  unfold entryLt at h
  simp only [Bool.or_eq_false_iff, decide_eq_false_iff_not] at h
  omega

theorem leastEntry_spec (xs : List Entry) : ∀ m : Entry,
    leastEntry m xs ∈ m :: xs ∧ ∀ x ∈ m :: xs, (leastEntry m xs).1 ≤ x.1 := by
  induction xs with
  | nil => intro m; simp [leastEntry]
  | cons y ys ih =>
    intro m
    unfold leastEntry
    split
    · rename_i hlt
      obtain ⟨h1, h2⟩ := ih y
      refine ⟨?_, ?_⟩
      · rcases List.mem_cons.mp h1 with h | h
        · simp [h]
        · exact List.mem_cons_of_mem _ (List.mem_cons_of_mem _ h)
      · intro x hx
        rcases List.mem_cons.mp hx with hx | hx
        · subst hx
          have := h2 y (by simp)
          have := entryLt_true_le hlt
          omega
        · exact h2 x hx
    · rename_i hlt
      have hlt2 : entryLt y m = false := by simpa using hlt
      obtain ⟨h1, h2⟩ := ih m
      refine ⟨?_, ?_⟩
      · rcases List.mem_cons.mp h1 with h | h
        · simp [h]
        · exact List.mem_cons_of_mem _ (List.mem_cons_of_mem _ h)
      · intro x hx
        rcases List.mem_cons.mp hx with hx | hx
        · subst hx; exact h2 x (by simp)
        · rcases List.mem_cons.mp hx with hx | hx
          · subst hx
            have := h2 m (by simp)
            have := entryLt_false_le hlt2
            omega
          · exact h2 x (List.mem_cons_of_mem _ hx)

theorem top_eq_none {f : List Entry} (h : top f = none) : f = [] := by
  cases f with
  | nil => rfl
  | cons x xs => simp [top] at h

theorem top_spec {f : List Entry} {m : Entry} (h : top f = some m) :
    m ∈ f ∧ ∀ x ∈ f, m.1 ≤ x.1 := by
  cases f with
  | nil => simp [top] at h
  | cons x xs =>
    simp only [top, Option.some.injEq] at h
    subst h
    exact leastEntry_spec xs x

theorem length_pop {f : List Entry} {m : Entry} (h : m ∈ f) :
    (pop m f).length + 1 = f.length := by
  unfold pop
  rw [List.length_erase_of_mem h]
  have : 0 < f.length := List.length_pos_of_mem h
  omega

theorem mem_of_mem_pop {f : List Entry} {m x : Entry} (h : x ∈ pop m f) : x ∈ f :=
  List.mem_of_mem_erase h

theorem mem_pop_of_ne {f : List Entry} {m x : Entry} (h : x ∈ f) (hne : x ≠ m) :
    x ∈ pop m f :=
  (List.mem_erase_of_ne hne).mpr h

theorem length_push (e : Entry) (f : List Entry) : (push e f).length = f.length + 1 := by
  simp [push]

theorem mem_push {e x : Entry} {f : List Entry} : x ∈ push e f ↔ x ∈ f ∨ x = e := by
  simp [push]

/-! ## The cells of a grid -/

theorem Grid.validCell_iff (g : Grid) (c : Cell) :
    g.validCell c = true ↔ 0 ≤ c.row ∧ c.row < g.rows ∧ 0 ≤ c.col ∧ c.col < g.cols := by
  simp [Grid.validCell, Grid.isValid, and_assoc]

theorem Grid.mem_allCells (g : Grid) (c : Cell) : c ∈ g.allCells ↔ g.validCell c = true := by
  rw [Grid.validCell_iff]
  unfold Grid.allCells
  simp only [List.mem_flatMap, List.mem_range, List.mem_map]
  constructor
  · rintro ⟨r, hr, k, hk, rfl⟩
    simp only [Int.ofNat_eq_coe]
    omega
  · rintro ⟨h1, h2, h3, h4⟩
    refine ⟨c.row.toNat, by omega, c.col.toNat, by omega, ?_⟩
    cases c
    simp only [Cell.mk.injEq, Int.ofNat_eq_coe] at *
    omega

theorem Grid.nodup_allCells (g : Grid) : g.allCells.Nodup := by
  unfold Grid.allCells
  rw [List.nodup_flatMap]
  refine ⟨?_, ?_⟩
  · intro r _
    refine List.Nodup.map ?_ (List.nodup_range _)
    intro a b hab
    simpa using hab
  · refine List.Pairwise.imp_of_mem ?_ (List.nodup_range _)
    intro a b _ _ hab
    simp only [Function.onFun, List.disjoint_iff_ne, List.mem_map, List.mem_range]
    rintro x ⟨i, _, rfl⟩ y ⟨j, _, rfl⟩ hxy
    simp only [Cell.mk.injEq, Int.ofNat_eq_coe, Nat.cast_inj] at hxy
    exact hab hxy.1

theorem Grid.length_allCells (g : Grid) : g.allCells.length = g.rows.toNat * g.cols.toNat := by
  unfold Grid.allCells
  rw [List.length_flatMap]
  have h : (List.length ∘ fun (r : Nat) =>
      List.map (fun (c : Nat) => Cell.mk (Int.ofNat r) (Int.ofNat c)) (List.range g.cols.toNat))
      = fun _ => g.cols.toNat := by
    funext r
    simp
  rw [h]
  simp

end MazeBuilder

namespace MazeBuilder

/-! ## One relaxation step -/

theorem countP_succ_of_flip {α : Type} [DecidableEq α] (l : List α) (hnd : l.Nodup) (a : α)
    (ha : a ∈ l) (p q : α → Bool) (hpa : p a = false) (hqa : q a = true)
    (hother : ∀ x, x ≠ a → q x = p x) : l.countP q = l.countP p + 1 := by
  induction l with
  | nil => simp at ha
  | cons x t ih =>
    simp only [List.nodup_cons] at hnd
    rcases List.mem_cons.mp ha with h | h
    · subst h
      have ht : t.countP q = t.countP p := by
        apply List.countP_congr
        intro y hy
        have hne : y ≠ a := fun e => hnd.1 (e ▸ hy)
        rw [hother y hne]
      simp [List.countP_cons, hpa, hqa, ht]
    · have hne : x ≠ a := fun e => hnd.1 (e ▸ h)
      have := ih hnd.2 h
      simp only [List.countP_cons, hother x hne, this]
      omega

theorem addOne_eq (d : Int) (h0 : 0 ≤ d) (h1 : d < INT_MAX) : addOne d = d + 1 := by
  unfold addOne INT_MIN
  unfold INT_MAX at h1
  omega

theorem Distances.contains_iff_lookup (D : Distances) (c : Cell) :
    D.contains c = true ↔ ∃ v, lookup (Distances.key c) D.cells = some v := by
  unfold Distances.contains
  cases lookup (Distances.key c) D.cells <;> simp

theorem Distances.getDistance_of_lookup (D : Distances) (c : Cell) (v : Int)
    (h : lookup (Distances.key c) D.cells = some v) : D.getDistance c = v := by
  unfold Distances.getDistance
  rw [h]

theorem recordedCount_le (g : Grid) (D : Distances) : recordedCount g D ≤ g.allCells.length :=
  List.countP_le_length _

theorem recordedCount_setDistance (g : Grid) (D : Distances) (c : Cell) (v : Int)
    (hv : g.validCell c = true) (hc : D.contains c = false) :
    recordedCount g (D.setDistance c v) = recordedCount g D + 1 := by
  unfold recordedCount
  apply countP_succ_of_flip g.allCells g.nodup_allCells c ((g.mem_allCells c).mpr hv)
  · exact hc
  · simp [Distances.contains_setDistance]
  · intro x hx
    simp [Distances.contains_setDistance, hx]

theorem Grid.linked_iff (g : Grid) (p q : Cell) :
    g.linked p q = true ↔
      g.validCell p = true ∧ g.validCell q = true ∧ ∃ dir ∈ g.getLinks p, p.neighbor dir = q := by
  simp [Grid.linked, and_assoc]

theorem SearchInv.valid_of_contains {g : Grid} {root : Cell} {L : Int} {P : Cell → Prop}
    {D : Distances} {F : List Entry} (h : SearchInv g root L P D F) {c : Cell}
    (hc : D.contains c = true) : g.validCell c = true := by
  obtain ⟨v, hv⟩ := (D.contains_iff_lookup c).mp hc
  obtain ⟨c1, h1, h2⟩ := h.keys _ (mem_of_lookup_eq_some _ _ _ hv)
  have : c = c1 := (Distances.key_eq_iff c c1).mp h1
  rw [this]; exact h2

end MazeBuilder

namespace MazeBuilder

theorem Dijkstra.relax_eq (g : Grid) (p : Cell) (d : Int) (D : Distances) (F : List Entry)
    (dir : Direction) :
    Dijkstra.relax g p.row p.col d (D, F) dir =
      if g.validCell (p.neighbor dir) = true ∧ addOne d < D.getDistance (p.neighbor dir) then
        (D.setDistance (p.neighbor dir) (addOne d),
          push (addOne d, Distances.key (p.neighbor dir)) F)
      else (D, F) := by
  unfold Dijkstra.relax
  simp only [Grid.validCell, Cell.neighbor, Grid.at]
  by_cases h1 : g.isValid (p.row + (DIRECTION_OFFSETS dir).2) (p.col + (DIRECTION_OFFSETS dir).1)
      = true
  · by_cases h2 : addOne d <
        D.getDistance ⟨p.row + (DIRECTION_OFFSETS dir).2, p.col + (DIRECTION_OFFSETS dir).1⟩
    · simp [h1, h2]
    · simp [h1, h2]
  · simp [h1]

theorem Dijkstra.relax_spec {g : Grid} {root p : Cell} {d0 : Int} {D : Distances}
    {F : List Entry} (hInv : SearchInv g root d0 (fun c => c = p) D F)
    (hp : D.contains p = true) (hd : D.getDistance p = d0) (dir : Direction)
    (hdir : dir ∈ g.getLinks p) :
    SearchInv g root d0 (fun c => c = p) (Dijkstra.relax g p.row p.col d0 (D, F) dir).1
        (Dijkstra.relax g p.row p.col d0 (D, F) dir).2 ∧
      (∀ c, D.contains c = true →
        (Dijkstra.relax g p.row p.col d0 (D, F) dir).1.contains c = true ∧
          (Dijkstra.relax g p.row p.col d0 (D, F) dir).1.getDistance c = D.getDistance c) ∧
      (∀ c, (Dijkstra.relax g p.row p.col d0 (D, F) dir).1.getDistance c ≤ D.getDistance c) ∧
      (g.validCell (p.neighbor dir) = true →
        (Dijkstra.relax g p.row p.col d0 (D, F) dir).1.getDistance (p.neighbor dir) ≤ d0 + 1) ∧
      ((recordedCount g (Dijkstra.relax g p.row p.col d0 (D, F) dir).1 : Int)
          - ((Dijkstra.relax g p.row p.col d0 (D, F) dir).2.length : Int)
        = (recordedCount g D : Int) - (F.length : Int)) := by
  have hpv := hInv.valid_of_contains hp
  have hr := hInv.range p hp
  rw [hd] at hr
  have hadd : addOne d0 = d0 + 1 := addOne_eq d0 hr.1 hr.2.1
  rw [Dijkstra.relax_eq, hadd]
  by_cases hc : g.validCell (p.neighbor dir) = true ∧ d0 + 1 < D.getDistance (p.neighbor dir)
  · rw [if_pos hc]
    obtain ⟨hnv, hlt⟩ := hc
    -- the neighbour has no entry yet
    have hnc : D.contains (p.neighbor dir) = false := by
      by_contra hcon
      have hcon2 : D.contains (p.neighbor dir) = true := by simpa using hcon
      have := (hInv.range _ hcon2).2.2.1
      omega
    have hmax : D.getDistance (p.neighbor dir) = INT_MAX :=
      D.getDistance_of_not_contains _ hnc
    have hlook : lookup (Distances.key (p.neighbor dir)) D.cells = none := by
      unfold Distances.contains at hnc
      cases hl : lookup (Distances.key (p.neighbor dir)) D.cells with
      | none => rfl
      | some v => simp [hl] at hnc
    have hcells : (D.setDistance (p.neighbor dir) (d0 + 1)).cells
        = D.cells ++ [(Distances.key (p.neighbor dir), d0 + 1)] :=
      assign_of_lookup_none _ _ _ hlook
    have hcount := recordedCount_setDistance g D (p.neighbor dir) (d0 + 1) hnv hnc
    have hneq : ∀ c, D.contains c = true → c ≠ p.neighbor dir := by
      intro c hcc e
      rw [e, hnc] at hcc
      exact Bool.false_ne_true hcc
    have hkeep : ∀ c, D.contains c = true →
        (D.setDistance (p.neighbor dir) (d0 + 1)).contains c = true ∧
          (D.setDistance (p.neighbor dir) (d0 + 1)).getDistance c = D.getDistance c := by
      intro c hcc
      rw [Distances.contains_setDistance, Distances.getDistance_setDistance,
        if_neg (hneq c hcc), hcc]
      simp
    have hmono : ∀ c, (D.setDistance (p.neighbor dir) (d0 + 1)).getDistance c
        ≤ D.getDistance c := by
      intro c
      rw [Distances.getDistance_setDistance]
      split
      · rename_i e
        rw [e]; omega
      · exact le_refl _
    refine ⟨?_, hkeep, hmono, ?_, ?_⟩
    · refine ⟨hInv.root_eq, (hkeep root hInv.root_in).1, ?_, ?_, ?_, ?_, ?_, ?_, ?_⟩
      · rw [(hkeep root hInv.root_in).2]; exact hInv.root_zero
      · intro kv hkv
        rw [hcells] at hkv
        rcases List.mem_append.mp hkv with h | h
        · exact hInv.keys kv h
        · simp only [List.mem_singleton] at h
          exact ⟨p.neighbor dir, by rw [h], hnv⟩
      · rw [hcells, List.map_append, List.nodup_append]
        refine ⟨hInv.nodup, by simp, ?_⟩
        intro a ha hb
        simp only [List.map_cons, List.map_nil, List.mem_singleton] at hb
        rw [hb] at ha
        exact (lookup_eq_none_iff _ _).mp hlook ha
      · intro c hcc
        rw [Distances.contains_setDistance] at hcc
        rw [Distances.getDistance_setDistance, hcount]
        by_cases e : c = p.neighbor dir
        · rw [if_pos e]
          have := hr.2.2.2
          refine ⟨by omega, by omega, by omega, ?_⟩
          push_cast
          omega
        · rw [if_neg e]
          have hcc2 : D.contains c = true := by simpa [e] using hcc
          have := hInv.range c hcc2
          refine ⟨this.1, this.2.1, this.2.2.1, ?_⟩
          push_cast
          omega
      · intro e he
        rcases mem_push.mp he with h | h
        · obtain ⟨h1, c, h2, h3, h4⟩ := hInv.frontier e h
          exact ⟨h1, c, h2, (hkeep c h3).1, by rw [(hkeep c h3).2]; exact h4⟩
        · subst h
          refine ⟨by simp, p.neighbor dir, rfl, ?_, ?_⟩
          · simp [Distances.contains_setDistance]
          · simp [Distances.getDistance_setDistance]
      · intro c hcc
        rw [Distances.contains_setDistance] at hcc
        rw [Distances.getDistance_setDistance]
        by_cases e : c = p.neighbor dir
        · rw [if_pos e, e]
          have hch := hInv.sound p hp
          rw [hd] at hch
          have hl : g.linked p (p.neighbor dir) = true :=
            (g.linked_iff _ _).mpr ⟨hpv, hnv, dir, hdir, rfl⟩
          have h2 : (d0 + 1).toNat = d0.toNat + 1 := by omega
          rw [h2]
          exact Chain.snoc hch hl
        · rw [if_neg e]
          have hcc2 : D.contains c = true := by simpa [e] using hcc
          exact hInv.sound c hcc2
      · intro c hcc
        rw [Distances.contains_setDistance] at hcc
        by_cases e : c = p.neighbor dir
        · right; left
          exact ⟨(d0 + 1, Distances.key (p.neighbor dir)), mem_push.mpr (Or.inr rfl), by rw [e]⟩
        · have hcc2 : D.contains c = true := by simpa [e] using hcc
          rcases hInv.closed c hcc2 with h | h | h
          · left; exact h
          · right; left
            obtain ⟨e1, h1, h2⟩ := h
            exact ⟨e1, mem_push.mpr (Or.inl h1), h2⟩
          · right; right
            intro q hq
            have h1 := h q hq
            have h2 := hmono q
            have h3 := (hkeep c hcc2).2
            show (D.setDistance (p.neighbor dir) (d0 + 1)).getDistance q
              ≤ (D.setDistance (p.neighbor dir) (d0 + 1)).getDistance c + 1
            omega
    · intro _
      simp [Distances.getDistance_setDistance]
    · simp only [hcount, length_push]
      push_cast
      omega
  · rw [if_neg hc]
    refine ⟨hInv, fun c hcc => ⟨hcc, rfl⟩, fun c => le_refl _, ?_, rfl⟩
    intro hv
    simp only [hv, true_and, not_lt] at hc
    exact hc

end MazeBuilder

namespace MazeBuilder

/-! ## The loop over the links of a cell, and the search loop -/

theorem Dijkstra.relax_fold_spec {g : Grid} {root p : Cell} {d0 : Int} :
    ∀ (ds : List Direction) (D : Distances) (F : List Entry),
      (∀ dir ∈ ds, dir ∈ g.getLinks p) →
      SearchInv g root d0 (fun c => c = p) D F →
      D.contains p = true → D.getDistance p = d0 →
      SearchInv g root d0 (fun c => c = p)
          (ds.foldl (Dijkstra.relax g p.row p.col d0) (D, F)).1
          (ds.foldl (Dijkstra.relax g p.row p.col d0) (D, F)).2 ∧
        (∀ c, D.contains c = true →
          (ds.foldl (Dijkstra.relax g p.row p.col d0) (D, F)).1.contains c = true ∧
            (ds.foldl (Dijkstra.relax g p.row p.col d0) (D, F)).1.getDistance c
              = D.getDistance c) ∧
        (∀ c, (ds.foldl (Dijkstra.relax g p.row p.col d0) (D, F)).1.getDistance c
          ≤ D.getDistance c) ∧
        (∀ dir ∈ ds, g.validCell (p.neighbor dir) = true →
          (ds.foldl (Dijkstra.relax g p.row p.col d0) (D, F)).1.getDistance (p.neighbor dir)
            ≤ d0 + 1) ∧
        ((recordedCount g (ds.foldl (Dijkstra.relax g p.row p.col d0) (D, F)).1 : Int)
            - ((ds.foldl (Dijkstra.relax g p.row p.col d0) (D, F)).2.length : Int)
          = (recordedCount g D : Int) - (F.length : Int)) := by
  intro ds
  induction ds with
  | nil =>
    intro D F _ hInv _ _
    exact ⟨hInv, fun c hc => ⟨hc, rfl⟩, fun c => le_refl _, by simp, rfl⟩
  | cons dir t ih =>
    intro D F hsub hInv hp hd
    obtain ⟨s1, s2, s3, s4, s5⟩ :=
      Dijkstra.relax_spec hInv hp hd dir (hsub dir (by simp))
    have hp1 := (s2 p hp).1
    have hd1 : (Dijkstra.relax g p.row p.col d0 (D, F) dir).1.getDistance p = d0 := by
      rw [(s2 p hp).2, hd]
    obtain ⟨t1, t2, t3, t4, t5⟩ :=
      ih (Dijkstra.relax g p.row p.col d0 (D, F) dir).1
        (Dijkstra.relax g p.row p.col d0 (D, F) dir).2
        (fun d hdm => hsub d (by simp [hdm])) s1 hp1 hd1
    simp only [List.foldl_cons]
    refine ⟨t1, ?_, ?_, ?_, ?_⟩
    · intro c hc
      have a := s2 c hc
      have b := t2 c a.1
      exact ⟨b.1, by rw [b.2, a.2]⟩
    · intro c
      exact le_trans (t3 c) (s3 c)
    · intro d hdm hv
      rcases List.mem_cons.mp hdm with h | h
      · subst h
        exact le_trans (t3 _) (s4 hv)
      · exact t4 d h hv
    · rw [← s5]; exact t5

theorem Grid.at_eq (g : Grid) (p : Cell) : g.at p.row p.col = p := rfl

theorem Dijkstra.searchLoop_spec (g : Grid) (root : Cell) :
    ∀ (fuel : Nat) (D : Distances) (F : List Entry) (L : Int),
      SearchInv g root L (fun _ => False) D F →
      (g.allCells.length : Int) - (recordedCount g D : Int) + (F.length : Int) + 1 ≤ (fuel : Int) →
      ∃ (D1 : Distances) (L1 : Int), Dijkstra.searchLoop g fuel D F = some D1 ∧
        SearchInv g root L1 (fun _ => False) D1 [] := by
  intro fuel
  induction fuel with
  | zero =>
    intro D F L _ hfuel
    have := recordedCount_le g D
    omega
  | succ fuel ih =>
    intro D F L hInv hfuel
    unfold Dijkstra.searchLoop
    cases htop : top F with
    | none =>
      have hF := top_eq_none htop
      subst hF
      exact ⟨D, L, rfl, hInv⟩
    | some m =>
      obtain ⟨hm, hmin⟩ := top_spec htop
      obtain ⟨hLm, p, hk, hpc, hpd⟩ := hInv.frontier m hm
      have hpv := hInv.valid_of_contains hpc
      have hpv2 : g.isValid p.row p.col = true := hpv
      simp only [hk, parseKey_cell, hpv2, if_true, Grid.at_eq]
      -- the invariant while the links of `p` are processed
      have hInv1 : SearchInv g root m.1 (fun c => c = p) D (pop m F) := by
        refine ⟨hInv.root_eq, hInv.root_in, hInv.root_zero, hInv.keys, hInv.nodup, ?_, ?_,
          hInv.sound, ?_⟩
        · intro c hc
          have := hInv.range c hc
          exact ⟨this.1, this.2.1, by omega, this.2.2.2⟩
        · intro e he
          have he2 := mem_of_mem_pop he
          obtain ⟨_, c, h2, h3, h4⟩ := hInv.frontier e he2
          exact ⟨hmin e he2, c, h2, h3, h4⟩
        · intro c hc
          rcases hInv.closed c hc with h | h | h
          · exact absurd h id
          · obtain ⟨e, he, hek⟩ := h
            by_cases hem : e = m
            · left
              rw [hem, hk] at hek
              exact ((Distances.key_eq_iff _ _).mp hek).symm
            · right; left
              exact ⟨e, mem_pop_of_ne he hem, hek⟩
          · right; right; exact h
      obtain ⟨t1, t2, t3, t4, t5⟩ :=
        Dijkstra.relax_fold_spec (g.getLinks p) D (pop m F) (fun _ h => h) hInv1 hpc hpd
      rw [hpd]
      have hInv2 : SearchInv g root m.1 (fun _ => False)
          ((g.getLinks p).foldl (Dijkstra.relax g p.row p.col m.1) (D, pop m F)).1
          ((g.getLinks p).foldl (Dijkstra.relax g p.row p.col m.1) (D, pop m F)).2 := by
        refine ⟨t1.root_eq, t1.root_in, t1.root_zero, t1.keys, t1.nodup, t1.range, t1.frontier,
          t1.sound, ?_⟩
        intro c hc
        rcases t1.closed c hc with h | h | h
        · right; right
          subst h
          intro q hq
          obtain ⟨_, hqv, dir, hdir, hnb⟩ := (g.linked_iff _ _).mp hq
          subst hnb
          have := t4 dir hdir hqv
          rw [(t2 c hpc).2, hpd]
          exact this
        · right; left; exact h
        · right; right; exact h
      have hlen := length_pop hm
      exact ih _ _ m.1 hInv2 (by omega)

end MazeBuilder

namespace MazeBuilder

/-! ## The result of the search -/

theorem Grid.length_allCells_of_valid (g : Grid) {c : Cell} (hc : g.validCell c = true) :
    (g.allCells.length : Int) = g.rows * g.cols := by
  have h := (g.validCell_iff c).mp hc
  rw [g.length_allCells]
  push_cast
  rw [Int.toNat_of_nonneg (by omega), Int.toNat_of_nonneg (by omega)]

theorem Dijkstra.searchInv_init (g : Grid) (root : Cell) (hroot : g.validCell root = true) :
    SearchInv g root 0 (fun _ => False) (Distances.new root)
      (push (0, Distances.key root) []) := by
  have hcount : 1 ≤ recordedCount g (Distances.new root) := by
    unfold recordedCount
    apply List.countP_pos_iff.mpr
    exact ⟨root, (g.mem_allCells root).mpr hroot, by simp [Distances.contains_new]⟩
  refine ⟨rfl, by simp [Distances.contains_new], by simp [Distances.getDistance_new], ?_, ?_,
    ?_, ?_, ?_, ?_⟩
  · intro kv hkv
    simp only [Distances.new, assign, List.mem_singleton] at hkv
    exact ⟨root, by rw [hkv], hroot⟩
  · simp [Distances.new, assign]
  · intro c hc
    simp only [Distances.contains_new, decide_eq_true_eq] at hc
    subst hc
    simp only [Distances.getDistance_new, if_true]
    refine ⟨le_refl _, by decide, by omega, ?_⟩
    omega
  · intro e he
    simp only [push, List.nil_append, List.mem_singleton] at he
    subst he
    exact ⟨le_refl _, root, rfl, by simp [Distances.contains_new],
      by simp [Distances.getDistance_new]⟩
  · intro c hc
    simp only [Distances.contains_new, decide_eq_true_eq] at hc
    subst hc
    simp only [Distances.getDistance_new, if_true, Int.toNat_zero]
    exact Chain.nil
  · intro c hc
    simp only [Distances.contains_new, decide_eq_true_eq] at hc
    subst hc
    right; left
    exact ⟨(0, Distances.key c), by simp [push], rfl⟩

/-- The search from an in-bounds root returns a map, and the invariant holds of it. -/
theorem Dijkstra.calculateDistances_done (g : Grid) (root : Cell)
    (hroot : g.validCell root = true) :
    ∃ D, Dijkstra.calculateDistances g root = some D ∧ SearchDone g root D := by
  have hInv := Dijkstra.searchInv_init g root hroot
  have hlen := g.length_allCells_of_valid hroot
  have hcount : 1 ≤ recordedCount g (Distances.new root) := by
    have := (hInv.range root hInv.root_in).2.2.2
    rw [hInv.root_zero] at this
    omega
  have hfuel : (g.allCells.length : Int) - (recordedCount g (Distances.new root) : Int)
      + ((push (0, Distances.key root) []).length : Int) + 1
      ≤ ((Dijkstra.searchFuel g : Nat) : Int) := by
    have h1 : ((Dijkstra.searchFuel g : Nat) : Int) = g.rows * g.cols + 2 := by
      unfold Dijkstra.searchFuel
      push_cast
      rw [Int.toNat_of_nonneg (by rw [← hlen]; omega)]
    rw [h1, hlen]
    simp only [push, List.nil_append, List.length_singleton]
    omega
  obtain ⟨D1, L1, h1, h2⟩ := Dijkstra.searchLoop_spec g root _ _ _ 0 hInv hfuel
  exact ⟨D1, h1, L1, h2⟩

namespace SearchDone

variable {g : Grid} {root : Cell} {D : Distances}

theorem root_eq (h : SearchDone g root D) : D.root = root := by
  obtain ⟨L, hInv⟩ := h
  exact hInv.root_eq

theorem root_in (h : SearchDone g root D) : D.contains root = true := by
  obtain ⟨L, hInv⟩ := h
  exact hInv.root_in

theorem root_zero (h : SearchDone g root D) : D.getDistance root = 0 := by
  obtain ⟨L, hInv⟩ := h
  exact hInv.root_zero

theorem valid (h : SearchDone g root D) {c : Cell} (hc : D.contains c = true) :
    g.validCell c = true := by
  obtain ⟨L, hInv⟩ := h
  exact hInv.valid_of_contains hc

theorem nonneg (h : SearchDone g root D) {c : Cell} (hc : D.contains c = true) :
    0 ≤ D.getDistance c := by
  obtain ⟨L, hInv⟩ := h
  exact (hInv.range c hc).1

theorem lt_max (h : SearchDone g root D) {c : Cell} (hc : D.contains c = true) :
    D.getDistance c < INT_MAX := by
  obtain ⟨L, hInv⟩ := h
  exact (hInv.range c hc).2.1

theorem lt_count (h : SearchDone g root D) {c : Cell} (hc : D.contains c = true) :
    D.getDistance c + 1 ≤ recordedCount g D := by
  obtain ⟨L, hInv⟩ := h
  exact (hInv.range c hc).2.2.2

theorem chain (h : SearchDone g root D) {c : Cell} (hc : D.contains c = true) :
    Chain g root c (D.getDistance c).toNat := by
  obtain ⟨L, hInv⟩ := h
  exact hInv.sound c hc

theorem closed (h : SearchDone g root D) {c : Cell} (hc : D.contains c = true) :
    Closed g D c := by
  obtain ⟨L, hInv⟩ := h
  rcases hInv.closed c hc with h1 | h1 | h1
  · exact absurd h1 id
  · obtain ⟨e, he, _⟩ := h1
    simp at he
  · exact h1

theorem contains_iff (h : SearchDone g root D) (c : Cell) :
    D.contains c = true ↔ D.getDistance c ≠ INT_MAX := by
  constructor
  · intro hc
    have := h.lt_max hc
    omega
  · intro hne
    by_contra hc
    have hc2 : D.contains c = false := by simpa using hc
    exact hne (D.getDistance_of_not_contains c hc2)

/-- A link step from a recorded cell leads to a recorded cell, at most one further away. -/
theorem step (h : SearchDone g root D) (hsize : g.rows * g.cols ≤ INT_MAX) {c q : Cell}
    (hc : D.contains c = true) (hl : g.linked c q = true) :
    D.contains q = true ∧ D.getDistance q ≤ D.getDistance c + 1 := by
  have hcl := h.closed hc q hl
  refine ⟨?_, hcl⟩
  by_contra hq
  have hq2 : D.contains q = false := by simpa using hq
  have hmax := D.getDistance_of_not_contains q hq2
  have h1 := h.lt_count hc
  have h2 := recordedCount_le g D
  have h3 := g.length_allCells_of_valid (h.valid hc)
  have hall : recordedCount g D = g.allCells.length := by omega
  unfold recordedCount at hall
  have hqv : g.validCell q = true := ((g.linked_iff c q).mp hl).2.1
  have := (List.countP_eq_length.mp hall) q ((g.mem_allCells q).mpr hqv)
  rw [hq2] at this
  exact Bool.false_ne_true this

/-- Every cell at the end of a chain from the root is recorded, with a distance that is
at most the length of the chain. -/
theorem le_chain (h : SearchDone g root D) (hsize : g.rows * g.cols ≤ INT_MAX) {p : Cell}
    {n : Nat} (hch : Chain g root p n) : D.contains p = true ∧ D.getDistance p ≤ n := by
  induction hch with
  | nil => exact ⟨h.root_in, by rw [h.root_zero]; simp⟩
  | snoc _ hl ih =>
    obtain ⟨h1, h2⟩ := h.step hsize ih.1 hl
    refine ⟨h1, ?_⟩
    push_cast
    omega

end SearchDone

end MazeBuilder

namespace MazeBuilder

theorem Distances.getDistance_le_max_of (D : Distances) (c : Cell)
    (h : D.contains c = true → D.getDistance c < INT_MAX) : D.getDistance c ≤ INT_MAX := by
  by_cases hc : D.contains c = true
  · exact le_of_lt (h hc)
  · have hc2 : D.contains c = false := by simpa using hc
    rw [D.getDistance_of_not_contains c hc2]

theorem Chain.eq_of_zero {g : Grid} {root p : Cell} (h : Chain g root p 0) : p = root := by
  cases h
  rfl

theorem Chain.pred {g : Grid} {root p : Cell} {n : Nat} (h : Chain g root p (n + 1)) :
    ∃ q, Chain g root q n ∧ g.linked q p = true := by
  cases h with
  | snoc hq hl => exact ⟨_, hq, hl⟩

theorem Chain.validCell_end {g : Grid} {root p : Cell} {n : Nat} (h : Chain g root p n)
    (hroot : g.validCell root = true) : g.validCell p = true := by
  cases h with
  | nil => exact hroot
  | snoc _ hl => exact ((g.linked_iff _ _).mp hl).2.1

namespace SearchDone

variable {g : Grid} {root : Cell} {D : Distances}

theorem le_max (h : SearchDone g root D) (c : Cell) : D.getDistance c ≤ INT_MAX :=
  D.getDistance_le_max_of c (fun hc => h.lt_max hc)

/-- The distance of a cell is at most the length of any chain from the root to it (whatever
the size of the grid). -/
theorem le_chain_length (h : SearchDone g root D) {p : Cell} {n : Nat}
    (hch : Chain g root p n) : D.getDistance p ≤ n := by
  induction hch with
  | nil => rw [h.root_zero]; simp
  | @snoc c q m _ hl ih =>
    push_cast
    by_cases hc : D.contains c = true
    · have := h.closed hc q hl
      omega
    · have hc2 : D.contains c = false := by simpa using hc
      have h1 := D.getDistance_of_not_contains c hc2
      have h2 := h.le_max q
      omega

/-- With bidirectional links, a recorded cell other than the root has a linked neighbour
exactly one step closer to the root. -/
theorem exists_pred (h : SearchDone g root D) (hbi : g.bidirectional) {p : Cell}
    (hp : D.contains p = true) (hne : p ≠ root) :
    ∃ q, g.linked p q = true ∧ D.contains q = true ∧ D.getDistance q = D.getDistance p - 1 := by
  have hch := h.chain hp
  have h0 := h.nonneg hp
  have hlt := h.lt_max hp
  have hpos : (D.getDistance p).toNat ≠ 0 := by
    intro hz
    rw [hz] at hch
    exact hne hch.eq_of_zero
  obtain ⟨k, hk⟩ := Nat.exists_eq_succ_of_ne_zero hpos
  rw [hk] at hch
  obtain ⟨q, hq, hl⟩ := hch.pred
  have hqle := h.le_chain_length hq
  have hqc : D.contains q = true := by
    rw [h.contains_iff]
    omega
  have hcl := h.closed hqc p hl
  exact ⟨q, hbi q p hl, hqc, by omega⟩

end SearchDone

/-! ## Claims about `calculateDistances` -/

/-- C1, as amended: for an in-bounds root, on a grid whose number of cells fits in an
`int`, the map returned by `calculateDistances` gives the root distance 0 and gives every
position the length of a shortest chain of link steps from the root to it; the distance is
the sentinel `INT_MAX` exactly when there is no such chain. -/
theorem Dijkstra.calculateDistances_shortest (g : Grid) (root p : Cell)
    (hroot : g.validCell root = true) (hsize : g.rows * g.cols ≤ INT_MAX) :
    ∃ d, Dijkstra.calculateDistances g root = some d ∧
      d.getDistance root = 0 ∧
      (d.getDistance p = INT_MAX ↔ ¬ Reachable g root p) ∧
      (Reachable g root p →
        0 ≤ d.getDistance p ∧ Chain g root p (d.getDistance p).toNat ∧
          ∀ n, Chain g root p n → d.getDistance p ≤ n) := by
  obtain ⟨D, hD, hdone⟩ := Dijkstra.calculateDistances_done g root hroot
  refine ⟨D, hD, hdone.root_zero, ?_, ?_⟩
  · constructor
    · rintro hmax ⟨n, hch⟩
      have := hdone.lt_max (hdone.le_chain hsize hch).1
      omega
    · intro hnr
      by_contra hne
      have hc := (hdone.contains_iff p).mpr hne
      exact hnr ⟨_, hdone.chain hc⟩
  · rintro ⟨n, hch⟩
    have hc := (hdone.le_chain hsize hch).1
    exact ⟨hdone.nonneg hc, hdone.chain hc, fun m hm => hdone.le_chain_length hm⟩

/-- C9: with bidirectional links and an in-bounds root, the returned map gives the root
distance 0, and every recorded position other than the root has a linked neighbour, reached
through its own link set, that is recorded with a distance smaller by exactly one. -/
theorem Dijkstra.calculateDistances_invariant (g : Grid) (root : Cell)
    (hbi : g.bidirectional) (hroot : g.validCell root = true) :
    ∃ d, Dijkstra.calculateDistances g root = some d ∧
      d.getDistance root = 0 ∧
      ∀ p, d.contains p = true → p ≠ root →
        ∃ q, g.linked p q = true ∧ d.contains q = true ∧
          d.getDistance q = d.getDistance p - 1 := by
  obtain ⟨D, hD, hdone⟩ := Dijkstra.calculateDistances_done g root hroot
  exact ⟨D, hD, hdone.root_zero, fun p hp hne => hdone.exists_pred hbi hp hne⟩

/-- C10, as amended: with bidirectional links, an in-bounds root and a number of cells that
fits in an `int`, two linked neighbours are either both absent from the returned map, or
both present with distances that differ by at most one. -/
theorem Dijkstra.calculateDistances_neighbours (g : Grid) (root p q : Cell)
    (hbi : g.bidirectional) (hroot : g.validCell root = true)
    (hsize : g.rows * g.cols ≤ INT_MAX) (hl : g.linked p q = true) :
    ∃ d, Dijkstra.calculateDistances g root = some d ∧
      ((d.contains p = false ∧ d.contains q = false) ∨
        (d.contains p = true ∧ d.contains q = true ∧
          |d.getDistance p - d.getDistance q| ≤ 1)) := by
  obtain ⟨D, hD, hdone⟩ := Dijkstra.calculateDistances_done g root hroot
  refine ⟨D, hD, ?_⟩
  have hl2 := hbi p q hl
  by_cases hp : D.contains p = true
  · right
    obtain ⟨hq, h1⟩ := hdone.step hsize hp hl
    obtain ⟨_, h2⟩ := hdone.step hsize hq hl2
    refine ⟨hp, hq, ?_⟩
    rw [abs_le]
    constructor <;> omega
  · left
    have hp2 : D.contains p = false := by simpa using hp
    refine ⟨hp2, ?_⟩
    by_contra hq
    have hq2 : D.contains q = true := by simpa using hq
    have := (hdone.step hsize hq2 hl2).1
    rw [hp2] at this
    exact Bool.false_ne_true this

/-- The search loop on the initial state of an out-of-bounds root: the root is popped and
skipped, and the loop ends with the map unchanged. -/
theorem Dijkstra.searchLoop_invalid_root (g : Grid) (root : Cell)
    (hroot : g.validCell root = false) (n : Nat) :
    Dijkstra.searchLoop g (n + 2) (Distances.new root) (push (0, Distances.key root) [])
      = some (Distances.new root) := by
  have hv : g.isValid root.row root.col = false := hroot
  have htop : top (push ((0 : Int), Distances.key root) []) = some (0, Distances.key root) := rfl
  have hpop : pop ((0 : Int), Distances.key root) (push ((0 : Int), Distances.key root) [])
      = [] := by
    simp [pop, push]
  rw [Dijkstra.searchLoop, htop]
  simp only [hpop, parseKey_cell, hv]
  rw [Dijkstra.searchLoop]
  rfl

/-- C7, as amended: for a root outside the bounds of the grid, `calculateDistances` signals
no error; it returns the map that holds only the root, at distance 0. -/
theorem Dijkstra.calculateDistances_invalid_root (g : Grid) (root : Cell)
    (hroot : g.validCell root = false) :
    Dijkstra.calculateDistances g root = some (Distances.new root) ∧
      (Distances.new root).getDistance root = 0 ∧
      ∀ c, c ≠ root → (Distances.new root).contains c = false := by
  refine ⟨?_, ?_, ?_⟩
  · unfold Dijkstra.calculateDistances Dijkstra.searchFuel
    exact Dijkstra.searchLoop_invalid_root g root hroot _
  · simp [Distances.getDistance_new]
  · intro c hc
    simp [Distances.contains_new, hc]

end MazeBuilder

namespace MazeBuilder

/-! ## The backward walk of `shortestPath` -/

theorem Dijkstra.pick_eq (g : Grid) (D : Distances) (c : Cell) (st : Option Cell × Int)
    (dir : Direction) :
    Dijkstra.pick g D c.row c.col st dir =
      if g.validCell (c.neighbor dir) = true ∧ D.getDistance (c.neighbor dir) < st.2 then
        (some (c.neighbor dir), D.getDistance (c.neighbor dir))
      else st := by
  unfold Dijkstra.pick
  simp only [Grid.validCell, Cell.neighbor, Grid.at]
  by_cases h1 : g.isValid (c.row + (DIRECTION_OFFSETS dir).2) (c.col + (DIRECTION_OFFSETS dir).1)
      = true
  · by_cases h2 :
        D.getDistance ⟨c.row + (DIRECTION_OFFSETS dir).2, c.col + (DIRECTION_OFFSETS dir).1⟩
          < st.2
    · simp [h1, h2]
    · simp [h1, h2]
  · simp [h1]

theorem Dijkstra.pick_fold_spec (g : Grid) (D : Distances) (c : Cell) :
    ∀ (ds : List Direction) (st : Option Cell × Int),
      (ds.foldl (Dijkstra.pick g D c.row c.col) st).2 ≤ st.2 ∧
        (∀ dir ∈ ds, g.validCell (c.neighbor dir) = true →
          (ds.foldl (Dijkstra.pick g D c.row c.col) st).2 ≤ D.getDistance (c.neighbor dir)) ∧
        (ds.foldl (Dijkstra.pick g D c.row c.col) st = st ∨
          ∃ dir ∈ ds, (ds.foldl (Dijkstra.pick g D c.row c.col) st).1 = some (c.neighbor dir) ∧
            g.validCell (c.neighbor dir) = true ∧
            D.getDistance (c.neighbor dir) = (ds.foldl (Dijkstra.pick g D c.row c.col) st).2 ∧
            (ds.foldl (Dijkstra.pick g D c.row c.col) st).2 < st.2) := by
  intro ds
  induction ds with
  | nil => intro st; simp
  | cons dir t ih =>
    intro st
    simp only [List.foldl_cons]
    obtain ⟨h1, h2, h3⟩ := ih (Dijkstra.pick g D c.row c.col st dir)
    have hp := Dijkstra.pick_eq g D c st dir
    by_cases hc : g.validCell (c.neighbor dir) = true ∧ D.getDistance (c.neighbor dir) < st.2
    · rw [if_pos hc] at hp
      have hp2 : (Dijkstra.pick g D c.row c.col st dir).2 = D.getDistance (c.neighbor dir) := by
        rw [hp]
      have hp1 : (Dijkstra.pick g D c.row c.col st dir).1 = some (c.neighbor dir) := by
        rw [hp]
      refine ⟨by omega, ?_, ?_⟩
      · intro d hd hv
        rcases List.mem_cons.mp hd with h | h
        · subst h; omega
        · exact h2 d h hv
      · right
        rcases h3 with h | ⟨d, hd, e1, e2, e3, e4⟩
        · refine ⟨dir, by simp, ?_, hc.1, ?_, ?_⟩
          · rw [h, hp1]
          · rw [h, hp2]
          · rw [h, hp2]; exact hc.2
        · exact ⟨d, by simp [hd], e1, e2, e3, by omega⟩
    · rw [if_neg hc] at hp
      rw [hp] at h1 h2 h3 ⊢
      refine ⟨h1, ?_, ?_⟩
      · intro d hd hv
        rcases List.mem_cons.mp hd with h | h
        · subst h
          have : st.2 ≤ D.getDistance (c.neighbor d) := by
            by_contra hlt
            exact hc ⟨hv, by omega⟩
          omega
        · exact h2 d h hv
      · rcases h3 with h | ⟨d, hd, e1, e2, e3, e4⟩
        · left; exact h
        · right; exact ⟨d, by simp [hd], e1, e2, e3, e4⟩

/-- When `nextCell` finds nothing, no linked in-bounds neighbour is strictly closer. -/
theorem Dijkstra.nextCell_none {g : Grid} {D : Distances} {c : Cell}
    (h : Dijkstra.nextCell g D c = none) :
    ∀ dir ∈ g.getLinks c, g.validCell (c.neighbor dir) = true →
      D.getDistance c ≤ D.getDistance (c.neighbor dir) := by
  obtain ⟨_, h2, h3⟩ := Dijkstra.pick_fold_spec g D c (g.getLinks c) (none, D.getDistance c)
  unfold Dijkstra.nextCell at h
  simp only [Cell.getRow, Cell.getCol] at h
  rcases h3 with h3 | ⟨d, _, e1, _⟩
  · rw [h3] at h2
    exact h2
  · rw [h] at e1
    exact absurd e1 (by simp)

/-- The cell found by `nextCell` is an in-bounds neighbour through a link of `c`, strictly
closer than `c`, and no other such neighbour is closer than it. -/
theorem Dijkstra.nextCell_some {g : Grid} {D : Distances} {c q : Cell}
    (h : Dijkstra.nextCell g D c = some q) :
    g.validCell q = true ∧ (∃ dir ∈ g.getLinks c, c.neighbor dir = q) ∧
      D.getDistance q < D.getDistance c ∧
      ∀ dir ∈ g.getLinks c, g.validCell (c.neighbor dir) = true →
        D.getDistance q ≤ D.getDistance (c.neighbor dir) := by
  obtain ⟨_, h2, h3⟩ := Dijkstra.pick_fold_spec g D c (g.getLinks c) (none, D.getDistance c)
  unfold Dijkstra.nextCell at h
  simp only [Cell.getRow, Cell.getCol] at h
  rcases h3 with h3 | ⟨d, hd, e1, e2, e3, e4⟩
  · rw [h3] at h
    exact absurd h (by simp)
  · rw [h] at e1
    have hq : q = c.neighbor d := by simpa using e1
    subst hq
    exact ⟨e2, ⟨d, hd, rfl⟩, by rw [e3]; exact e4, fun d2 hd2 hv => by rw [e3]; exact h2 d2 hd2 hv⟩

end MazeBuilder

namespace MazeBuilder

theorem Distances.contains_of_lt_max (D : Distances) (c : Cell)
    (h : D.getDistance c < INT_MAX) : D.contains c = true := by
  by_contra hc
  have hc2 : D.contains c = false := by simpa using hc
  have := D.getDistance_of_not_contains c hc2
  omega

/-- The backward walk returns, whatever the links of the grid, when the fuel is at least
the distance of the cell where it stands, plus one. -/
theorem Dijkstra.walkLoop_total (g : Grid) (D : Distances) (start : Cell)
    (hnn : ∀ c, D.contains c = true → 0 ≤ D.getDistance c)
    (hle : ∀ c, D.getDistance c ≤ INT_MAX) :
    ∀ (fuel : Nat) (cur : Cell) (path : List Cell),
      (D.getDistance cur).toNat + 1 ≤ fuel →
      ∃ tail, Dijkstra.walkLoop g D start fuel cur path = some (path ++ tail) := by
  intro fuel
  induction fuel with
  | zero => intro cur path h; omega
  | succ fuel ih =>
    intro cur path hfuel
    unfold Dijkstra.walkLoop
    by_cases hs : cur = start
    · exact ⟨[], by simp [hs]⟩
    · rw [if_neg hs]
      cases hn : Dijkstra.nextCell g D cur with
      | none => exact ⟨[], by simp⟩
      | some q =>
        obtain ⟨_, _, hlt, _⟩ := Dijkstra.nextCell_some hn
        have hqc : D.contains q = true :=
          D.contains_of_lt_max q (lt_of_lt_of_le hlt (hle cur))
        have h0 := hnn q hqc
        obtain ⟨tail, ht⟩ := ih q (path ++ [q]) (by omega)
        exact ⟨q :: tail, by simp [ht]⟩

/-- With bidirectional links, the backward walk from a recorded cell goes down by exactly
one at each pass, along links, and stops at the root. -/
theorem Dijkstra.walkLoop_spec {g : Grid} {start : Cell} {D : Distances}
    (hdone : SearchDone g start D) (hbi : g.bidirectional) :
    ∀ (fuel : Nat) (cur : Cell) (path : List Cell),
      D.contains cur = true → (D.getDistance cur).toNat + 1 ≤ fuel →
      ∃ tail, Dijkstra.walkLoop g D start fuel cur path = some (path ++ tail) ∧
        tail.length = (D.getDistance cur).toNat ∧
        List.Chain (fun a b => g.linked b a = true ∧ g.linked a b = true ∧
          D.getDistance b = D.getDistance a - 1) cur tail ∧
        (cur :: tail).getLast? = some start := by
  intro fuel
  induction fuel with
  | zero => intro cur path _ h; omega
  | succ fuel ih =>
    intro cur path hc hfuel
    unfold Dijkstra.walkLoop
    by_cases hs : cur = start
    · subst hs
      refine ⟨[], by simp, ?_, List.Chain.nil, by simp⟩
      rw [hdone.root_zero]
      rfl
    · rw [if_neg hs]
      obtain ⟨q0, hl0, hq0c, hq0d⟩ := hdone.exists_pred hbi hc hs
      obtain ⟨_, hq0v, dir0, hdir0, hnb0⟩ := (g.linked_iff _ _).mp hl0
      cases hn : Dijkstra.nextCell g D cur with
      | none =>
        have := Dijkstra.nextCell_none hn dir0 hdir0 (by rw [hnb0]; exact hq0v)
        rw [hnb0] at this
        omega
      | some q =>
        obtain ⟨hqv, ⟨dir, hdir, hnb⟩, hlt, hmin⟩ := Dijkstra.nextCell_some hn
        have hle0 := hmin dir0 hdir0 (by rw [hnb0]; exact hq0v)
        rw [hnb0] at hle0
        have hqc : D.contains q = true :=
          D.contains_of_lt_max q (lt_trans hlt (hdone.lt_max hc))
        have hl : g.linked cur q = true :=
          (g.linked_iff _ _).mpr ⟨hdone.valid hc, hqv, dir, hdir, hnb⟩
        have hl2 := hbi cur q hl
        have hcl := hdone.closed hqc cur hl2
        have hqd : D.getDistance q = D.getDistance cur - 1 := by omega
        have h0 := hdone.nonneg hqc
        obtain ⟨tail, ht1, ht2, ht3, ht4⟩ := ih q (path ++ [q]) hqc (by omega)
        refine ⟨q :: tail, by simp [ht1], ?_, List.Chain.cons ⟨hl2, hl, hqd⟩ ht3, ?_⟩
        · simp only [List.length_cons, ht2]
          omega
        · rw [List.getLast?_cons_cons]
          exact ht4

/-- The distances along a chain that goes down by one at each step. -/
theorem chain_getDistance {D : Distances} {R : Cell → Cell → Prop}
    (hR : ∀ a b, R a b → D.getDistance b = D.getDistance a - 1) :
    ∀ (tail : List Cell) (cur : Cell), List.Chain R cur tail →
      ∀ (i : Nat) (hi : i < (cur :: tail).length),
        D.getDistance ((cur :: tail).get ⟨i, hi⟩) = D.getDistance cur - i := by
  intro tail
  induction tail with
  | nil =>
    intro cur _ i hi
    simp only [List.length_singleton, Nat.lt_one_iff] at hi
    subst hi
    simp
  | cons b t ih =>
    intro cur hch i hi
    rw [List.chain_cons] at hch
    cases i with
    | zero => simp
    | succ j =>
      have := ih b hch.2 j (by simpa using hi)
      simp only [List.get_eq_getElem, List.getElem_cons_succ] at this ⊢
      rw [this, hR cur b hch.1]
      push_cast
      omega

/-- When the walk, standing at `cur`, comes to a cell `c` other than `start` from which
`nextCell` finds nothing, the loop ends there: the sequence returned ends with `c`. -/
theorem Dijkstra.walkLoop_stuck (g : Grid) (D : Distances) (start : Cell)
    (hnn : ∀ c, D.contains c = true → 0 ≤ D.getDistance c)
    (hle : ∀ c, D.getDistance c ≤ INT_MAX) {cur c : Cell}
    (hw : WalkTo g D start cur c) (hne : c ≠ start) (hstuck : Dijkstra.nextCell g D c = none) :
    ∀ (fuel : Nat) (path : List Cell), (D.getDistance cur).toNat + 1 ≤ fuel →
      ∃ tail, Dijkstra.walkLoop g D start fuel cur path = some (path ++ tail) ∧
        (cur :: tail).getLast? = some c := by
  induction hw with
  | here c =>
    intro fuel path hfuel
    obtain ⟨f, rfl⟩ : ∃ f, fuel = f + 1 := ⟨fuel - 1, by omega⟩
    refine ⟨[], ?_, by simp⟩
    unfold Dijkstra.walkLoop
    simp [hne, hstuck]
  | @next cur q c hcs hn _ ih =>
    intro fuel path hfuel
    obtain ⟨f, rfl⟩ : ∃ f, fuel = f + 1 := ⟨fuel - 1, by omega⟩
    obtain ⟨_, _, hlt, _⟩ := Dijkstra.nextCell_some hn
    have hqc : D.contains q = true :=
      D.contains_of_lt_max q (lt_of_lt_of_le hlt (hle cur))
    have h0 := hnn q hqc
    obtain ⟨tail, ht1, ht2⟩ := ih hne hstuck f (path ++ [q]) (by omega)
    refine ⟨q :: tail, ?_, ?_⟩
    · unfold Dijkstra.walkLoop
      simp [hcs, hn, ht1]
    · rw [List.getLast?_cons_cons]
      exact ht2

end MazeBuilder

namespace MazeBuilder

/-! ## Claims about `shortestPath` -/

theorem Chain.eq_root_of_invalid {g : Grid} {root p : Cell} {n : Nat} (h : Chain g root p n)
    (hroot : g.validCell root = false) : p = root := by
  induction h with
  | nil => rfl
  | snoc _ hl ih =>
    have := ((g.linked_iff _ _).mp hl).1
    rw [ih, hroot] at this
    exact absurd this (by simp)

/-- The search returns a map for every grid and every root. -/
theorem Dijkstra.calculateDistances_total (g : Grid) (start : Cell) :
    ∃ d, Dijkstra.calculateDistances g start = some d ∧
      ((g.validCell start = true ∧ SearchDone g start d) ∨
        (g.validCell start = false ∧ d = Distances.new start)) := by
  by_cases hv : g.validCell start = true
  · obtain ⟨d, h1, h2⟩ := Dijkstra.calculateDistances_done g start hv
    exact ⟨d, h1, Or.inl ⟨hv, h2⟩⟩
  · have hv2 : g.validCell start = false := by simpa using hv
    refine ⟨_, ?_, Or.inr ⟨hv2, rfl⟩⟩
    unfold Dijkstra.calculateDistances Dijkstra.searchFuel
    exact Dijkstra.searchLoop_invalid_root g start hv2 _

theorem Dijkstra.map_range {g : Grid} {start : Cell} {d : Distances}
    (h : (g.validCell start = true ∧ SearchDone g start d) ∨
      (g.validCell start = false ∧ d = Distances.new start)) :
    (∀ c, d.contains c = true → 0 ≤ d.getDistance c) ∧ (∀ c, d.getDistance c ≤ INT_MAX) := by
  rcases h with ⟨_, h⟩ | ⟨_, h⟩
  · exact ⟨fun c hc => h.nonneg hc, fun c => h.le_max c⟩
  · subst h
    refine ⟨?_, ?_⟩
    · intro c hc
      rw [Distances.getDistance_new]
      split
      · exact le_refl _
      · decide
    · intro c
      rw [Distances.getDistance_new]
      split
      · decide
      · exact le_refl _

/-- The shape of the result of `shortestPath` when the search has returned `d`. -/
theorem Dijkstra.shortestPath_eq {g : Grid} {start last : Cell} {d : Distances}
    (hd : Dijkstra.calculateDistances g start = some d) :
    Dijkstra.shortestPath g start last =
      if d.getDistance last = INT_MAX then some []
      else (Dijkstra.walkLoop g d start ((d.getDistance last).toNat + 1) last [last]).map
        List.reverse := by
  unfold Dijkstra.shortestPath
  rw [hd]

/-- With bidirectional links, the result of `shortestPath` for a recorded end. -/
theorem Dijkstra.shortestPath_spec {g : Grid} {start last : Cell} {d : Distances}
    (hd : Dijkstra.calculateDistances g start = some d) (hdone : SearchDone g start d)
    (hbi : g.bidirectional) (hc : d.contains last = true) :
    ∃ path, Dijkstra.shortestPath g start last = some path ∧
      (path.length : Int) = d.getDistance last + 1 ∧
      path.head? = some start ∧ path.getLast? = some last ∧
      List.Chain' (fun a b => g.linked a b = true) path ∧
      ∀ (i : Nat) (hi : i < path.length), d.getDistance (path.get ⟨i, hi⟩) = i := by
  have hne : d.getDistance last ≠ INT_MAX := (hdone.contains_iff last).mp hc
  have h0 := hdone.nonneg hc
  obtain ⟨tail, ht1, ht2, ht3, ht4⟩ :=
    Dijkstra.walkLoop_spec hdone hbi ((d.getDistance last).toNat + 1) last [last] hc (le_refl _)
  have hlen : (last :: tail).length = (d.getDistance last).toNat + 1 := by
    simp [ht2]
  refine ⟨(last :: tail).reverse, ?_, ?_, ?_, ?_, ?_, ?_⟩
  · rw [Dijkstra.shortestPath_eq hd, if_neg hne, ht1]
    rfl
  · rw [List.length_reverse, hlen]
    push_cast
    omega
  · rw [List.head?_reverse]
    exact ht4
  · rw [List.getLast?_reverse]
    rfl
  · rw [List.chain'_reverse]
    exact List.Chain.imp (fun a b h => h.1) ht3
  · intro i hi
    have hi2 : i < (last :: tail).length := by simpa using hi
    rw [List.get_eq_getElem, List.getElem_reverse]
    have hj : (last :: tail).length - 1 - i < (last :: tail).length := by omega
    have := chain_getDistance (D := d) (fun a b h => h.2.2) tail last ht3
      ((last :: tail).length - 1 - i) hj
    rw [List.get_eq_getElem] at this
    rw [this, hlen]
    omega

/-- C2, as amended: with bidirectional links, an in-bounds start, a number of cells that
fits in an `int`, and an end that can be reached from the start, the sequence returned by
`shortestPath` has exactly `distance[end] + 1` positions. -/
theorem Dijkstra.shortestPath_length (g : Grid) (start last : Cell) (hbi : g.bidirectional)
    (hstart : g.validCell start = true) (hsize : g.rows * g.cols ≤ INT_MAX)
    (hreach : Reachable g start last) :
    ∃ d path, Dijkstra.calculateDistances g start = some d ∧
      Dijkstra.shortestPath g start last = some path ∧
      (path.length : Int) = d.getDistance last + 1 := by
  obtain ⟨d, hd, hdone⟩ := Dijkstra.calculateDistances_done g start hstart
  obtain ⟨n, hch⟩ := hreach
  obtain ⟨path, h1, h2, _⟩ :=
    Dijkstra.shortestPath_spec hd hdone hbi (hdone.le_chain hsize hch).1
  exact ⟨d, path, hd, h1, h2⟩

/-- C3, as amended: with bidirectional links, an in-bounds start, a number of cells that
fits in an `int`, and an end that can be reached from the start, the sequence returned by
`shortestPath` begins with the start, ends with the end, every two consecutive positions are
linked neighbours, and the position of index `i` is at distance exactly `i` from the
start. -/
theorem Dijkstra.shortestPath_walk (g : Grid) (start last : Cell) (hbi : g.bidirectional)
    (hstart : g.validCell start = true) (hsize : g.rows * g.cols ≤ INT_MAX)
    (hreach : Reachable g start last) :
    ∃ d path, Dijkstra.calculateDistances g start = some d ∧
      Dijkstra.shortestPath g start last = some path ∧
      path.head? = some start ∧ path.getLast? = some last ∧
      List.Chain' (fun a b => g.linked a b = true) path ∧
      ∀ (i : Nat) (hi : i < path.length), d.getDistance (path.get ⟨i, hi⟩) = i := by
  obtain ⟨d, hd, hdone⟩ := Dijkstra.calculateDistances_done g start hstart
  obtain ⟨n, hch⟩ := hreach
  obtain ⟨path, h1, _, h3, h4, h5, h6⟩ :=
    Dijkstra.shortestPath_spec hd hdone hbi (hdone.le_chain hsize hch).1
  exact ⟨d, path, hd, h1, h3, h4, h5, h6⟩

/-- C4, as amended: for every grid, every start and every end, `shortestPath` returns a
sequence (no error); this sequence is empty exactly when the end has the sentinel distance
in the map computed from the start; it is empty whenever the end cannot be reached from the
start through links; and on a grid whose number of cells fits in an `int`, it is empty
exactly when the end cannot be reached from the start through links. -/
theorem Dijkstra.shortestPath_empty_iff (g : Grid) (start last : Cell) :
    ∃ d path, Dijkstra.calculateDistances g start = some d ∧
      Dijkstra.shortestPath g start last = some path ∧
      (path = [] ↔ d.getDistance last = INT_MAX) ∧
      (¬ Reachable g start last → path = []) ∧
      (g.rows * g.cols ≤ INT_MAX → (path = [] ↔ ¬ Reachable g start last)) := by
  obtain ⟨d, hd, hcase⟩ := Dijkstra.calculateDistances_total g start
  obtain ⟨hnn, hle⟩ := Dijkstra.map_range hcase
  -- a cell that cannot be reached has the sentinel distance
  have hsent1 : ¬ Reachable g start last → d.getDistance last = INT_MAX := by
    intro hnr
    rcases hcase with ⟨hv, hdone⟩ | ⟨hv, hnew⟩
    · by_contra hne
      exact hnr ⟨_, hdone.chain ((hdone.contains_iff last).mpr hne)⟩
    · subst hnew
      rw [Distances.getDistance_new]
      split
      · rename_i e
        exact absurd ⟨0, e ▸ Chain.nil⟩ hnr
      · rfl
  -- on a grid whose number of cells fits in an `int`, only such a cell has it
  have hsent2 : g.rows * g.cols ≤ INT_MAX → d.getDistance last = INT_MAX →
      ¬ Reachable g start last := by
    intro hsize hmax
    rcases hcase with ⟨hv, hdone⟩ | ⟨hv, hnew⟩
    · rintro ⟨n, hch⟩
      have := hdone.lt_max (hdone.le_chain hsize hch).1
      omega
    · subst hnew
      rw [Distances.getDistance_new] at hmax
      rintro ⟨n, hch⟩
      have := hch.eq_root_of_invalid hv
      rw [if_pos this] at hmax
      exact absurd hmax (by decide)
  have hpath : ∃ path, Dijkstra.shortestPath g start last = some path ∧
      (path = [] ↔ d.getDistance last = INT_MAX) := by
    by_cases hmax : d.getDistance last = INT_MAX
    · refine ⟨[], ?_, by simp [hmax]⟩
      rw [Dijkstra.shortestPath_eq hd, if_pos hmax]
    · obtain ⟨tail, ht⟩ := Dijkstra.walkLoop_total g d start hnn hle
        ((d.getDistance last).toNat + 1) last [last] (le_refl _)
      refine ⟨([last] ++ tail).reverse, ?_, by simp [hmax]⟩
      rw [Dijkstra.shortestPath_eq hd, if_neg hmax, ht]
      rfl
  obtain ⟨path, hp1, hp2⟩ := hpath
  exact ⟨d, path, hd, hp1, hp2, fun hnr => hp2.mpr (hsent1 hnr),
    fun hsize => ⟨fun h => hsent2 hsize (hp2.mp h), fun hnr => hp2.mpr (hsent1 hnr)⟩⟩

/-- C8, as amended: when the end has a finite recorded distance and the backward walk from
the end comes to a position other than the start that has no linked in-bounds neighbour
with a strictly smaller recorded distance, `shortestPath` signals no error; it returns the
positions walked so far in reverse order, a sequence that begins with that position and
ends with the end. -/
theorem Dijkstra.shortestPath_truncated (g : Grid) (start last c : Cell) (d : Distances)
    (hd : Dijkstra.calculateDistances g start = some d)
    (hfin : d.getDistance last ≠ INT_MAX)
    (hw : WalkTo g d start last c) (hne : c ≠ start)
    (hstuck : ∀ dir ∈ g.getLinks c, g.validCell (c.neighbor dir) = true →
      ¬ d.getDistance (c.neighbor dir) < d.getDistance c) :
    ∃ path, Dijkstra.shortestPath g start last = some path ∧
      path.head? = some c ∧ path.getLast? = some last := by
  obtain ⟨d1, hd1, hcase⟩ := Dijkstra.calculateDistances_total g start
  rw [hd] at hd1
  injection hd1 with hd1
  subst hd1
  obtain ⟨hnn, hle⟩ := Dijkstra.map_range hcase
  have hnone : Dijkstra.nextCell g d c = none := by
    cases hn : Dijkstra.nextCell g d c with
    | none => rfl
    | some q =>
      obtain ⟨hqv, ⟨dir, hdir, hnb⟩, hlt, _⟩ := Dijkstra.nextCell_some hn
      subst hnb
      exact absurd hlt (hstuck dir hdir hqv)
  obtain ⟨tail, ht1, ht2⟩ := Dijkstra.walkLoop_stuck g d start hnn hle hw hne hnone
    ((d.getDistance last).toNat + 1) [last] (le_refl _)
  refine ⟨(last :: tail).reverse, ?_, ?_, ?_⟩
  · rw [Dijkstra.shortestPath_eq hd, if_neg hfin, ht1]
    rfl
  · rw [List.head?_reverse]
    exact ht2
  · rw [List.getLast?_reverse]
    rfl

end MazeBuilder

namespace MazeBuilder

/-! ## The corridor -/

theorem corridor_isCorridor (n : Nat) : IsCorridor (corridor n) n := by
  refine ⟨rfl, rfl, ?_⟩
  intro col dir h0 hn
  simp only [corridor, List.mem_append]
  constructor
  · rintro (h | h)
    · split at h
      · left
        simp only [List.mem_singleton] at h
        exact ⟨h, by assumption⟩
      · simp at h
    · split at h
      · right
        simp only [List.mem_singleton] at h
        exact ⟨h, by assumption⟩
      · simp at h
  · rintro (⟨h1, h2⟩ | ⟨h1, h2⟩)
    · left
      rw [if_pos h2, h1]
      simp
    · right
      rw [if_pos h2, h1]
      simp

theorem IsCorridor.cell_iff {g : Grid} {n : Nat} (hg : IsCorridor g n) (p : Cell) :
    g.validCell p = true ↔ p.row = 0 ∧ 0 ≤ p.col ∧ p.col < n := by
  rw [Grid.validCell_iff, hg.1, hg.2.1]
  omega

theorem IsCorridor.step_iff {g : Grid} {n : Nat} (hg : IsCorridor g n) (p q : Cell) :
    g.linked p q = true ↔
      p.row = 0 ∧ q.row = 0 ∧ 0 ≤ p.col ∧ p.col < n ∧ 0 ≤ q.col ∧ q.col < n ∧
        (q.col = p.col + 1 ∨ q.col = p.col - 1) := by
  rw [Grid.linked_iff, hg.cell_iff, hg.cell_iff]
  obtain ⟨pr, pc⟩ := p
  obtain ⟨qr, qc⟩ := q
  simp only [Grid.getLinks]
  constructor
  · rintro ⟨⟨hp1, hp2, hp3⟩, ⟨hq1, hq2, hq3⟩, dir, hdir, hnb⟩
    subst hp1
    have hd := (hg.2.2 pc dir hp2 hp3).mp hdir
    simp only [Cell.neighbor, Cell.mk.injEq] at hnb
    refine ⟨rfl, hq1, hp2, hp3, hq2, hq3, ?_⟩
    rcases hd with ⟨e, _⟩ | ⟨e, _⟩
    · subst e
      simp only [DIRECTION_OFFSETS] at hnb
      right; omega
    · subst e
      simp only [DIRECTION_OFFSETS] at hnb
      left; omega
  · rintro ⟨h1, h2, h3, h4, h5, h6, h7⟩
    subst h1
    subst h2
    refine ⟨⟨rfl, h3, h4⟩, ⟨rfl, h5, h6⟩, ?_⟩
    rcases h7 with h7 | h7
    · refine ⟨Direction.EAST, (hg.2.2 pc _ h3 h4).mpr (Or.inr ⟨rfl, by omega⟩), ?_⟩
      simp only [Cell.neighbor, DIRECTION_OFFSETS, Cell.mk.injEq]
      omega
    · refine ⟨Direction.WEST, (hg.2.2 pc _ h3 h4).mpr (Or.inl ⟨rfl, by omega⟩), ?_⟩
      simp only [Cell.neighbor, DIRECTION_OFFSETS, Cell.mk.injEq]
      omega

theorem IsCorridor.two_way {g : Grid} {n : Nat} (hg : IsCorridor g n) : g.bidirectional := by
  intro p q h
  rw [hg.step_iff] at h ⊢
  obtain ⟨h1, h2, h3, h4, h5, h6, h7⟩ := h
  exact ⟨h2, h1, h5, h6, h3, h4, by omega⟩

theorem corridor_bidirectional (n : Nat) : (corridor n).bidirectional :=
  (corridor_isCorridor n).two_way

/-! ## Instances of the claims on concrete grids -/

/-- Instance of C1 on the corridor of three cells, from `(0, 0)` to `(0, 2)`. -/
theorem Dijkstra.calculateDistances_shortest_witness :
    (corridor 3).validCell ⟨0, 0⟩ = true ∧ (corridor 3).rows * (corridor 3).cols ≤ INT_MAX ∧
      ∃ d, Dijkstra.calculateDistances (corridor 3) ⟨0, 0⟩ = some d ∧
        d.getDistance ⟨0, 0⟩ = 0 ∧
        (d.getDistance ⟨0, 2⟩ = INT_MAX ↔ ¬ Reachable (corridor 3) ⟨0, 0⟩ ⟨0, 2⟩) ∧
        (Reachable (corridor 3) ⟨0, 0⟩ ⟨0, 2⟩ →
          0 ≤ d.getDistance ⟨0, 2⟩ ∧
            Chain (corridor 3) ⟨0, 0⟩ ⟨0, 2⟩ (d.getDistance ⟨0, 2⟩).toNat ∧
            ∀ n, Chain (corridor 3) ⟨0, 0⟩ ⟨0, 2⟩ n → d.getDistance ⟨0, 2⟩ ≤ n) :=
  ⟨by decide, by decide,
    Dijkstra.calculateDistances_shortest (corridor 3) ⟨0, 0⟩ ⟨0, 2⟩ (by decide) (by decide)⟩

/-- Counterexample to C7 as stated: on the grid of one cell, the search from the out-of-bounds
root `(0, 1)` returns a map, the one that holds only the root at distance 0. -/
theorem Dijkstra.calculateDistances_invalid_root_counterexample :
    (corridor 1).validCell ⟨0, 1⟩ = false ∧
      Dijkstra.calculateDistances (corridor 1) ⟨0, 1⟩ = some (Distances.new ⟨0, 1⟩) ∧
      (Distances.new ⟨0, 1⟩).getDistance ⟨0, 1⟩ = 0 := by
  decide

/-- Instance of C7, as amended, on the grid of one cell with the root `(0, 1)`. -/
theorem Dijkstra.calculateDistances_invalid_root_witness :
    (corridor 1).validCell ⟨0, 1⟩ = false ∧
      (Dijkstra.calculateDistances (corridor 1) ⟨0, 1⟩ = some (Distances.new ⟨0, 1⟩) ∧
        (Distances.new ⟨0, 1⟩).getDistance ⟨0, 1⟩ = 0 ∧
        ∀ c, c ≠ ⟨0, 1⟩ → (Distances.new ⟨0, 1⟩).contains c = false) :=
  ⟨by decide, Dijkstra.calculateDistances_invalid_root (corridor 1) ⟨0, 1⟩ (by decide)⟩

end MazeBuilder

namespace MazeBuilder

theorem corridor3_reachable : Reachable (corridor 3) ⟨0, 0⟩ ⟨0, 2⟩ :=
  ⟨2, Chain.snoc (Chain.snoc Chain.nil (q := ⟨0, 1⟩) (by decide)) (by decide)⟩

/-- Instance of C9 on the corridor of three cells. -/
theorem Dijkstra.calculateDistances_invariant_witness :
    (corridor 3).bidirectional ∧ (corridor 3).validCell ⟨0, 0⟩ = true ∧
      ∃ d, Dijkstra.calculateDistances (corridor 3) ⟨0, 0⟩ = some d ∧
        d.getDistance ⟨0, 0⟩ = 0 ∧
        ∀ p, d.contains p = true → p ≠ ⟨0, 0⟩ →
          ∃ q, (corridor 3).linked p q = true ∧ d.contains q = true ∧
            d.getDistance q = d.getDistance p - 1 :=
  ⟨corridor_bidirectional 3, by decide,
    Dijkstra.calculateDistances_invariant (corridor 3) ⟨0, 0⟩ (corridor_bidirectional 3)
      (by decide)⟩

/-- Instance of C10 on the corridor of three cells, for the neighbours `(0, 1)` and `(0, 2)`. -/
theorem Dijkstra.calculateDistances_neighbours_witness :
    (corridor 3).bidirectional ∧ (corridor 3).validCell ⟨0, 0⟩ = true ∧
      (corridor 3).rows * (corridor 3).cols ≤ INT_MAX ∧
      (corridor 3).linked ⟨0, 1⟩ ⟨0, 2⟩ = true ∧
      ∃ d, Dijkstra.calculateDistances (corridor 3) ⟨0, 0⟩ = some d ∧
        ((d.contains ⟨0, 1⟩ = false ∧ d.contains ⟨0, 2⟩ = false) ∨
          (d.contains ⟨0, 1⟩ = true ∧ d.contains ⟨0, 2⟩ = true ∧
            |d.getDistance ⟨0, 1⟩ - d.getDistance ⟨0, 2⟩| ≤ 1)) :=
  ⟨corridor_bidirectional 3, by decide, by decide, by decide,
    Dijkstra.calculateDistances_neighbours (corridor 3) ⟨0, 0⟩ ⟨0, 1⟩ ⟨0, 2⟩
      (corridor_bidirectional 3) (by decide) (by decide) (by decide)⟩

/-- Instance of C2 on the corridor of three cells, from `(0, 0)` to `(0, 2)`. -/
theorem Dijkstra.shortestPath_length_witness :
    (corridor 3).bidirectional ∧ (corridor 3).validCell ⟨0, 0⟩ = true ∧
      (corridor 3).rows * (corridor 3).cols ≤ INT_MAX ∧
      Reachable (corridor 3) ⟨0, 0⟩ ⟨0, 2⟩ ∧
      ∃ d path, Dijkstra.calculateDistances (corridor 3) ⟨0, 0⟩ = some d ∧
        Dijkstra.shortestPath (corridor 3) ⟨0, 0⟩ ⟨0, 2⟩ = some path ∧
        (path.length : Int) = d.getDistance ⟨0, 2⟩ + 1 :=
  ⟨corridor_bidirectional 3, by decide, by decide, corridor3_reachable,
    Dijkstra.shortestPath_length (corridor 3) ⟨0, 0⟩ ⟨0, 2⟩ (corridor_bidirectional 3)
      (by decide) (by decide) corridor3_reachable⟩

/-- Instance of C3 on the corridor of three cells, from `(0, 0)` to `(0, 2)`. -/
theorem Dijkstra.shortestPath_walk_witness :
    (corridor 3).bidirectional ∧ (corridor 3).validCell ⟨0, 0⟩ = true ∧
      (corridor 3).rows * (corridor 3).cols ≤ INT_MAX ∧
      Reachable (corridor 3) ⟨0, 0⟩ ⟨0, 2⟩ ∧
      ∃ d path, Dijkstra.calculateDistances (corridor 3) ⟨0, 0⟩ = some d ∧
        Dijkstra.shortestPath (corridor 3) ⟨0, 0⟩ ⟨0, 2⟩ = some path ∧
        path.head? = some ⟨0, 0⟩ ∧ path.getLast? = some ⟨0, 2⟩ ∧
        List.Chain' (fun a b => (corridor 3).linked a b = true) path ∧
        ∀ (i : Nat) (hi : i < path.length), d.getDistance (path.get ⟨i, hi⟩) = i :=
  ⟨corridor_bidirectional 3, by decide, by decide, corridor3_reachable,
    Dijkstra.shortestPath_walk (corridor 3) ⟨0, 0⟩ ⟨0, 2⟩ (corridor_bidirectional 3)
      (by decide) (by decide) corridor3_reachable⟩

/-- Instance of C4 on the grid with a one-way link, from `(0, 1)` to `(0, 0)`: the number
of cells fits in an `int`, and the sequence returned is the empty one. -/
theorem Dijkstra.shortestPath_empty_iff_witness :
    oneWay.rows * oneWay.cols ≤ INT_MAX ∧
      Dijkstra.shortestPath oneWay ⟨0, 1⟩ ⟨0, 0⟩ = some [] ∧
      ∃ d path, Dijkstra.calculateDistances oneWay ⟨0, 1⟩ = some d ∧
        Dijkstra.shortestPath oneWay ⟨0, 1⟩ ⟨0, 0⟩ = some path ∧
        (path = [] ↔ d.getDistance ⟨0, 0⟩ = INT_MAX) ∧
        (¬ Reachable oneWay ⟨0, 1⟩ ⟨0, 0⟩ → path = []) ∧
        (oneWay.rows * oneWay.cols ≤ INT_MAX →
          (path = [] ↔ ¬ Reachable oneWay ⟨0, 1⟩ ⟨0, 0⟩)) :=
  ⟨by decide, by decide, Dijkstra.shortestPath_empty_iff oneWay ⟨0, 1⟩ ⟨0, 0⟩⟩

/-- Counterexample to C8 as stated: on the grid with a one-way link from `A = (0, 0)` to
`B = (0, 1)`, the end `B` has the recorded distance 1, the walk finds no neighbour from `B`,
and `shortestPath` returns the sequence `[B]`, which does not begin with the start `A`. -/
theorem Dijkstra.shortestPath_truncated_counterexample :
    (Dijkstra.calculateDistances oneWay ⟨0, 0⟩).map (fun d => d.getDistance ⟨0, 1⟩) = some 1 ∧
      (Dijkstra.calculateDistances oneWay ⟨0, 0⟩).map
        (fun d => Dijkstra.nextCell oneWay d ⟨0, 1⟩) = some none ∧
      Dijkstra.shortestPath oneWay ⟨0, 0⟩ ⟨0, 1⟩ = some [⟨0, 1⟩] := by
  decide

/-- Instance of C8, as amended, on the grid with a one-way link. -/
theorem Dijkstra.shortestPath_truncated_witness :
    Dijkstra.calculateDistances oneWay ⟨0, 0⟩
        = some ((Distances.new ⟨0, 0⟩).setDistance ⟨0, 1⟩ 1) ∧
      ((Distances.new ⟨0, 0⟩).setDistance ⟨0, 1⟩ 1).getDistance ⟨0, 1⟩ ≠ INT_MAX ∧
      WalkTo oneWay ((Distances.new ⟨0, 0⟩).setDistance ⟨0, 1⟩ 1) ⟨0, 0⟩ ⟨0, 1⟩ ⟨0, 1⟩ ∧
      (⟨0, 1⟩ : Cell) ≠ ⟨0, 0⟩ ∧
      (∀ dir ∈ oneWay.getLinks ⟨0, 1⟩,
        oneWay.validCell ((⟨0, 1⟩ : Cell).neighbor dir) = true →
          ¬ ((Distances.new ⟨0, 0⟩).setDistance ⟨0, 1⟩ 1).getDistance
              ((⟨0, 1⟩ : Cell).neighbor dir)
            < ((Distances.new ⟨0, 0⟩).setDistance ⟨0, 1⟩ 1).getDistance ⟨0, 1⟩) ∧
      ∃ path, Dijkstra.shortestPath oneWay ⟨0, 0⟩ ⟨0, 1⟩ = some path ∧
        path.head? = some ⟨0, 1⟩ ∧ path.getLast? = some ⟨0, 1⟩ :=
  ⟨by decide, by decide, WalkTo.here _, by decide, by decide,
    Dijkstra.shortestPath_truncated oneWay ⟨0, 0⟩ ⟨0, 1⟩ ⟨0, 1⟩
      ((Distances.new ⟨0, 0⟩).setDistance ⟨0, 1⟩ 1) (by decide) (by decide) (WalkTo.here _)
      (by decide) (by decide)⟩

end MazeBuilder

namespace MazeBuilder

/-! ## The farthest cell -/

theorem Distances.getMaxCellLoop_spec (g : Grid) :
    ∀ (l : List (Str × Int)) (acc : Cell × Int),
      (∀ kv ∈ l, ∃ x, kv.1 = Distances.key x ∧ g.validCell x = true) →
      ∃ r, Distances.getMaxCellLoop g l acc = some r ∧ acc.2 ≤ r.2 ∧
        (∀ kv ∈ l, kv.2 ≤ r.2) ∧ (r = acc ∨ (Distances.key r.1, r.2) ∈ l) := by
  intro l
  induction l with
  | nil =>
    intro acc _
    exact ⟨acc, rfl, le_refl _, by simp, Or.inl rfl⟩
  | cons e t ih =>
    intro acc hk
    obtain ⟨k, v⟩ := e
    obtain ⟨mc, md⟩ := acc
    obtain ⟨x, hx1, hx2⟩ := hk (k, v) (by simp)
    have hkt : ∀ kv ∈ t, ∃ x, kv.1 = Distances.key x ∧ g.validCell x = true :=
      fun kv h => hk kv (List.mem_cons_of_mem _ h)
    simp only at hx1
    subst hx1
    have hx3 : g.isValid x.row x.col = true := hx2
    unfold Distances.getMaxCellLoop
    by_cases hgt : v > md
    · simp only [hgt, if_true, parseKey_cell, hx3, Grid.at_eq]
      obtain ⟨r, h1, h2, h3, h4⟩ := ih (x, v) hkt
      refine ⟨r, h1, ?_, ?_, ?_⟩
      · simp only at h2 ⊢
        omega
      · intro kv hkv
        rcases List.mem_cons.mp hkv with h | h
        · rw [h]; exact h2
        · exact h3 kv h
      · right
        rcases h4 with h | h
        · rw [h]; simp
        · exact List.mem_cons_of_mem _ h
    · simp only [hgt, if_false]
      obtain ⟨r, h1, h2, h3, h4⟩ := ih (mc, md) hkt
      refine ⟨r, h1, h2, ?_, ?_⟩
      · intro kv hkv
        rcases List.mem_cons.mp hkv with h | h
        · rw [h]
          simp only at h2 ⊢
          omega
        · exact h3 kv h
      · rcases h4 with h | h
        · left; exact h
        · right; exact List.mem_cons_of_mem _ h

theorem SearchDone.keys_valid {g : Grid} {root : Cell} {D : Distances}
    (h : SearchDone g root D) :
    ∀ kv ∈ D.cells, ∃ c, kv.1 = Distances.key c ∧ g.validCell c = true := by
  obtain ⟨L, hInv⟩ := h
  exact hInv.keys

theorem SearchDone.keys_nodup {g : Grid} {root : Cell} {D : Distances}
    (h : SearchDone g root D) : (D.cells.map Prod.fst).Nodup := by
  obtain ⟨L, hInv⟩ := h
  exact hInv.nodup

/-- On the map of a finished search, `getMaxCell` returns a recorded cell whose distance is
the largest of all, whatever the enumeration order of the map. -/
theorem SearchDone.getMaxCell_spec {g : Grid} {root : Cell} {D : Distances}
    (h : SearchDone g root D) (o : IterOrder) :
    ∃ mc, D.getMaxCell o g = some mc ∧ D.contains mc = true ∧
      ∀ x, D.contains x = true → D.getDistance x ≤ D.getDistance mc := by
  have hmem : ∀ kv, kv ∈ o.enum D.cells ↔ kv ∈ D.cells := fun kv => (o.perm D.cells).mem_iff
  obtain ⟨r, h1, _, h3, h4⟩ := Distances.getMaxCellLoop_spec g (o.enum D.cells) (D.root, 0)
    (fun kv hkv => h.keys_valid kv ((hmem kv).mp hkv))
  have hr : D.contains r.1 = true ∧ D.getDistance r.1 = r.2 := by
    rcases h4 with h4 | h4
    · rw [h4]
      simp only
      rw [h.root_eq]
      exact ⟨h.root_in, h.root_zero⟩
    · have hl := lookup_eq_some_of_mem D.cells h.keys_nodup _ _ ((hmem _).mp h4)
      exact ⟨(D.contains_iff_lookup r.1).mpr ⟨_, hl⟩, D.getDistance_of_lookup _ _ hl⟩
  refine ⟨r.1, ?_, hr.1, ?_⟩
  · unfold Distances.getMaxCell
    rw [h1]
    rfl
  · intro x hx
    obtain ⟨v, hv⟩ := (D.contains_iff_lookup x).mp hx
    have := h3 _ ((hmem _).mpr (mem_of_lookup_eq_some _ _ _ hv))
    rw [D.getDistance_of_lookup _ _ hv, hr.2]
    exact this

end MazeBuilder

namespace MazeBuilder

/-! ## Distances in the corridor -/

theorem IsCorridor.chain_lower {g : Grid} {n : Nat} (hg : IsCorridor g n) {a p : Cell}
    {m : Nat} (h : Chain g a p m) (ha : a.row = 0) :
    p.row = 0 ∧ p.col - a.col ≤ m ∧ a.col - p.col ≤ m := by
  induction h with
  | nil => simp [ha]
  | snoc _ hl ih =>
    have := (hg.step_iff _ _).mp hl
    push_cast
    refine ⟨this.2.1, ?_, ?_⟩ <;> omega

theorem IsCorridor.chain_upper {g : Grid} {n : Nat} (hg : IsCorridor g n) (a : Int)
    (ha0 : 0 ≤ a) (han : a < n) :
    ∀ (k : Nat) (c : Int), 0 ≤ c → c < n → (c - a = k ∨ a - c = k) →
      Chain g ⟨0, a⟩ ⟨0, c⟩ k := by
  intro k
  induction k with
  | zero =>
    intro c _ _ hk
    have : c = a := by omega
    rw [this]
    exact Chain.nil
  | succ k ih =>
    intro c hc0 hcn hk
    push_cast at hk
    by_cases hlt : a < c
    · have h1 := ih (c - 1) (by omega) (by omega) (by omega)
      refine Chain.snoc h1 ?_
      rw [hg.step_iff]
      refine ⟨rfl, rfl, ?_, ?_, ?_, ?_, ?_⟩ <;> simp only <;> omega
    · have h1 := ih (c + 1) (by omega) (by omega) (by omega)
      refine Chain.snoc h1 ?_
      rw [hg.step_iff]
      refine ⟨rfl, rfl, ?_, ?_, ?_, ?_, ?_⟩ <;> simp only <;> omega

theorem IsCorridor.distance {g : Grid} {n : Nat} (hg : IsCorridor g n) {a : Int}
    {D : Distances} (hdone : SearchDone g ⟨0, a⟩ D) (ha0 : 0 ≤ a) (han : a < n)
    (hn : (n : Int) ≤ INT_MAX) (c : Int) (hc0 : 0 ≤ c) (hcn : c < n) :
    D.contains ⟨0, c⟩ = true ∧ D.getDistance ⟨0, c⟩ = |c - a| := by
  have hn2 : (n : Int) ≤ 2147483647 := hn
  have hup := hg.chain_upper a ha0 han (c - a).natAbs c hc0 hcn (by omega)
  have hle := hdone.le_chain_length hup
  have hcont : D.contains ⟨0, c⟩ = true := by
    apply D.contains_of_lt_max
    unfold INT_MAX
    omega
  refine ⟨hcont, ?_⟩
  have hlow := hg.chain_lower (hdone.chain hcont) rfl
  have h0 := hdone.nonneg hcont
  simp only at hlow
  rw [Int.abs_eq_natAbs]
  omega

/-- C6: on every grid of one row and `n` columns whose cells are linked end to end, with
`1 ≤ n` (and `n` an `int`), `longestPath` returns the `n` positions of the corridor in
consecutive order, from the column `n - 1` down to the column `0`, whatever the enumeration
order of the maps; for `n = 1` this is `[(0, 0)]`. -/
theorem Dijkstra.longestPath_corridor (o : IterOrder) (g : Grid) (n : Nat)
    (hg : IsCorridor g n) (h1 : 1 ≤ n) (hn : (n : Int) ≤ INT_MAX) :
    Dijkstra.longestPath o g =
      some ((List.range n).map fun (i : Nat) => Cell.mk 0 ((n : Int) - 1 - (i : Int))) := by
  have hn2 : (n : Int) ≤ 2147483647 := hn
  have hv0 : g.validCell ⟨0, 0⟩ = true := by
    rw [hg.cell_iff]
    refine ⟨rfl, ?_, ?_⟩ <;> simp only <;> omega
  -- first pass, from the cell `(0, 0)`
  obtain ⟨d1, hd1, hdone1⟩ := Dijkstra.calculateDistances_done g ⟨0, 0⟩ hv0
  obtain ⟨mc1, hm1, hmc1, hmax1⟩ := hdone1.getMaxCell_spec o
  have hmc1v := (hg.cell_iff mc1).mp (hdone1.valid hmc1)
  have e1 : mc1 = ⟨0, (n : Int) - 1⟩ := by
    obtain ⟨r, c⟩ := mc1
    simp only at hmc1v
    obtain ⟨hr, hc0, hcn⟩ := hmc1v
    subst hr
    have ha := hg.distance hdone1 (le_refl _) (by omega) hn c hc0 hcn
    have hb := hg.distance hdone1 (le_refl _) (by omega) hn ((n : Int) - 1) (by omega)
      (by omega)
    have hc := hmax1 _ hb.1
    rw [ha.2, hb.2, abs_of_nonneg (by omega), abs_of_nonneg (by omega)] at hc
    simp only [Cell.mk.injEq, true_and]
    omega
  subst e1
  -- second pass, from the cell `(0, n - 1)`
  obtain ⟨d2, hd2, hdone2⟩ :=
    Dijkstra.calculateDistances_done g ⟨0, (n : Int) - 1⟩ (hdone1.valid hmc1)
  obtain ⟨mc2, hm2, hmc2, hmax2⟩ := hdone2.getMaxCell_spec o
  have hmc2v := (hg.cell_iff mc2).mp (hdone2.valid hmc2)
  have e2 : mc2 = ⟨0, 0⟩ := by
    obtain ⟨r, c⟩ := mc2
    simp only at hmc2v
    obtain ⟨hr, hc0, hcn⟩ := hmc2v
    subst hr
    have ha := hg.distance hdone2 (by omega) (by omega) hn c hc0 hcn
    have hb := hg.distance hdone2 (by omega) (by omega) hn 0 (le_refl _) (by omega)
    have hc := hmax2 _ hb.1
    rw [ha.2, hb.2, abs_of_nonpos (by omega), abs_of_nonpos (by omega)] at hc
    simp only [Cell.mk.injEq, true_and]
    omega
  subst e2
  -- the path between the two
  obtain ⟨path, hp1, hp2, _, _, _, hp6⟩ :=
    Dijkstra.shortestPath_spec hd2 hdone2 hg.two_way hmc2
  have hd0 := (hg.distance hdone2 (by omega) (by omega) hn 0 (le_refl _) (by omega)).2
  rw [hd0, abs_of_nonpos (by omega)] at hp2
  have hlen : path.length = n := by omega
  have hv00 : g.isValid 0 0 = true := hv0
  simp only [Dijkstra.longestPath, hv00, if_true, Grid.at, hd1, hm1, hd2, hm2, hp1,
    Option.some.injEq]
  apply List.ext_getElem
  · simp [hlen]
  · intro i hi1 hi2
    have hgi := hp6 i hi1
    rw [List.get_eq_getElem] at hgi
    have hci : d2.contains path[i] = true := by
      apply d2.contains_of_lt_max
      rw [hgi]
      unfold INT_MAX
      omega
    have hvi := (hg.cell_iff path[i]).mp (hdone2.valid hci)
    have hdi := hg.distance hdone2 (by omega) (by omega) hn path[i].col hvi.2.1 hvi.2.2
    have hrow : path[i] = ⟨0, path[i].col⟩ := by
      rw [← hvi.1]
    rw [← hrow, hgi, abs_of_nonpos (by omega)] at hdi
    simp only [List.getElem_map, List.getElem_range]
    rw [hrow]
    simp only [Cell.mk.injEq, true_and]
    omega

/-- Instance of C6 for `n = 5`, with the evaluation for `n = 1`. -/
theorem Dijkstra.longestPath_corridor_witness :
    IsCorridor (corridor 5) 5 ∧ 1 ≤ 5 ∧ ((5 : Nat) : Int) ≤ INT_MAX ∧
      Dijkstra.longestPath IterOrder.stored (corridor 5)
        = some [⟨0, 4⟩, ⟨0, 3⟩, ⟨0, 2⟩, ⟨0, 1⟩, ⟨0, 0⟩] ∧
      Dijkstra.longestPath IterOrder.stored (corridor 1) = some [⟨0, 0⟩] :=
  ⟨corridor_isCorridor 5, by decide, by decide,
    Dijkstra.longestPath_corridor IterOrder.stored (corridor 5) 5 (corridor_isCorridor 5)
      (by decide) (by decide),
    Dijkstra.longestPath_corridor IterOrder.stored (corridor 1) 1 (corridor_isCorridor 1)
      (by decide) (by decide)⟩

end MazeBuilder

namespace MazeBuilder

/-! ## Chains -/

theorem Chain.cons {g : Grid} {a b c : Cell} {n : Nat} (hl : g.linked a b = true)
    (h : Chain g b c n) : Chain g a c (n + 1) := by
  induction h with
  | nil => exact Chain.snoc Chain.nil hl
  | snoc _ hl2 ih => exact Chain.snoc ih hl2

theorem Chain.trans {g : Grid} {a b c : Cell} {n m : Nat} (h1 : Chain g a b n)
    (h2 : Chain g b c m) : Chain g a c (n + m) := by
  induction h2 with
  | nil => exact h1
  | snoc _ hl ih => exact Chain.snoc ih hl

theorem Chain.reverse {g : Grid} (hbi : g.bidirectional) {a b : Cell} {n : Nat}
    (h : Chain g a b n) : Chain g b a n := by
  induction h with
  | nil => exact Chain.nil
  | snoc _ hl ih => exact Chain.cons (hbi _ _ hl) ih

/-! ## The parent of a cell in the map of a search -/

namespace SearchDone

variable {g : Grid} {root : Cell} {D : Distances}

theorem eq_root_of_zero (h : SearchDone g root D) {x : Cell} (hx : D.contains x = true)
    (h0 : D.getDistance x = 0) : x = root := by
  have := h.chain hx
  rw [h0] at this
  exact this.eq_of_zero

/-- With bidirectional links, `nextCell` takes a recorded cell other than the root to a
linked neighbour that is exactly one step closer to the root. -/
theorem nextCell_pred (h : SearchDone g root D) (hbi : g.bidirectional) {x : Cell}
    (hx : D.contains x = true) (hne : x ≠ root) :
    ∃ q, Dijkstra.nextCell g D x = some q ∧ g.linked x q = true ∧ g.linked q x = true ∧
      D.contains q = true ∧ D.getDistance q = D.getDistance x - 1 := by
  obtain ⟨q0, hl0, hq0c, hq0d⟩ := h.exists_pred hbi hx hne
  obtain ⟨_, hq0v, dir0, hdir0, hnb0⟩ := (g.linked_iff _ _).mp hl0
  cases hn : Dijkstra.nextCell g D x with
  | none =>
    have := Dijkstra.nextCell_none hn dir0 hdir0 (by rw [hnb0]; exact hq0v)
    rw [hnb0] at this
    omega
  | some q =>
    obtain ⟨hqv, ⟨dir, hdir, hnb⟩, hlt, hmin⟩ := Dijkstra.nextCell_some hn
    have hle0 := hmin dir0 hdir0 (by rw [hnb0]; exact hq0v)
    rw [hnb0] at hle0
    have hqc : D.contains q = true :=
      D.contains_of_lt_max q (lt_trans hlt (h.lt_max hx))
    have hl : g.linked x q = true :=
      (g.linked_iff _ _).mpr ⟨h.valid hx, hqv, dir, hdir, hnb⟩
    have hl2 := hbi x q hl
    have hcl := h.closed hqc x hl2
    exact ⟨q, rfl, hl, hl2, hqc, by omega⟩

theorem parent_spec (h : SearchDone g root D) (hbi : g.bidirectional) {x : Cell}
    (hx : D.contains x = true) (hne : x ≠ root) :
    g.linked x (parent g D x) = true ∧ g.linked (parent g D x) x = true ∧
      D.contains (parent g D x) = true ∧
      D.getDistance (parent g D x) = D.getDistance x - 1 := by
  obtain ⟨q, h1, h2, h3, h4, h5⟩ := h.nextCell_pred hbi hx hne
  have : parent g D x = q := by
    unfold parent
    rw [h1]
    rfl
  rw [this]
  exact ⟨h2, h3, h4, h5⟩

/-- Climbing `j` parents from a recorded cell at distance at least `j`. -/
theorem iterate_parent (h : SearchDone g root D) (hbi : g.bidirectional) :
    ∀ (j : Nat) (x : Cell), D.contains x = true → (j : Int) ≤ D.getDistance x →
      D.contains ((parent g D)^[j] x) = true ∧
        D.getDistance ((parent g D)^[j] x) = D.getDistance x - j ∧
        Chain g x ((parent g D)^[j] x) j := by
  intro j
  induction j with
  | zero =>
    intro x hx _
    exact ⟨hx, by simp, Chain.nil⟩
  | succ j ih =>
    intro x hx hj
    push_cast at hj
    obtain ⟨h1, h2, h3⟩ := ih x hx (by omega)
    have hne : (parent g D)^[j] x ≠ root := by
      intro e
      rw [e, h.root_zero] at h2
      omega
    obtain ⟨p1, _, p3, p4⟩ := h.parent_spec hbi h1 hne
    rw [Function.iterate_succ_apply']
    refine ⟨p3, ?_, Chain.snoc h3 p1⟩
    rw [p4, h2]
    push_cast
    omega

end SearchDone

end MazeBuilder

namespace MazeBuilder

/-! ## The edges of a tree, seen from the root of a search -/

namespace SearchDone

variable {g : Grid} {root : Cell} {D : Distances}

/-- A path of the link graph from a recorded cell to the root, along which the distance
goes down. -/
theorem root_path (h : SearchDone g root D) (hbi : g.bidirectional) :
    ∀ (n : Nat) (x : Cell), D.contains x = true → (D.getDistance x).toNat = n →
      ∃ w : (linkGraph g).Walk x root, w.IsPath ∧
        ∀ z ∈ w.support, z = x ∨ D.getDistance z < D.getDistance x := by
  intro n
  induction n with
  | zero =>
    intro x hx hn
    have h0 := h.nonneg hx
    have hx0 : x = root := h.eq_root_of_zero hx (by omega)
    subst hx0
    exact ⟨SimpleGraph.Walk.nil, SimpleGraph.Walk.IsPath.nil, by simp⟩
  | succ n ih =>
    intro x hx hn
    have hne : x ≠ root := by
      intro e
      rw [e, h.root_zero] at hn
      simp at hn
    obtain ⟨q, _, hl, hl2, hqc, hqd⟩ := h.nextCell_pred hbi hx hne
    obtain ⟨w, hw, hsup⟩ := ih q hqc (by omega)
    have hadj : (linkGraph g).Adj x q := ⟨hl, hl2⟩
    refine ⟨SimpleGraph.Walk.cons hadj w, ?_, ?_⟩
    · rw [SimpleGraph.Walk.cons_isPath_iff]
      refine ⟨hw, ?_⟩
      intro hmem
      rcases hsup x hmem with e | e
      · rw [e] at hqd; omega
      · omega
    · intro z hz
      rw [SimpleGraph.Walk.support_cons] at hz
      rcases List.mem_cons.mp hz with e | e
      · left; exact e
      · right
        rcases hsup z e with e2 | e2
        · rw [e2]; omega
        · omega

/-- In a grid without cycle, a link step that does not go away from the root goes to the
parent. -/
theorem parent_of_linked (h : SearchDone g root D) (hbi : g.bidirectional)
    (hac : (linkGraph g).IsAcyclic) {y z : Cell} (hy : D.contains y = true)
    (hz : D.contains z = true) (hl : g.linked y z = true)
    (hle : D.getDistance z ≤ D.getDistance y) : parent g D y = z := by
  have hadj : (linkGraph g).Adj y z := ⟨hl, hbi y z hl⟩
  have hyz : y ≠ z := (linkGraph g).ne_of_adj hadj
  have hne : y ≠ root := by
    intro e
    have h0 := h.nonneg hz
    rw [e, h.root_zero] at hle
    have := h.eq_root_of_zero hz (by omega)
    exact hyz (by rw [e, this])
  obtain ⟨q, hq, hlq, hlq2, hqc, hqd⟩ := h.nextCell_pred hbi hy hne
  obtain ⟨w1, hw1, hsup1⟩ := h.root_path hbi _ q hqc rfl
  obtain ⟨w2, hw2, hsup2⟩ := h.root_path hbi _ z hz rfl
  have hadjq : (linkGraph g).Adj y q := ⟨hlq, hlq2⟩
  have hp1 : (SimpleGraph.Walk.cons hadjq w1).IsPath := by
    rw [SimpleGraph.Walk.cons_isPath_iff]
    refine ⟨hw1, ?_⟩
    intro hmem
    rcases hsup1 y hmem with e | e
    · rw [e] at hqd; omega
    · omega
  have hp2 : (SimpleGraph.Walk.cons hadj w2).IsPath := by
    rw [SimpleGraph.Walk.cons_isPath_iff]
    refine ⟨hw2, ?_⟩
    intro hmem
    rcases hsup2 y hmem with e | e
    · exact hyz e
    · omega
  have huniq := hac.path_unique ⟨_, hp1⟩ ⟨_, hp2⟩
  have hsupp := congrArg (fun p : (linkGraph g).Path y root => p.val.support) huniq
  simp only [SimpleGraph.Walk.support_cons] at hsupp
  rw [w1.support_eq_cons, w2.support_eq_cons] at hsupp
  have hqz : q = z := by
    injection hsupp with _ ht
    injection ht
  unfold parent
  rw [hq, hqz]
  rfl

/-- In a tree, a chain of `m` link steps from `u` to `x` passes over a common ancestor:
climbing `i` parents from `u` and `j` parents from `x` leads to the same cell, with
`i + j ≤ m`. -/
theorem meet_of_chain (h : SearchDone g root D) (hbi : g.bidirectional)
    (hac : (linkGraph g).IsAcyclic) (hsize : g.rows * g.cols ≤ INT_MAX) {u x : Cell} {m : Nat}
    (hu : D.contains u = true) (hch : Chain g u x m) :
    D.contains x = true ∧ ∃ i j : Nat, (i : Int) ≤ D.getDistance u ∧
      (j : Int) ≤ D.getDistance x ∧ (parent g D)^[i] u = (parent g D)^[j] x ∧ i + j ≤ m := by
  induction hch with
  | nil =>
    exact ⟨hu, 0, 0, h.nonneg hu, h.nonneg hu, rfl, le_refl _⟩
  | @snoc y z m _ hl ih =>
    obtain ⟨hy, i, j, hi, hj, hmeet, hij⟩ := ih
    have hz : D.contains z = true := (h.step hsize hy hl).1
    refine ⟨hz, ?_⟩
    have hiu := h.iterate_parent hbi i u hu hi
    have hjy := h.iterate_parent hbi j y hy hj
    by_cases hle : D.getDistance z ≤ D.getDistance y
    · -- `z` is the parent of `y`
      have hpar := h.parent_of_linked hbi hac hy hz hl hle
      have hne : y ≠ root := by
        intro e
        rw [e, h.root_zero] at hle
        have h0 := h.nonneg hz
        have hz0 := h.eq_root_of_zero hz (by omega)
        rw [e, hz0] at hl
        exact (linkGraph g).loopless root ⟨hl, hl⟩
      have hzd := (h.parent_spec hbi hy hne).2.2.2
      rw [hpar] at hzd
      cases j with
      | zero =>
        refine ⟨i + 1, 0, ?_, h.nonneg hz, ?_, by omega⟩
        · have := hiu.2.1
          rw [hmeet] at this
          simp only [Function.iterate_zero, id_eq] at this
          have h0 := h.nonneg hz
          push_cast
          omega
        · rw [Function.iterate_succ_apply', hmeet]
          simp only [Function.iterate_zero, id_eq]
          exact hpar
      | succ j =>
        refine ⟨i, j, hi, ?_, ?_, by omega⟩
        · push_cast at hj
          omega
        · rw [hmeet, Function.iterate_succ_apply, hpar]
    · -- `y` is the parent of `z`
      have hle2 : D.getDistance y ≤ D.getDistance z := by omega
      have hpar := h.parent_of_linked hbi hac hz hy (hbi y z hl) hle2
      refine ⟨i, j + 1, hi, ?_, ?_, by omega⟩
      · push_cast
        omega
      · rw [hmeet, Function.iterate_succ_apply, hpar]

end SearchDone

end MazeBuilder

namespace MazeBuilder

/-! ## The two passes of `longestPath` on a tree -/

/-- In a tree, a cell `u` that is farthest from the root of a search is an end of a longest
shortest path: two cells are never further apart than the farther of them is from `u`. -/
theorem SearchDone.far_bound {g : Grid} {root : Cell} {D : Distances}
    (h : SearchDone g root D) (hbi : g.bidirectional) (hac : (linkGraph g).IsAcyclic)
    (hsize : g.rows * g.cols ≤ INT_MAX) {u x y : Cell} {m1 m2 : Nat}
    (hu : D.contains u = true)
    (hfar : ∀ c, D.contains c = true → D.getDistance c ≤ D.getDistance u)
    (hx : Chain g u x m1) (hy : Chain g u y m2) :
    ∃ n, n ≤ max m1 m2 ∧ Chain g x y n := by
  obtain ⟨hxc, i1, j1, hi1, hj1, hmeet1, hle1⟩ := h.meet_of_chain hbi hac hsize hu hx
  obtain ⟨hyc, i2, j2, hi2, hj2, hmeet2, hle2⟩ := h.meet_of_chain hbi hac hsize hu hy
  have hu1 := h.iterate_parent hbi i1 u hu hi1
  have hu2 := h.iterate_parent hbi i2 u hu hi2
  have hx1 := h.iterate_parent hbi j1 x hxc hj1
  have hy2 := h.iterate_parent hbi j2 y hyc hj2
  have hfx := hfar x hxc
  have hfy := hfar y hyc
  have ex : D.getDistance u - i1 = D.getDistance x - j1 := by
    rw [← hu1.2.1, ← hx1.2.1, hmeet1]
  have ey : D.getDistance u - i2 = D.getDistance y - j2 := by
    rw [← hu2.2.1, ← hy2.2.1, hmeet2]
  by_cases hcase : i2 ≤ i1
  · -- the two climbs meet above `y`
    have hJ : ((i1 - i2 + j2 : Nat) : Int) ≤ D.getDistance y := by
      push_cast [Nat.cast_sub hcase]
      omega
    have hyJ := h.iterate_parent hbi (i1 - i2 + j2) y hyc hJ
    have hsame : (parent g D)^[j1] x = (parent g D)^[i1 - i2 + j2] y := by
      rw [← hmeet1, Function.iterate_add_apply, ← hmeet2, ← Function.iterate_add_apply]
      congr 1
      omega
    have hch := Chain.trans hx1.2.2 (hsame ▸ (hyJ.2.2.reverse hbi))
    exact ⟨j1 + (i1 - i2 + j2), by omega, hch⟩
  · -- the two climbs meet above `x`
    have hcase2 : i1 ≤ i2 := by omega
    have hJ : ((i2 - i1 + j1 : Nat) : Int) ≤ D.getDistance x := by
      push_cast [Nat.cast_sub hcase2]
      omega
    have hxJ := h.iterate_parent hbi (i2 - i1 + j1) x hxc hJ
    have hsame : (parent g D)^[j2] y = (parent g D)^[i2 - i1 + j1] x := by
      rw [← hmeet2, Function.iterate_add_apply, ← hmeet1, ← Function.iterate_add_apply]
      congr 1
      omega
    have hch := Chain.trans hxJ.2.2 (hsame ▸ (hy2.2.2.reverse hbi))
    exact ⟨(i2 - i1 + j1) + j2, by omega, hch⟩

/-- The distance recorded for a cell is its shortest-path distance from the root. -/
theorem SearchDone.isDist {g : Grid} {root : Cell} {D : Distances} (h : SearchDone g root D)
    {x : Cell} (hx : D.contains x = true) : IsDist g root x (D.getDistance x).toNat := by
  refine ⟨h.chain hx, ?_⟩
  intro m hm
  have := h.le_chain_length hm
  omega

/-- C5, as amended: on a grid whose link graph is a tree over all the cells and whose
number of cells fits in an `int`, the number of positions of the sequence returned by
`longestPath` is the diameter of the link graph plus one, whatever the enumeration order of
the maps. -/
theorem Dijkstra.longestPath_tree_diameter (o : IterOrder) (g : Grid) (htree : g.IsTree)
    (hsize : g.rows * g.cols ≤ INT_MAX) :
    ∃ path diam, Dijkstra.longestPath o g = some path ∧ IsDiameter g diam ∧
      path.length = diam + 1 := by
  have hbi := htree.bidirectional
  have hv0 := htree.nonempty
  -- first pass, from the cell `(0, 0)`
  obtain ⟨d1, hd1, hdone1⟩ := Dijkstra.calculateDistances_done g ⟨0, 0⟩ hv0
  obtain ⟨u, hm1, huc, humax⟩ := hdone1.getMaxCell_spec o
  have huv := hdone1.valid huc
  -- second pass, from the farthest cell
  obtain ⟨d2, hd2, hdone2⟩ := Dijkstra.calculateDistances_done g u huv
  obtain ⟨v, hm2, hvc, hvmax⟩ := hdone2.getMaxCell_spec o
  obtain ⟨path, hp1, hp2, _⟩ := Dijkstra.shortestPath_spec hd2 hdone2 hbi hvc
  have hv00 : g.isValid 0 0 = true := hv0
  have h0v := hdone2.nonneg hvc
  refine ⟨path, (d2.getDistance v).toNat, ?_, ⟨?_, ?_⟩, by omega⟩
  · simp only [Dijkstra.longestPath, hv00, if_true, Grid.at, hd1, hm1, hd2, hm2, hp1]
  · exact ⟨u, v, huv, hdone2.valid hvc, hdone2.isDist hvc⟩
  · intro p q m hpv hqv hpq
    obtain ⟨np, hnp⟩ := htree.connected u p huv hpv
    obtain ⟨nq, hnq⟩ := htree.connected u q huv hqv
    have hpc := (hdone2.le_chain hsize hnp).1
    have hqc := (hdone2.le_chain hsize hnq).1
    obtain ⟨n, hn, hch⟩ := hdone1.far_bound hbi htree.acyclic hsize huc humax
      (hdone2.chain hpc) (hdone2.chain hqc)
    have h1 := hpq.2 n hch
    have h2 := hvmax p hpc
    have h3 := hvmax q hqc
    have h4 := hdone2.nonneg hpc
    have h5 := hdone2.nonneg hqc
    omega

end MazeBuilder

namespace MazeBuilder

/-! ## The corridor is a tree -/

theorem IsCorridor.adj {g : Grid} {n : Nat} (hg : IsCorridor g n) {a b : Cell}
    (h : (linkGraph g).Adj a b) :
    a.row = 0 ∧ b.row = 0 ∧ (b.col = a.col + 1 ∨ b.col = a.col - 1) := by
  have h1 := (hg.step_iff a b).mp h.1
  exact ⟨h1.1, h1.2.1, h1.2.2.2.2.2.2⟩

/-- A trail of the corridor keeps going the way of its first step. -/
theorem IsCorridor.trail_mono {g : Grid} {n : Nat} (hg : IsCorridor g n) :
    ∀ {a b : Cell} (p : (linkGraph g).Walk a b) (prev : Cell),
      p.IsTrail → s(prev, a) ∉ p.edges → prev.row = 0 → a.row = 0 →
      (a.col = prev.col + 1 → ∀ z ∈ p.support, prev.col < z.col) ∧
        (a.col = prev.col - 1 → ∀ z ∈ p.support, z.col < prev.col) := by
  intro a b p
  induction p with
  | nil =>
    intro prev _ _ _ _
    constructor
    · intro h z hz
      simp only [SimpleGraph.Walk.support_nil, List.mem_singleton] at hz
      rw [hz]; omega
    · intro h z hz
      simp only [SimpleGraph.Walk.support_nil, List.mem_singleton] at hz
      rw [hz]; omega
  | @cons a a1 b hadj q ih =>
    intro prev htrail hprev hprow harow
    rw [SimpleGraph.Walk.cons_isTrail_iff] at htrail
    rw [SimpleGraph.Walk.edges_cons, List.mem_cons, not_or] at hprev
    obtain ⟨_, h1row, hstep⟩ := hg.adj hadj
    have hne : a1 ≠ prev := by
      intro e
      apply hprev.1
      rw [e, Sym2.eq_swap]
    have hcol : a1.col ≠ prev.col := by
      intro e
      apply hne
      cases a1
      cases prev
      simp only [Cell.mk.injEq] at *
      omega
    obtain ⟨ih1, ih2⟩ := ih a htrail.1 htrail.2 harow h1row
    constructor
    · intro h z hz
      rw [SimpleGraph.Walk.support_cons] at hz
      rcases List.mem_cons.mp hz with e | e
      · rw [e]; omega
      · have := ih1 (by omega) z e
        omega
    · intro h z hz
      rw [SimpleGraph.Walk.support_cons] at hz
      rcases List.mem_cons.mp hz with e | e
      · rw [e]; omega
      · have := ih2 (by omega) z e
        omega

theorem IsCorridor.acyclic {g : Grid} {n : Nat} (hg : IsCorridor g n) :
    (linkGraph g).IsAcyclic := by
  intro v c hc
  cases c with
  | nil => exact hc.ne_nil rfl
  | @cons _ v1 _ hadj q =>
    have htrail := hc.toIsCircuit.toIsTrail
    rw [SimpleGraph.Walk.cons_isTrail_iff] at htrail
    obtain ⟨hvrow, h1row, hstep⟩ := hg.adj hadj
    obtain ⟨m1, m2⟩ := hg.trail_mono q v htrail.1 htrail.2 hvrow h1row
    have hend := q.end_mem_support
    rcases hstep with e | e
    · have := m1 e v hend
      omega
    · have := m2 e v hend
      omega

theorem IsCorridor.isTree {g : Grid} {n : Nat} (hg : IsCorridor g n) (hn : 1 ≤ n) :
    g.IsTree := by
  refine ⟨?_, hg.two_way, ?_, hg.acyclic⟩
  · rw [hg.cell_iff]
    refine ⟨rfl, ?_, ?_⟩ <;> simp only <;> omega
  · intro p q hp hq
    rw [hg.cell_iff] at hp hq
    obtain ⟨pr, pc⟩ := p
    obtain ⟨qr, qc⟩ := q
    simp only at hp hq
    obtain ⟨rfl, hp0, hpn⟩ := hp
    obtain ⟨rfl, hq0, hqn⟩ := hq
    exact ⟨_, hg.chain_upper pc hp0 hpn (qc - pc).natAbs qc hq0 hqn (by omega)⟩

theorem corridor_isTree (n : Nat) (hn : 1 ≤ n) : (corridor n).IsTree :=
  (corridor_isCorridor n).isTree hn

/-- Instance of C5 on the corridor of three cells. -/
theorem Dijkstra.longestPath_tree_diameter_witness :
    (corridor 3).IsTree ∧ (corridor 3).rows * (corridor 3).cols ≤ INT_MAX ∧
      ∃ path diam, Dijkstra.longestPath IterOrder.stored (corridor 3) = some path ∧
        IsDiameter (corridor 3) diam ∧ path.length = diam + 1 :=
  ⟨corridor_isTree 3 (by decide), by decide,
    Dijkstra.longestPath_tree_diameter IterOrder.stored (corridor 3)
      (corridor_isTree 3 (by decide)) (by decide)⟩

end MazeBuilder

namespace MazeBuilder

/-! ## Claims about the map `Distances` and the keys -/

/-- C20: the encoding of positions by keys is lossless.  For all integers `row` and `col`,
negative ones included, the parsing block applied to `key(row, col)` finds a comma and reads
back exactly `(row, col)`, so that the key is neither skipped as malformed nor makes
`std::stoi` throw; and two positions have the same key only when they are equal. -/
theorem key_lossless (row col row2 col2 : Int) :
    find ',' (key row col) = some (to_string row).length ∧
      stoi ((key row col).take (to_string row).length) = some row ∧
      stoi ((key row col).drop ((to_string row).length + 1)) = some col ∧
      parseKey (key row col) = Parsed.pos row col ∧
      parseKey (key row col) ≠ Parsed.noComma ∧ parseKey (key row col) ≠ Parsed.threw ∧
      (key row col = key row2 col2 ↔ (row = row2 ∧ col = col2)) := by
  have h1 : List.take (to_string row).length (to_string row ++ ',' :: to_string col)
      = to_string row := by simp
  have h2 : List.drop ((to_string row).length + 1) (to_string row ++ ',' :: to_string col)
      = to_string col := by
    rw [List.drop_append_eq_append_drop]
    simp
  have e1 := stoi_to_string row [] (by simp)
  have e2 := stoi_to_string col [] (by simp)
  simp only [List.append_nil] at e1 e2
  refine ⟨find_append_comma _ _ (to_string_no_comma row), ?_, ?_, parseKey_key row col, ?_, ?_,
    ?_⟩
  · unfold key
    rw [h1, e1]
  · unfold key
    rw [h2, e2]
  · rw [parseKey_key]
    exact fun h => Parsed.noConfusion h
  · rw [parseKey_key]
    exact fun h => Parsed.noConfusion h
  · constructor
    · exact fun h => key_inj h
    · rintro ⟨rfl, rfl⟩
      rfl

/-- C17: right after the construction with root `r`, `getDistance` is 0 at `r` and the
sentinel `INT_MAX` at every other position; and on every map, after `setDistance(p, v)`,
`getDistance` is `v` at `p` (whether the entry was added or overwritten) and unchanged at
every other position. -/
theorem Distances.getDistance_frame (r p q : Cell) (m : Distances) (v : Int) :
    (Distances.new r).getDistance r = 0 ∧
      (Distances.new r).getDistance q = (if q = r then 0 else INT_MAX) ∧
      (m.setDistance p v).getDistance p = v ∧
      (m.setDistance p v).getDistance q = (if q = p then v else m.getDistance q) ∧
      (m.setDistance p v).root = m.root := by
  refine ⟨?_, Distances.getDistance_new r q, ?_, Distances.getDistance_setDistance m p q v, rfl⟩
  · rw [Distances.getDistance_new, if_pos rfl]
  · rw [Distances.getDistance_setDistance, if_pos rfl]

/-! ## Safety and termination of the search -/

/-- C11: for every grid, whatever the directions listed by its border cells, and every
root, `calculateDistances` returns a map in which every recorded position other than the
root is within the bounds of the grid; for an in-bounds root, every key of the map is the
key of an in-bounds position. -/
theorem Dijkstra.calculateDistances_in_bounds (g : Grid) (start : Cell) :
    ∃ d, Dijkstra.calculateDistances g start = some d ∧
      (∀ c, d.contains c = true → c = start ∨ g.validCell c = true) ∧
      (g.validCell start = true →
        (∀ c, d.contains c = true → g.validCell c = true) ∧
          ∀ kv ∈ d.cells, ∃ c, kv.1 = Distances.key c ∧ g.validCell c = true) := by
  obtain ⟨d, hd, hcase⟩ := Dijkstra.calculateDistances_total g start
  refine ⟨d, hd, ?_, ?_⟩
  · intro c hc
    rcases hcase with ⟨_, hdone⟩ | ⟨_, hnew⟩
    · right; exact hdone.valid hc
    · left
      rw [hnew, Distances.contains_new] at hc
      simpa using hc
  · intro hv
    rcases hcase with ⟨_, hdone⟩ | ⟨hinv, _⟩
    · exact ⟨fun c hc => hdone.valid hc, hdone.keys_valid⟩
    · rw [hv] at hinv
      exact absurd hinv (by simp)

end MazeBuilder

namespace MazeBuilder

/-- More fuel does not change the result of the search loop. -/
theorem Dijkstra.searchLoop_fuel_mono (g : Grid) :
    ∀ (fuel : Nat) (D : Distances) (F : List Entry) (r : Distances),
      Dijkstra.searchLoop g fuel D F = some r →
      ∀ k, Dijkstra.searchLoop g (fuel + k) D F = some r := by
  intro fuel
  induction fuel with
  | zero =>
    intro D F r h
    simp [Dijkstra.searchLoop] at h
  | succ fuel ih =>
    intro D F r h k
    have hk : fuel + 1 + k = (fuel + k) + 1 := by omega
    rw [hk]
    unfold Dijkstra.searchLoop at h ⊢
    cases htop : top F with
    | none =>
      simp only [htop] at h ⊢
      exact h
    | some m =>
      simp only [htop] at h ⊢
      cases hparse : parseKey m.2 with
      | noComma =>
        simp only [hparse] at h ⊢
        exact ih _ _ _ h k
      | threw =>
        simp only [hparse] at h
        exact absurd h (by simp)
      | pos row col =>
        simp only [hparse] at h ⊢
        by_cases hv : g.isValid row col = true
        · simp only [hv, if_true] at h ⊢
          exact ih _ _ _ h k
        · simp only [hv] at h ⊢
          exact ih _ _ _ h k

/-- More fuel does not change the result of the backward walk. -/
theorem Dijkstra.walkLoop_fuel_mono (g : Grid) (D : Distances) (start : Cell) :
    ∀ (fuel : Nat) (cur : Cell) (path r : List Cell),
      Dijkstra.walkLoop g D start fuel cur path = some r →
      ∀ k, Dijkstra.walkLoop g D start (fuel + k) cur path = some r := by
  intro fuel
  induction fuel with
  | zero =>
    intro cur path r h
    simp [Dijkstra.walkLoop] at h
  | succ fuel ih =>
    intro cur path r h k
    have hk : fuel + 1 + k = (fuel + k) + 1 := by omega
    rw [hk]
    unfold Dijkstra.walkLoop at h ⊢
    by_cases hs : cur = start
    · simp only [hs, if_true] at h ⊢
      exact h
    · simp only [hs, if_false] at h ⊢
      cases hn : Dijkstra.nextCell g D cur with
      | none =>
        simp only [hn] at h ⊢
        exact h
      | some q =>
        simp only [hn] at h ⊢
        exact ih _ _ _ h k

/-- C12: for every grid and every root, the loop of `calculateDistances` ends and returns a
map, the same for every amount of fuel from `rows * cols + 2` on; and for every start and
end, the backward walk of `shortestPath` ends, with the same sequence for every amount of
fuel from `distance[end] + 1` on, so that `shortestPath` returns a sequence.  Nothing is
assumed of the links. -/
theorem Dijkstra.search_and_walk_terminate (g : Grid) (start last : Cell) :
    ∃ d, Dijkstra.calculateDistances g start = some d ∧
      (∀ fuel, Dijkstra.searchFuel g ≤ fuel →
        Dijkstra.searchLoop g fuel (Distances.new start) (push (0, Distances.key start) [])
          = some d) ∧
      (∃ walked, ∀ fuel, (d.getDistance last).toNat + 1 ≤ fuel →
        Dijkstra.walkLoop g d start fuel last [last] = some walked) ∧
      ∃ path, Dijkstra.shortestPath g start last = some path := by
  obtain ⟨d, hd, hcase⟩ := Dijkstra.calculateDistances_total g start
  obtain ⟨hnn, hle⟩ := Dijkstra.map_range hcase
  obtain ⟨tail, ht⟩ := Dijkstra.walkLoop_total g d start hnn hle
    ((d.getDistance last).toNat + 1) last [last] (le_refl _)
  refine ⟨d, hd, ?_, ⟨[last] ++ tail, ?_⟩, ?_⟩
  · intro fuel hfuel
    obtain ⟨k, rfl⟩ := Nat.exists_eq_add_of_le hfuel
    exact Dijkstra.searchLoop_fuel_mono g _ _ _ _ hd k
  · intro fuel hfuel
    obtain ⟨k, rfl⟩ := Nat.exists_eq_add_of_le hfuel
    exact Dijkstra.walkLoop_fuel_mono g d start _ _ _ _ ht k
  · rw [Dijkstra.shortestPath_eq hd]
    by_cases hmax : d.getDistance last = INT_MAX
    · exact ⟨[], by rw [if_pos hmax]⟩
    · exact ⟨([last] ++ tail).reverse, by rw [if_neg hmax, ht]; rfl⟩

end MazeBuilder

namespace MazeBuilder

/-! ## The representation invariant of `Distances` -/

theorem assign_keys (k : Str) (v : Int) (l : List (Str × Int)) :
    (assign k v l).map Prod.fst =
      if k ∈ l.map Prod.fst then l.map Prod.fst else l.map Prod.fst ++ [k] := by
  induction l with
  | nil => simp [assign]
  | cons a t ih =>
    obtain ⟨ka, va⟩ := a
    by_cases h1 : ka = k
    · subst h1
      simp [assign]
    · have h2 : ¬ k = ka := fun e => h1 e.symm
      simp only [assign, h1, if_false, List.map_cons, ih, List.mem_cons, h2, false_or]
      split <;> simp

theorem mem_assign {k : Str} {v : Int} {l : List (Str × Int)} {kv : Str × Int}
    (h : kv ∈ assign k v l) : kv = (k, v) ∨ kv ∈ l := by
  induction l with
  | nil =>
    simp only [assign, List.mem_singleton] at h
    exact Or.inl h
  | cons a t ih =>
    obtain ⟨ka, va⟩ := a
    by_cases h1 : ka = k
    · simp only [assign, h1, if_true, List.mem_cons] at h
      rcases h with h | h
      · exact Or.inl h
      · exact Or.inr (List.mem_cons_of_mem _ h)
    · simp only [assign, h1, if_false, List.mem_cons] at h
      rcases h with h | h
      · exact Or.inr (by rw [h]; simp)
      · rcases ih h with h2 | h2
        · exact Or.inl h2
        · exact Or.inr (List.mem_cons_of_mem _ h2)

theorem Distances.Built.wf {D : Distances} (h : D.Built) : D.WF := by
  induction h with
  | new start =>
    refine ⟨by simp [Distances.new, assign], ?_⟩
    intro kv hkv
    simp only [Distances.new, assign, List.mem_singleton] at hkv
    exact ⟨start, by rw [hkv]⟩
  | @set d cell distance _ ih =>
    refine ⟨?_, ?_⟩
    · show ((assign (Distances.key cell) distance d.cells).map Prod.fst).Nodup
      rw [assign_keys]
      split
      · exact ih.1
      · rename_i hnot
        rw [List.nodup_append]
        refine ⟨ih.1, by simp, ?_⟩
        intro a ha hb
        simp only [List.mem_singleton] at hb
        rw [hb] at ha
        exact hnot ha
    · intro kv hkv
      rcases mem_assign hkv with h1 | h1
      · exact ⟨cell, by rw [h1]⟩
      · exact ih.2 kv h1

theorem SearchDone.wellFormed {g : Grid} {root : Cell} {D : Distances} (h : SearchDone g root D) :
    D.WF :=
  ⟨h.keys_nodup, fun kv hkv => by
    obtain ⟨c, hc, _⟩ := h.keys_valid kv hkv
    exact ⟨c, hc⟩⟩

/-- In a well-formed map, the entries are the recorded cells with their distances. -/
theorem Distances.WF.mem_cells_iff {D : Distances} (h : D.WF) (c : Cell) (v : Int) :
    (Distances.key c, v) ∈ D.cells ↔ (D.contains c = true ∧ D.getDistance c = v) := by
  constructor
  · intro hm
    have hl := lookup_eq_some_of_mem D.cells h.1 _ _ hm
    exact ⟨(D.contains_iff_lookup c).mpr ⟨_, hl⟩, D.getDistance_of_lookup _ _ hl⟩
  · rintro ⟨hc, hv⟩
    obtain ⟨w, hw⟩ := (D.contains_iff_lookup c).mp hc
    rw [D.getDistance_of_lookup _ _ hw] at hv
    rw [← hv]
    exact mem_of_lookup_eq_some _ _ _ hw

theorem Distances.WF.enum {D : Distances} (h : D.WF) (o : IterOrder) :
    ((o.enum D.cells).map Prod.fst).Nodup ∧
      (∀ kv ∈ o.enum D.cells, ∃ c, kv.1 = Distances.key c) ∧
      ∀ kv, kv ∈ o.enum D.cells ↔ kv ∈ D.cells := by
  have hp := o.perm D.cells
  refine ⟨(hp.map Prod.fst).nodup_iff.mpr h.1, ?_, fun kv => hp.mem_iff⟩
  intro kv hkv
  exact h.2 kv (hp.mem_iff.mp hkv)

/-! ## `getCells` -/

theorem Distances.getCellsLoop_spec (g : Grid) :
    ∀ (l : List (Str × Int)) (acc : List Cell),
      (∀ kv ∈ l, ∃ c, kv.1 = Distances.key c) →
      ∃ res, Distances.getCellsLoop g l acc = some (acc ++ res) ∧
        (∀ c, c ∈ res ↔ ((∃ v, (Distances.key c, v) ∈ l) ∧ g.validCell c = true)) ∧
        ((l.map Prod.fst).Nodup → res.Nodup) := by
  intro l
  induction l with
  | nil =>
    intro acc _
    exact ⟨[], by simp [Distances.getCellsLoop], by simp, fun _ => List.nodup_nil⟩
  | cons e t ih =>
    intro acc hk
    obtain ⟨k, v⟩ := e
    obtain ⟨x, hx⟩ := hk (k, v) (by simp)
    simp only at hx
    subst hx
    have hkt : ∀ kv ∈ t, ∃ c, kv.1 = Distances.key c :=
      fun kv h => hk kv (List.mem_cons_of_mem _ h)
    unfold Distances.getCellsLoop
    simp only [parseKey_cell, Grid.at_eq]
    by_cases hv : g.isValid x.row x.col = true
    · have hv2 : g.validCell x = true := hv
      obtain ⟨res, h1, h2, h3⟩ := ih (acc ++ [x]) hkt
      refine ⟨x :: res, ?_, ?_, ?_⟩
      · simp only [hv, if_true, h1]
        simp
      · intro c
        simp only [List.mem_cons, h2]
        constructor
        · rintro (e | ⟨⟨w, hw⟩, hcv⟩)
          · subst e
            exact ⟨⟨v, Or.inl rfl⟩, hv2⟩
          · exact ⟨⟨w, Or.inr hw⟩, hcv⟩
        · rintro ⟨⟨w, hw | hw⟩, hcv⟩
          · left
            have := (Prod.mk.injEq _ _ _ _ ▸ hw : Distances.key c = Distances.key x ∧ w = v).1
            exact (Distances.key_eq_iff c x).mp this
          · right
            exact ⟨⟨w, hw⟩, hcv⟩
      · intro hnd
        simp only [List.map_cons, List.nodup_cons] at hnd
        refine List.nodup_cons.mpr ⟨?_, h3 hnd.2⟩
        intro hmem
        obtain ⟨⟨w, hw⟩, _⟩ := (h2 x).mp hmem
        exact hnd.1 (List.mem_map_of_mem Prod.fst hw)
    · have hv2 : ¬ g.validCell x = true := hv
      obtain ⟨res, h1, h2, h3⟩ := ih acc hkt
      refine ⟨res, ?_, ?_, ?_⟩
      · simp only [hv, h1]
        simp
      · intro c
        rw [h2]
        constructor
        · rintro ⟨⟨w, hw⟩, hcv⟩
          exact ⟨⟨w, List.mem_cons_of_mem _ hw⟩, hcv⟩
        · rintro ⟨⟨w, hw⟩, hcv⟩
          rcases List.mem_cons.mp hw with e | e
          · have := (Prod.mk.injEq _ _ _ _ ▸ e : Distances.key c = Distances.key x ∧ w = v).1
            rw [(Distances.key_eq_iff c x).mp this] at hcv
            exact absurd hcv hv2
          · exact ⟨⟨w, e⟩, hcv⟩
      · intro hnd
        simp only [List.map_cons, List.nodup_cons] at hnd
        exact h3 hnd.2

/-- On a well-formed map, `getCells` returns the recorded in-bounds cells, each once. -/
theorem Distances.WF.getCells_spec {D : Distances} (h : D.WF) (o : IterOrder) (g : Grid) :
    ∃ l, D.getCells o g = some l ∧ l.Nodup ∧
      ∀ c, c ∈ l ↔ (D.contains c = true ∧ g.validCell c = true) := by
  obtain ⟨e1, e2, e3⟩ := h.enum o
  obtain ⟨res, h1, h2, h3⟩ := Distances.getCellsLoop_spec g (o.enum D.cells) [] e2
  refine ⟨res, by simpa [Distances.getCells] using h1, h3 e1, ?_⟩
  intro c
  rw [h2]
  constructor
  · rintro ⟨⟨v, hv⟩, hcv⟩
    exact ⟨((h.mem_cells_iff c v).mp ((e3 _).mp hv)).1, hcv⟩
  · rintro ⟨hc, hcv⟩
    exact ⟨⟨_, (e3 _).mpr ((h.mem_cells_iff c _).mpr ⟨hc, rfl⟩)⟩, hcv⟩

/-- C15: for every map that the class can hold and every grid, also one that the map was
not computed on, `getCells` returns exactly the recorded positions that are within the
bounds of the grid, each of them once, whatever the enumeration order of the map. -/
theorem Distances.getCells_exact (o : IterOrder) (D : Distances) (g : Grid) (hB : D.Built) :
    ∃ l, D.getCells o g = some l ∧ l.Nodup ∧
      (∀ c, c ∈ l ↔ (D.contains c = true ∧ g.validCell c = true)) ∧
      ∀ c ∈ l, g.isValid c.row c.col = true := by
  obtain ⟨l, h1, h2, h3⟩ := hB.wf.getCells_spec o g
  exact ⟨l, h1, h2, h3, fun c hc => ((h3 c).mp hc).2⟩

end MazeBuilder

namespace MazeBuilder

/-! ## `getMaxCell` and `getMaxDistance` -/

theorem Distances.getMaxCellLoop_general (g : Grid) :
    ∀ (l : List (Str × Int)) (acc : Cell × Int),
      (∀ kv ∈ l, ∃ c, kv.1 = Distances.key c) →
      ∃ r, Distances.getMaxCellLoop g l acc = some r ∧ acc.2 ≤ r.2 ∧
        (∀ x v, (Distances.key x, v) ∈ l → g.validCell x = true → v ≤ r.2) ∧
        (r = acc ∨ ((Distances.key r.1, r.2) ∈ l ∧ g.validCell r.1 = true ∧ acc.2 < r.2)) := by
  intro l
  induction l with
  | nil =>
    intro acc _
    exact ⟨acc, rfl, le_refl _, by simp, Or.inl rfl⟩
  | cons e t ih =>
    intro acc hk
    obtain ⟨k, v⟩ := e
    obtain ⟨mc, md⟩ := acc
    obtain ⟨x, hx⟩ := hk (k, v) (by simp)
    have hkt : ∀ kv ∈ t, ∃ c, kv.1 = Distances.key c :=
      fun kv h => hk kv (List.mem_cons_of_mem _ h)
    simp only at hx
    subst hx
    have hhead : ∀ (y : Cell) (w : Int), (Distances.key y, w) ∈ (Distances.key x, v) :: t →
        (y = x ∧ w = v) ∨ (Distances.key y, w) ∈ t := by
      intro y w hm
      rcases List.mem_cons.mp hm with e | e
      · left
        have := (Prod.mk.injEq _ _ _ _ ▸ e : Distances.key y = Distances.key x ∧ w = v)
        exact ⟨(Distances.key_eq_iff y x).mp this.1, this.2⟩
      · right; exact e
    unfold Distances.getMaxCellLoop
    by_cases hgt : v > md
    · by_cases hv : g.isValid x.row x.col = true
      · simp only [hgt, if_true, parseKey_cell, hv, Grid.at_eq]
        obtain ⟨r, h1, h2, h3, h4⟩ := ih (x, v) hkt
        simp only at h2
        refine ⟨r, h1, (by show md ≤ r.2; omega), ?_, ?_⟩
        · intro y w hm hyv
          rcases hhead y w hm with ⟨_, e⟩ | e
          · omega
          · exact h3 y w e hyv
        · right
          rcases h4 with e | ⟨e1, e2, e3⟩
          · rw [e]
            exact ⟨by simp, hv, hgt⟩
          · exact ⟨List.mem_cons_of_mem _ e1, e2, by simp only at e3 ⊢; omega⟩
      · simp only [hgt, if_true, parseKey_cell, hv]
        obtain ⟨r, h1, h2, h3, h4⟩ := ih (mc, md) hkt
        refine ⟨r, h1, h2, ?_, ?_⟩
        · intro y w hm hyv
          rcases hhead y w hm with ⟨e, _⟩ | e
          · rw [e] at hyv
            exact absurd hyv hv
          · exact h3 y w e hyv
        · rcases h4 with e | ⟨e1, e2, e3⟩
          · left; exact e
          · right; exact ⟨List.mem_cons_of_mem _ e1, e2, e3⟩
    · simp only [hgt, if_false]
      obtain ⟨r, h1, h2, h3, h4⟩ := ih (mc, md) hkt
      refine ⟨r, h1, h2, ?_, ?_⟩
      · intro y w hm hyv
        rcases hhead y w hm with ⟨_, e⟩ | e
        · simp only at h2
          omega
        · exact h3 y w e hyv
      · rcases h4 with e | ⟨e1, e2, e3⟩
        · left; exact e
        · right; exact ⟨List.mem_cons_of_mem _ e1, e2, e3⟩

/-- On a well-formed map, `getMaxCell` returns the root when no recorded in-bounds cell has
a distance above 0, and otherwise a recorded in-bounds cell of largest distance. -/
theorem Distances.WF.getMaxCell_general {D : Distances} (h : D.WF) (o : IterOrder) (g : Grid) :
    ∃ mc, D.getMaxCell o g = some mc ∧
      ((∀ c, D.contains c = true → g.validCell c = true → D.getDistance c ≤ 0) →
        mc = D.root) ∧
      ((∃ c, D.contains c = true ∧ g.validCell c = true ∧ 0 < D.getDistance c) →
        D.contains mc = true ∧ g.validCell mc = true ∧ 0 < D.getDistance mc ∧
          ∀ c, D.contains c = true → g.validCell c = true →
            D.getDistance c ≤ D.getDistance mc) := by
  obtain ⟨_, e2, e3⟩ := h.enum o
  obtain ⟨r, h1, _, h3, h4⟩ := Distances.getMaxCellLoop_general g (o.enum D.cells) (D.root, 0) e2
  have hall : ∀ c, D.contains c = true → g.validCell c = true → D.getDistance c ≤ r.2 :=
    fun c hc hcv => h3 c _ ((e3 _).mpr ((h.mem_cells_iff c _).mpr ⟨hc, rfl⟩)) hcv
  refine ⟨r.1, by unfold Distances.getMaxCell; rw [h1]; rfl, ?_, ?_⟩
  · intro hnone
    rcases h4 with e | ⟨f1, f2, f3⟩
    · rw [e]
    · have hm := (h.mem_cells_iff r.1 r.2).mp ((e3 _).mp f1)
      have := hnone r.1 hm.1 f2
      simp only at f3
      omega
  · rintro ⟨c, hc, hcv, hpos⟩
    rcases h4 with e | ⟨f1, f2, f3⟩
    · have := hall c hc hcv
      rw [e] at this
      simp only at this
      omega
    · have hm := (h.mem_cells_iff r.1 r.2).mp ((e3 _).mp f1)
      simp only at f3
      refine ⟨hm.1, f2, by omega, ?_⟩
      intro c2 hc2 hcv2
      rw [hm.2]
      exact hall c2 hc2 hcv2

theorem foldl_max_spec (l : List (Str × Int)) :
    ∀ init : Int,
      init ≤ l.foldl (fun maxDistance pair => max maxDistance pair.2) init ∧
        (∀ kv ∈ l, kv.2 ≤ l.foldl (fun maxDistance pair => max maxDistance pair.2) init) ∧
        (l.foldl (fun maxDistance pair => max maxDistance pair.2) init = init ∨
          ∃ kv ∈ l, kv.2 = l.foldl (fun maxDistance pair => max maxDistance pair.2) init) := by
  induction l with
  | nil => intro init; simp
  | cons e t ih =>
    intro init
    simp only [List.foldl_cons]
    obtain ⟨h1, h2, h3⟩ := ih (max init e.2)
    refine ⟨le_trans (le_max_left _ _) h1, ?_, ?_⟩
    · intro kv hkv
      rcases List.mem_cons.mp hkv with h | h
      · rw [h]; exact le_trans (le_max_right _ _) h1
      · exact h2 kv h
    · rcases h3 with h | ⟨kv, hkv, h⟩
      · rcases max_choice init e.2 with hm | hm
        · left; rw [h, hm]
        · right; exact ⟨e, by simp, by rw [h, hm]⟩
      · right; exact ⟨kv, List.mem_cons_of_mem _ hkv, h⟩

/-- On a well-formed map, `getMaxDistance` is at least 0 and at least every recorded
distance, and it is 0 or one of the recorded distances. -/
theorem Distances.WF.getMaxDistance_spec {D : Distances} (h : D.WF) (o : IterOrder) :
    0 ≤ D.getMaxDistance o ∧
      (∀ c, D.contains c = true → D.getDistance c ≤ D.getMaxDistance o) ∧
      (D.getMaxDistance o = 0 ∨
        ∃ c, D.contains c = true ∧ D.getDistance c = D.getMaxDistance o) := by
  obtain ⟨_, e2, e3⟩ := h.enum o
  obtain ⟨h1, h2, h3⟩ := foldl_max_spec (o.enum D.cells) 0
  refine ⟨h1, ?_, ?_⟩
  · intro c hc
    exact h2 _ ((e3 _).mpr ((h.mem_cells_iff c _).mpr ⟨hc, rfl⟩))
  · rcases h3 with e | ⟨kv, hkv, e⟩
    · left; exact e
    · right
      obtain ⟨c, hc⟩ := e2 kv hkv
      have hm : (Distances.key c, kv.2) ∈ D.cells := by
        rw [← hc]
        exact (e3 _).mp hkv
      have := (h.mem_cells_iff c kv.2).mp hm
      exact ⟨c, this.1, by rw [this.2]; exact e⟩

theorem Distances.Built.nonempty {D : Distances} (h : D.Built) : ∃ c, D.contains c = true := by
  cases h with
  | new start => exact ⟨start, by simp [Distances.contains_new]⟩
  | set cell distance _ => exact ⟨cell, by simp [Distances.contains_setDistance]⟩

theorem Distances.getMaxDistance_new (o : IterOrder) (r : Cell) :
    (Distances.new r).getMaxDistance o = 0 := by
  have hp := o.perm (Distances.new r).cells
  have hs : (Distances.new r).cells = [(Distances.key r, 0)] := rfl
  rw [hs] at hp
  have := List.perm_singleton.mp hp
  unfold Distances.getMaxDistance
  rw [hs, this]
  rfl

/-- C14: for every map that the class can hold and every grid, `getMaxCell` returns the
root when no recorded in-bounds position has a distance above 0, and otherwise a recorded
in-bounds position whose distance is the largest of the recorded in-bounds positions; and on
the map that `calculateDistances` returns for an in-bounds root, the distance of the cell
returned by `getMaxCell` is `getMaxDistance()`. -/
theorem Distances.getMaxCell_farthest (o : IterOrder) (D : Distances) (g : Grid) (root : Cell)
    (hB : D.Built) (hroot : g.validCell root = true) :
    (∃ mc, D.getMaxCell o g = some mc ∧
      ((∀ c, D.contains c = true → g.validCell c = true → D.getDistance c ≤ 0) →
        mc = D.root) ∧
      ((∃ c, D.contains c = true ∧ g.validCell c = true ∧ 0 < D.getDistance c) →
        D.contains mc = true ∧ g.validCell mc = true ∧ 0 < D.getDistance mc ∧
          ∀ c, D.contains c = true → g.validCell c = true →
            D.getDistance c ≤ D.getDistance mc)) ∧
      ∃ d mc, Dijkstra.calculateDistances g root = some d ∧ d.getMaxCell o g = some mc ∧
        d.getDistance mc = d.getMaxDistance o := by
  refine ⟨hB.wf.getMaxCell_general o g, ?_⟩
  obtain ⟨d, hd, hdone⟩ := Dijkstra.calculateDistances_done g root hroot
  obtain ⟨mc, h1, h2, h3⟩ := hdone.getMaxCell_spec o
  obtain ⟨m1, m2, m3⟩ := hdone.wellFormed.getMaxDistance_spec o
  refine ⟨d, mc, hd, h1, ?_⟩
  have ha := m2 mc h2
  have hb := hdone.nonneg h2
  rcases m3 with e | ⟨c, hc, e⟩
  · omega
  · have := h3 c hc
    omega

/-- C16: for every map that the class can hold, with non-negative stored values,
`getMaxDistance` is the largest of the stored distances; and it is 0 for the map made by the
constructor, which holds only the root. -/
theorem Distances.getMaxDistance_max (o : IterOrder) (D : Distances) (hB : D.Built)
    (hnn : ∀ c, D.contains c = true → 0 ≤ D.getDistance c) :
    (∀ c, D.contains c = true → D.getDistance c ≤ D.getMaxDistance o) ∧
      (∃ c, D.contains c = true ∧ D.getDistance c = D.getMaxDistance o) ∧
      ∀ r, (Distances.new r).getMaxDistance o = 0 := by
  obtain ⟨_, m2, m3⟩ := hB.wf.getMaxDistance_spec o
  refine ⟨m2, ?_, Distances.getMaxDistance_new o⟩
  rcases m3 with e | h
  · obtain ⟨c, hc⟩ := hB.nonempty
    have h1 := m2 c hc
    have h2 := hnn c hc
    exact ⟨c, hc, by omega⟩
  · exact h

end MazeBuilder

namespace MazeBuilder

/-! ## Fully connected grids -/

/-- C13, as amended: on a grid of `R` rows and `C` columns, with `R * C ≤ INT_MAX`, whose
cells can all be reached from the in-bounds root, the map of `calculateDistances` has
`getCells(grid)` of exactly `R * C` positions and `getMaxDistance() ≤ R * C - 1`, and every
recorded distance is below the sentinel `INT_MAX`. -/
theorem Dijkstra.calculateDistances_full (o : IterOrder) (g : Grid) (root : Cell)
    (hroot : g.validCell root = true)
    (hall : ∀ p, g.validCell p = true → Reachable g root p)
    (hsize : g.rows * g.cols ≤ INT_MAX) :
    ∃ d l, Dijkstra.calculateDistances g root = some d ∧ d.getCells o g = some l ∧
      (l.length : Int) = g.rows * g.cols ∧ d.getMaxDistance o ≤ g.rows * g.cols - 1 ∧
      ∀ c, d.contains c = true → d.getDistance c < INT_MAX := by
  obtain ⟨d, hd, hdone⟩ := Dijkstra.calculateDistances_done g root hroot
  obtain ⟨l, h1, h2, h3⟩ := hdone.wellFormed.getCells_spec o g
  have hlen := g.length_allCells_of_valid hroot
  have hcount := recordedCount_le g d
  refine ⟨d, l, hd, h1, ?_, ?_, fun c hc => hdone.lt_max hc⟩
  · have hperm : l.Perm g.allCells := by
      rw [List.perm_ext_iff_of_nodup h2 g.nodup_allCells]
      intro c
      rw [h3, g.mem_allCells]
      constructor
      · exact fun h => h.2
      · intro hv
        obtain ⟨n, hn⟩ := hall c hv
        exact ⟨(hdone.le_chain hsize hn).1, hv⟩
    rw [hperm.length_eq, hlen]
  · obtain ⟨_, _, m3⟩ := hdone.wellFormed.getMaxDistance_spec o
    rcases m3 with e | ⟨c, hc, e⟩
    · have := hdone.lt_count hdone.root_in
      rw [hdone.root_zero] at this
      omega
    · have := hdone.lt_count hc
      omega

theorem comb_linked_east (R C : Nat) (c : Nat) (hR : 0 < R) (hc : c + 1 < C) :
    (comb R C).linked ⟨0, c⟩ ⟨0, (c : Int) + 1⟩ = true := by
  rw [Grid.linked_iff, Grid.validCell_iff, Grid.validCell_iff]
  refine ⟨?_, ?_, Direction.EAST, ?_, ?_⟩
  · simp only [comb]; omega
  · simp only [comb]; omega
  · have h1 : ((c : Int) + 1 < (C : Int)) := by omega
    simp [comb, Grid.getLinks, h1]
  · simp [Cell.neighbor, DIRECTION_OFFSETS]

theorem comb_linked_south (R C : Nat) (r c : Nat) (hr : r + 1 < R) (hc : c < C) :
    (comb R C).linked ⟨r, c⟩ ⟨(r : Int) + 1, c⟩ = true := by
  rw [Grid.linked_iff, Grid.validCell_iff, Grid.validCell_iff]
  refine ⟨?_, ?_, Direction.SOUTH, ?_, ?_⟩
  · simp only [comb]; omega
  · simp only [comb]; omega
  · have h1 : ((r : Int) + 1 < (R : Int)) := by omega
    simp [comb, Grid.getLinks, h1]
  · simp [Cell.neighbor, DIRECTION_OFFSETS]

theorem comb_chain_row (R C : Nat) (hR : 0 < R) :
    ∀ k : Nat, k < C → Chain (comb R C) ⟨0, 0⟩ ⟨0, k⟩ k := by
  intro k
  induction k with
  | zero => intro _; exact Chain.nil
  | succ k ih =>
    intro hk
    have := Chain.snoc (ih (by omega)) (comb_linked_east R C k hR hk)
    simpa using this

theorem comb_chain_col (R C : Nat) (c : Nat) (hc : c < C) :
    ∀ j : Nat, j < R → Chain (comb R C) ⟨0, c⟩ ⟨j, c⟩ j := by
  intro j
  induction j with
  | zero => intro _; exact Chain.nil
  | succ j ih =>
    intro hj
    have := Chain.snoc (ih (by omega)) (comb_linked_south R C j c hj hc)
    simpa using this

theorem comb_reachable (R C : Nat) (p : Cell) (hp : (comb R C).validCell p = true) :
    Reachable (comb R C) ⟨0, 0⟩ p := by
  rw [Grid.validCell_iff] at hp
  simp only [comb] at hp
  obtain ⟨r, c⟩ := p
  simp only at hp
  obtain ⟨j, rfl⟩ := Int.eq_ofNat_of_zero_le hp.1
  obtain ⟨k, rfl⟩ := Int.eq_ofNat_of_zero_le hp.2.2.1
  have h1 := comb_chain_row R C (by omega) k (by omega)
  have h2 := comb_chain_col R C k (by omega) j (by omega)
  exact ⟨k + j, h1.trans h2⟩

/-- Instance of C13 on a perfect maze of 10 rows and 10 columns: 100 positions, and a
largest distance of at most 99. -/
theorem Dijkstra.calculateDistances_full_witness :
    (comb 10 10).validCell ⟨0, 0⟩ = true ∧
      (∀ p, (comb 10 10).validCell p = true → Reachable (comb 10 10) ⟨0, 0⟩ p) ∧
      (comb 10 10).rows * (comb 10 10).cols ≤ INT_MAX ∧
      ∃ d l, Dijkstra.calculateDistances (comb 10 10) ⟨0, 0⟩ = some d ∧
        d.getCells IterOrder.stored (comb 10 10) = some l ∧
        (l.length : Int) = 100 ∧ d.getMaxDistance IterOrder.stored ≤ 99 ∧
        ∀ c, d.contains c = true → d.getDistance c < INT_MAX :=
  ⟨by decide, comb_reachable 10 10, by decide,
    Dijkstra.calculateDistances_full IterOrder.stored (comb 10 10) ⟨0, 0⟩ (by decide)
      (comb_reachable 10 10) (by decide)⟩

end MazeBuilder

namespace MazeBuilder

/-! ## The distances depend on the link sets only -/

theorem Grid.linked_congr {g1 g2 : Grid} (hrows : g1.rows = g2.rows) (hcols : g1.cols = g2.cols)
    (hlinks : ∀ r c dir, dir ∈ g1.links r c ↔ dir ∈ g2.links r c) (p q : Cell) :
    g1.linked p q = true ↔ g2.linked p q = true := by
  rw [Grid.linked_iff, Grid.linked_iff, Grid.validCell_iff, Grid.validCell_iff,
    Grid.validCell_iff, Grid.validCell_iff, hrows, hcols]
  simp only [Grid.getLinks, hlinks]

theorem Chain.congr {g1 g2 : Grid} (h : ∀ p q, g1.linked p q = true → g2.linked p q = true)
    {root p : Cell} {n : Nat} (hch : Chain g1 root p n) : Chain g2 root p n := by
  induction hch with
  | nil => exact Chain.nil
  | snoc _ hl ih => exact Chain.snoc ih (h _ _ hl)

/-- Two finished searches from the same root, on grids with the same chains, give every
position the same distance. -/
theorem SearchDone.getDistance_eq {g1 g2 : Grid} {root : Cell} {d1 d2 : Distances}
    (h1 : SearchDone g1 root d1) (h2 : SearchDone g2 root d2)
    (h12 : ∀ p n, Chain g1 root p n → Chain g2 root p n)
    (h21 : ∀ p n, Chain g2 root p n → Chain g1 root p n) (p : Cell) :
    d1.getDistance p = d2.getDistance p := by
  have a1 := h1.le_max p
  have a2 := h2.le_max p
  by_cases c1 : d1.getDistance p < INT_MAX
  · have hc1 := d1.contains_of_lt_max p c1
    have e1 := h2.le_chain_length (h12 _ _ (h1.chain hc1))
    have n1 := h1.nonneg hc1
    have hc2 := d2.contains_of_lt_max p (by omega)
    have e2 := h1.le_chain_length (h21 _ _ (h2.chain hc2))
    have n2 := h2.nonneg hc2
    omega
  · by_cases c2 : d2.getDistance p < INT_MAX
    · have hc2 := d2.contains_of_lt_max p c2
      have e2 := h1.le_chain_length (h21 _ _ (h2.chain hc2))
      have n2 := h2.nonneg hc2
      omega
    · omega

/-- C18: two grids of the same dimensions whose cells have the same link sets, listed in any
order, give the same distances: for every in-bounds root, the two maps returned by
`calculateDistances` assign the same distance to every position. -/
theorem Dijkstra.calculateDistances_order_independent (g1 g2 : Grid) (root : Cell)
    (hrows : g1.rows = g2.rows) (hcols : g1.cols = g2.cols)
    (hlinks : ∀ r c dir, dir ∈ g1.links r c ↔ dir ∈ g2.links r c)
    (hroot : g1.validCell root = true) :
    ∃ d1 d2, Dijkstra.calculateDistances g1 root = some d1 ∧
      Dijkstra.calculateDistances g2 root = some d2 ∧
      ∀ p, d1.getDistance p = d2.getDistance p := by
  have hroot2 : g2.validCell root = true := by
    rw [Grid.validCell_iff] at hroot ⊢
    rw [← hrows, ← hcols]
    exact hroot
  obtain ⟨d1, hd1, hdone1⟩ := Dijkstra.calculateDistances_done g1 root hroot
  obtain ⟨d2, hd2, hdone2⟩ := Dijkstra.calculateDistances_done g2 root hroot2
  have hl := Grid.linked_congr hrows hcols hlinks
  exact ⟨d1, d2, hd1, hd2, hdone1.getDistance_eq hdone2
    (fun _ _ h => h.congr (fun p q => (hl p q).mp))
    (fun _ _ h => h.congr (fun p q => (hl p q).mpr))⟩

theorem corridorRev_links (n : Nat) (r c : Int) (dir : Direction) :
    dir ∈ (corridor n).links r c ↔ dir ∈ (corridorRev n).links r c := by
  simp only [corridor, corridorRev, List.mem_append]
  exact Or.comm

/-- Instance of C18 on the corridor of three cells with the root `(0, 1)`, where the two
orders of the links give maps that list their entries differently. -/
theorem Dijkstra.calculateDistances_order_independent_witness :
    (corridor 3).rows = (corridorRev 3).rows ∧ (corridor 3).cols = (corridorRev 3).cols ∧
      (∀ r c dir, dir ∈ (corridor 3).links r c ↔ dir ∈ (corridorRev 3).links r c) ∧
      (corridor 3).validCell ⟨0, 1⟩ = true ∧
      Dijkstra.calculateDistances (corridor 3) ⟨0, 1⟩
        ≠ Dijkstra.calculateDistances (corridorRev 3) ⟨0, 1⟩ ∧
      ∃ d1 d2, Dijkstra.calculateDistances (corridor 3) ⟨0, 1⟩ = some d1 ∧
        Dijkstra.calculateDistances (corridorRev 3) ⟨0, 1⟩ = some d2 ∧
        ∀ p, d1.getDistance p = d2.getDistance p :=
  ⟨rfl, rfl, corridorRev_links 3, by decide, by decide,
    Dijkstra.calculateDistances_order_independent (corridor 3) (corridorRev 3) ⟨0, 1⟩ rfl rfl
      (corridorRev_links 3) (by decide)⟩

end MazeBuilder

namespace MazeBuilder

/-! ## The record of the steps of the search -/

theorem Dijkstra.relaxLog_fst (g : Grid) (row col cellDistance : Int)
    (st : (Distances × List Entry) × List Event) (dir : Direction) :
    (Dijkstra.relaxLog g row col cellDistance st dir).1
      = Dijkstra.relax g row col cellDistance st.1 dir := by
  unfold Dijkstra.relaxLog Dijkstra.relax
  simp only
  split
  · split <;> rfl
  · rfl

theorem Dijkstra.relaxLog_fold_fst (g : Grid) (row col cellDistance : Int) :
    ∀ (ds : List Direction) (st : (Distances × List Entry) × List Event),
      (ds.foldl (Dijkstra.relaxLog g row col cellDistance) st).1
        = ds.foldl (Dijkstra.relax g row col cellDistance) st.1 := by
  intro ds
  induction ds with
  | nil => intro st; rfl
  | cons dir t ih =>
    intro st
    simp only [List.foldl_cons]
    rw [ih, Dijkstra.relaxLog_fst]

/-- Without its record, the search with a record is the search. -/
theorem Dijkstra.searchLoopLog_fst (g : Grid) :
    ∀ (fuel : Nat) (D : Distances) (F : List Entry) (log : List Event),
      (Dijkstra.searchLoopLog g fuel D F log).map Prod.fst = Dijkstra.searchLoop g fuel D F := by
  intro fuel
  induction fuel with
  | zero => intro D F log; rfl
  | succ fuel ih =>
    intro D F log
    unfold Dijkstra.searchLoopLog Dijkstra.searchLoop
    cases htop : top F with
    | none => rfl
    | some m =>
      simp only
      cases hparse : parseKey m.2 with
      | noComma => simp only; exact ih _ _ _
      | threw => rfl
      | pos row col =>
        simp only
        by_cases hv : g.isValid row col = true
        · simp only [hv, if_true]
          rw [ih, Dijkstra.relaxLog_fold_fst]
        · simp only [hv]
          exact ih _ _ _

theorem recordedCells_append (l1 l2 : List Event) :
    recordedCells (l1 ++ l2) = recordedCells l1 ++ recordedCells l2 := by
  induction l1 with
  | nil => rfl
  | cons e t ih =>
    cases e <;> simp [recordedCells, ih]

theorem LogInv.extract {D : Distances} {log : List Event} (h : LogInv D log) (d : Int)
    (cell : Cell) (cd : Int) (hd : d = cd) (h0 : 0 ≤ cd) (h1 : cd < INT_MAX) :
    LogInv D (log ++ [Event.extract d cell cd]) := by
  refine ⟨?_, ?_, ?_, ?_⟩
  · intro e he
    rcases List.mem_append.mp he with h2 | h2
    · exact h.fresh e h2
    · simp only [List.mem_singleton] at h2
      subst h2
      simp [Event.fresh, hd, h0, h1, addOne_eq cd h0 h1]
  · rw [recordedCells_append]
    simpa [recordedCells] using h.nodup
  · intro c hc
    rw [recordedCells_append] at hc
    simp only [recordedCells, List.append_nil] at hc
    exact h.present c hc
  · intro c hc
    rw [recordedCells_append]
    simp only [recordedCells, List.append_nil]
    exact h.complete c hc

end MazeBuilder

namespace MazeBuilder

theorem Dijkstra.relaxLog_eq (g : Grid) (p : Cell) (d : Int) (D : Distances) (F : List Entry)
    (log : List Event) (dir : Direction) :
    Dijkstra.relaxLog g p.row p.col d ((D, F), log) dir =
      if g.validCell (p.neighbor dir) = true ∧ addOne d < D.getDistance (p.neighbor dir) then
        ((D.setDistance (p.neighbor dir) (addOne d),
            push (addOne d, Distances.key (p.neighbor dir)) F),
          log ++ [Event.record (p.neighbor dir) (D.contains (p.neighbor dir)) (addOne d)])
      else ((D, F), log) := by
  unfold Dijkstra.relaxLog
  simp only [Grid.validCell, Cell.neighbor, Grid.at]
  by_cases h1 : g.isValid (p.row + (DIRECTION_OFFSETS dir).2) (p.col + (DIRECTION_OFFSETS dir).1)
      = true
  · by_cases h2 : addOne d <
        D.getDistance ⟨p.row + (DIRECTION_OFFSETS dir).2, p.col + (DIRECTION_OFFSETS dir).1⟩
    · simp [h1, h2]
    · simp [h1, h2]
  · simp [h1]

/-- One relaxation step keeps the invariant of the record. -/
theorem Dijkstra.relaxLog_spec {g : Grid} {root p : Cell} {d0 : Int} {D : Distances}
    {F : List Entry} {log : List Event}
    (hInv : SearchInv g root d0 (fun c => c = p) D F)
    (hp : D.contains p = true) (hd : D.getDistance p = d0) (dir : Direction)
    (hlog : LogInv D log) :
    LogInv (Dijkstra.relaxLog g p.row p.col d0 ((D, F), log) dir).1.1
      (Dijkstra.relaxLog g p.row p.col d0 ((D, F), log) dir).2 := by
  have hr := hInv.range p hp
  rw [hd] at hr
  have hadd : addOne d0 = d0 + 1 := addOne_eq d0 hr.1 hr.2.1
  rw [Dijkstra.relaxLog_eq, hadd]
  by_cases hc : g.validCell (p.neighbor dir) = true ∧ d0 + 1 < D.getDistance (p.neighbor dir)
  · rw [if_pos hc]
    have hnc : D.contains (p.neighbor dir) = false := by
      by_contra hcon
      have hcon2 : D.contains (p.neighbor dir) = true := by simpa using hcon
      have := (hInv.range _ hcon2).2.2.1
      omega
    refine ⟨?_, ?_, ?_, ?_⟩
    · intro e he
      rcases List.mem_append.mp he with h2 | h2
      · exact hlog.fresh e h2
      · simp only [List.mem_singleton] at h2
        subst h2
        simp [Event.fresh, hnc]
    · show (recordedCells (log ++ _)).Nodup
      rw [recordedCells_append]
      simp only [recordedCells]
      rw [List.nodup_append]
      refine ⟨hlog.nodup, by simp, ?_⟩
      intro a ha hb
      simp only [List.mem_singleton] at hb
      have := hlog.present a ha
      rw [hb, hnc] at this
      exact Bool.false_ne_true this
    · intro c hcm
      show (D.setDistance (p.neighbor dir) (d0 + 1)).contains c = true
      rw [Distances.contains_setDistance]
      have hcm2 : c ∈ recordedCells (log ++ [Event.record (p.neighbor dir)
          (D.contains (p.neighbor dir)) (d0 + 1)]) := hcm
      rw [recordedCells_append] at hcm2
      simp only [recordedCells, List.mem_append, List.mem_singleton] at hcm2
      rcases hcm2 with h2 | h2
      · simp [hlog.present c h2]
      · simp [h2]
    · intro c hcc
      have hcc2 : (D.setDistance (p.neighbor dir) (d0 + 1)).contains c = true := hcc
      rw [Distances.contains_setDistance] at hcc2
      show c ∈ recordedCells (log ++ [Event.record (p.neighbor dir)
          (D.contains (p.neighbor dir)) (d0 + 1)])
      rw [recordedCells_append]
      simp only [recordedCells, List.mem_append, List.mem_singleton]
      by_cases e : c = p.neighbor dir
      · right; exact e
      · left
        exact hlog.complete c (by simpa [e] using hcc2)
  · rw [if_neg hc]
    exact hlog

theorem Dijkstra.relaxLog_fold_spec {g : Grid} {root p : Cell} {d0 : Int} :
    ∀ (ds : List Direction) (D : Distances) (F : List Entry) (log : List Event),
      (∀ dir ∈ ds, dir ∈ g.getLinks p) →
      SearchInv g root d0 (fun c => c = p) D F →
      D.contains p = true → D.getDistance p = d0 → LogInv D log →
      LogInv (ds.foldl (Dijkstra.relaxLog g p.row p.col d0) ((D, F), log)).1.1
        (ds.foldl (Dijkstra.relaxLog g p.row p.col d0) ((D, F), log)).2 := by
  intro ds
  induction ds with
  | nil =>
    intro D F log _ _ _ _ hlog
    exact hlog
  | cons dir t ih =>
    intro D F log hsub hInv hp hd hlog
    obtain ⟨s1, s2, _, _, _⟩ := Dijkstra.relax_spec hInv hp hd dir (hsub dir (by simp))
    have hl1 := Dijkstra.relaxLog_spec hInv hp hd dir hlog
    have hfst := Dijkstra.relaxLog_fst g p.row p.col d0 ((D, F), log) dir
    simp only at hfst
    simp only [List.foldl_cons]
    have hp1 := (s2 p hp).1
    have hd1 : (Dijkstra.relax g p.row p.col d0 (D, F) dir).1.getDistance p = d0 := by
      rw [(s2 p hp).2, hd]
    rw [← hfst] at s1 hp1 hd1
    exact ih _ _ _ (fun d hdm => hsub d (by simp [hdm])) s1 hp1 hd1 hl1

/-- One pass of the search loop: the entry extracted belongs to a recorded cell and carries
its distance, and the invariant holds again after the links of the cell are processed. -/
theorem Dijkstra.search_expand {g : Grid} {root : Cell} {L : Int} {D : Distances}
    {F : List Entry} {m : Entry} (hInv : SearchInv g root L (fun _ => False) D F)
    (htop : top F = some m) :
    ∃ p, m.2 = Distances.key p ∧ D.contains p = true ∧ D.getDistance p = m.1 ∧
      g.validCell p = true ∧
      SearchInv g root m.1 (fun c => c = p) D (pop m F) ∧
      SearchInv g root m.1 (fun _ => False)
        ((g.getLinks p).foldl (Dijkstra.relax g p.row p.col m.1) (D, pop m F)).1
        ((g.getLinks p).foldl (Dijkstra.relax g p.row p.col m.1) (D, pop m F)).2 ∧
      ((recordedCount g
            ((g.getLinks p).foldl (Dijkstra.relax g p.row p.col m.1) (D, pop m F)).1 : Int)
          - (((g.getLinks p).foldl (Dijkstra.relax g p.row p.col m.1) (D, pop m F)).2.length
            : Int)
        = (recordedCount g D : Int) - (F.length : Int) + 1) := by
  obtain ⟨hm, hmin⟩ := top_spec htop
  obtain ⟨hLm, p, hk, hpc, hpd⟩ := hInv.frontier m hm
  have hpv := hInv.valid_of_contains hpc
  have hInv1 : SearchInv g root m.1 (fun c => c = p) D (pop m F) := by
    refine ⟨hInv.root_eq, hInv.root_in, hInv.root_zero, hInv.keys, hInv.nodup, ?_, ?_,
      hInv.sound, ?_⟩
    · intro c hc
      have := hInv.range c hc
      exact ⟨this.1, this.2.1, by omega, this.2.2.2⟩
    · intro e he
      have he2 := mem_of_mem_pop he
      obtain ⟨_, c, h2, h3, h4⟩ := hInv.frontier e he2
      exact ⟨hmin e he2, c, h2, h3, h4⟩
    · intro c hc
      rcases hInv.closed c hc with h | h | h
      · exact absurd h id
      · obtain ⟨e, he, hek⟩ := h
        by_cases hem : e = m
        · left
          rw [hem, hk] at hek
          exact ((Distances.key_eq_iff _ _).mp hek).symm
        · right; left
          exact ⟨e, mem_pop_of_ne he hem, hek⟩
      · right; right; exact h
  obtain ⟨t1, t2, _, t4, t5⟩ :=
    Dijkstra.relax_fold_spec (g.getLinks p) D (pop m F) (fun _ h => h) hInv1 hpc hpd
  refine ⟨p, hk, hpc, hpd, hpv, hInv1, ?_, ?_⟩
  · refine ⟨t1.root_eq, t1.root_in, t1.root_zero, t1.keys, t1.nodup, t1.range, t1.frontier,
      t1.sound, ?_⟩
    intro c hc
    rcases t1.closed c hc with h | h | h
    · right; right
      subst h
      intro q hq
      obtain ⟨_, hqv, dir, hdir, hnb⟩ := (g.linked_iff _ _).mp hq
      subst hnb
      have := t4 dir hdir hqv
      rw [(t2 c hpc).2, hpd]
      exact this
    · right; left; exact h
    · right; right; exact h
  · have hlen := length_pop hm
    rw [t5]
    omega

/-- The search with a record returns, and its record satisfies the invariant. -/
theorem Dijkstra.searchLoopLog_spec (g : Grid) (root : Cell) :
    ∀ (fuel : Nat) (D : Distances) (F : List Entry) (log : List Event) (L : Int),
      SearchInv g root L (fun _ => False) D F →
      (g.allCells.length : Int) - (recordedCount g D : Int) + (F.length : Int) + 1 ≤ (fuel : Int) →
      LogInv D log →
      ∃ (D1 : Distances) (log1 : List Event),
        Dijkstra.searchLoopLog g fuel D F log = some (D1, log1) ∧ LogInv D1 log1 := by
  intro fuel
  induction fuel with
  | zero =>
    intro D F log L _ hfuel _
    have := recordedCount_le g D
    omega
  | succ fuel ih =>
    intro D F log L hInv hfuel hlog
    unfold Dijkstra.searchLoopLog
    cases htop : top F with
    | none => exact ⟨D, log, rfl, hlog⟩
    | some m =>
      obtain ⟨p, hk, hpc, hpd, hpv, hInv1, hInv2, hmeasure⟩ := Dijkstra.search_expand hInv htop
      have hpv2 : g.isValid p.row p.col = true := hpv
      have hr := hInv.range p hpc
      simp only [hk, parseKey_cell, hpv2, if_true, Grid.at_eq]
      rw [hpd]
      have hlog1 := hlog.extract m.1 p m.1 rfl (by rw [← hpd]; exact hr.1)
        (by rw [← hpd]; exact hr.2.1)
      have hlog2 := Dijkstra.relaxLog_fold_spec (g.getLinks p) D (pop m F) _ (fun _ h => h)
        hInv1 hpc hpd hlog1
      have hfst := Dijkstra.relaxLog_fold_fst g p.row p.col m.1 (g.getLinks p)
        ((D, pop m F), log ++ [Event.extract m.1 p m.1])
      simp only at hfst
      rw [← hfst] at hInv2 hmeasure
      exact ih _ _ _ m.1 hInv2 (by omega) hlog2

/-- C19: in `calculateDistances` with an in-bounds root, every entry extracted from the
frontier carries the distance recorded for its cell at that moment, a distance that is
finite and non-negative, so that `cellDistance + 1` does not overflow; no entry is skipped;
`setDistance` is only called for a cell that has no entry yet, so that no recorded distance
is overwritten; and no cell is pushed onto the frontier twice. -/
theorem Dijkstra.calculateDistances_no_stale (g : Grid) (root : Cell)
    (hroot : g.validCell root = true) :
    ∃ d log, Dijkstra.calculateDistancesLog g root = some (d, log) ∧
      Dijkstra.calculateDistances g root = some d ∧
      (∀ e ∈ log, e.fresh = true) ∧ (recordedCells log).Nodup ∧
      ∀ c, c ∈ recordedCells log ↔ d.contains c = true := by
  have hInv := Dijkstra.searchInv_init g root hroot
  have hlen := g.length_allCells_of_valid hroot
  have hcount : 1 ≤ recordedCount g (Distances.new root) := by
    have := (hInv.range root hInv.root_in).2.2.2
    rw [hInv.root_zero] at this
    omega
  have hfuel : (g.allCells.length : Int) - (recordedCount g (Distances.new root) : Int)
      + ((push (0, Distances.key root) []).length : Int) + 1
      ≤ ((Dijkstra.searchFuel g : Nat) : Int) := by
    have h1 : ((Dijkstra.searchFuel g : Nat) : Int) = g.rows * g.cols + 2 := by
      unfold Dijkstra.searchFuel
      push_cast
      rw [Int.toNat_of_nonneg (by rw [← hlen]; omega)]
    rw [h1, hlen]
    simp only [push, List.nil_append, List.length_singleton]
    omega
  have hlog0 : LogInv (Distances.new root) [Event.record root false 0] := by
    refine ⟨?_, ?_, ?_, ?_⟩
    · intro e he
      simp only [List.mem_singleton] at he
      subst he
      rfl
    · simp [recordedCells]
    · intro c hc
      simp only [recordedCells, List.mem_singleton] at hc
      simp [Distances.contains_new, hc]
    · intro c hc
      simp only [Distances.contains_new, decide_eq_true_eq] at hc
      simp [recordedCells, hc]
  obtain ⟨D1, log1, h1, h2⟩ := Dijkstra.searchLoopLog_spec g root _ _ _ _ 0 hInv hfuel hlog0
  have herase := Dijkstra.searchLoopLog_fst g (Dijkstra.searchFuel g) (Distances.new root)
    (push (0, Distances.key root) []) [Event.record root false 0]
  rw [h1] at herase
  have hcalc : Dijkstra.calculateDistances g root = some D1 := herase.symm
  exact ⟨D1, log1, h1, hcalc, h2.fresh, h2.nodup,
    fun c => ⟨h2.present c, h2.complete c⟩⟩

end MazeBuilder

namespace MazeBuilder

/-! ## Instances of the claims about the map and the steps of the search -/

/-- Instance of C19 on the corridor of three cells with the root `(0, 1)`, with the record
of the steps of that search. -/
theorem Dijkstra.calculateDistances_no_stale_witness :
    (corridor 3).validCell ⟨0, 1⟩ = true ∧
      (Dijkstra.calculateDistancesLog (corridor 3) ⟨0, 1⟩).map Prod.snd
        = some [Event.record ⟨0, 1⟩ false 0, Event.extract 0 ⟨0, 1⟩ 0,
            Event.record ⟨0, 0⟩ false 1, Event.record ⟨0, 2⟩ false 1,
            Event.extract 1 ⟨0, 0⟩ 1, Event.extract 1 ⟨0, 2⟩ 1] ∧
      ∃ d log, Dijkstra.calculateDistancesLog (corridor 3) ⟨0, 1⟩ = some (d, log) ∧
        Dijkstra.calculateDistances (corridor 3) ⟨0, 1⟩ = some d ∧
        (∀ e ∈ log, e.fresh = true) ∧ (recordedCells log).Nodup ∧
        ∀ c, c ∈ recordedCells log ↔ d.contains c = true :=
  ⟨by decide, by decide,
    Dijkstra.calculateDistances_no_stale (corridor 3) ⟨0, 1⟩ (by decide)⟩

/-- Instance of C11 on a grid of two rows and two columns whose cells all list the four
directions, with the root `(0, 0)`. -/
theorem Dijkstra.calculateDistances_in_bounds_witness :
    (openGrid 2 2).validCell ((⟨0, 0⟩ : Cell).neighbor Direction.NORTH) = false ∧
      Direction.NORTH ∈ (openGrid 2 2).getLinks ⟨0, 0⟩ ∧
      ∃ d, Dijkstra.calculateDistances (openGrid 2 2) ⟨0, 0⟩ = some d ∧
        (∀ c, d.contains c = true → c = ⟨0, 0⟩ ∨ (openGrid 2 2).validCell c = true) ∧
        ((openGrid 2 2).validCell ⟨0, 0⟩ = true →
          (∀ c, d.contains c = true → (openGrid 2 2).validCell c = true) ∧
            ∀ kv ∈ d.cells, ∃ c, kv.1 = Distances.key c ∧ (openGrid 2 2).validCell c = true) :=
  ⟨by decide, by decide, Dijkstra.calculateDistances_in_bounds (openGrid 2 2) ⟨0, 0⟩⟩

/-- Instance of C15 on a stale map: a map with the entries `(0, 0)` and `(5, 5)`, asked for
its cells on the grid of one cell. -/
theorem Distances.getCells_exact_witness :
    ((Distances.new ⟨0, 0⟩).setDistance ⟨5, 5⟩ 3).Built ∧
      ((Distances.new ⟨0, 0⟩).setDistance ⟨5, 5⟩ 3).getCells IterOrder.stored (corridor 1)
        = some [⟨0, 0⟩] ∧
      ∃ l, ((Distances.new ⟨0, 0⟩).setDistance ⟨5, 5⟩ 3).getCells IterOrder.stored (corridor 1)
          = some l ∧ l.Nodup ∧
        (∀ c, c ∈ l ↔ (((Distances.new ⟨0, 0⟩).setDistance ⟨5, 5⟩ 3).contains c = true ∧
          (corridor 1).validCell c = true)) ∧
        ∀ c ∈ l, (corridor 1).isValid c.row c.col = true :=
  ⟨Distances.Built.set _ _ (Distances.Built.new _), by decide,
    Distances.getCells_exact IterOrder.stored _ (corridor 1)
      (Distances.Built.set _ _ (Distances.Built.new _))⟩

/-- Instance of C14 on the map with the entries `(0, 0)` at distance 0 and `(0, 2)` at
distance 2, and on the corridor of three cells. -/
theorem Distances.getMaxCell_farthest_witness :
    ((Distances.new ⟨0, 0⟩).setDistance ⟨0, 2⟩ 2).Built ∧
      (corridor 3).validCell ⟨0, 0⟩ = true ∧
      ((Distances.new ⟨0, 0⟩).setDistance ⟨0, 2⟩ 2).getMaxCell IterOrder.stored (corridor 3)
        = some ⟨0, 2⟩ ∧
      ((∃ mc, ((Distances.new ⟨0, 0⟩).setDistance ⟨0, 2⟩ 2).getMaxCell IterOrder.stored
            (corridor 3) = some mc ∧
        ((∀ c, ((Distances.new ⟨0, 0⟩).setDistance ⟨0, 2⟩ 2).contains c = true →
            (corridor 3).validCell c = true →
            ((Distances.new ⟨0, 0⟩).setDistance ⟨0, 2⟩ 2).getDistance c ≤ 0) →
          mc = ((Distances.new ⟨0, 0⟩).setDistance ⟨0, 2⟩ 2).root) ∧
        ((∃ c, ((Distances.new ⟨0, 0⟩).setDistance ⟨0, 2⟩ 2).contains c = true ∧
            (corridor 3).validCell c = true ∧
            0 < ((Distances.new ⟨0, 0⟩).setDistance ⟨0, 2⟩ 2).getDistance c) →
          ((Distances.new ⟨0, 0⟩).setDistance ⟨0, 2⟩ 2).contains mc = true ∧
            (corridor 3).validCell mc = true ∧
            0 < ((Distances.new ⟨0, 0⟩).setDistance ⟨0, 2⟩ 2).getDistance mc ∧
            ∀ c, ((Distances.new ⟨0, 0⟩).setDistance ⟨0, 2⟩ 2).contains c = true →
              (corridor 3).validCell c = true →
              ((Distances.new ⟨0, 0⟩).setDistance ⟨0, 2⟩ 2).getDistance c
                ≤ ((Distances.new ⟨0, 0⟩).setDistance ⟨0, 2⟩ 2).getDistance mc)) ∧
        ∃ d mc, Dijkstra.calculateDistances (corridor 3) ⟨0, 0⟩ = some d ∧
          d.getMaxCell IterOrder.stored (corridor 3) = some mc ∧
          d.getDistance mc = d.getMaxDistance IterOrder.stored) :=
  ⟨Distances.Built.set _ _ (Distances.Built.new _), by decide, by decide,
    Distances.getMaxCell_farthest IterOrder.stored _ (corridor 3) ⟨0, 0⟩
      (Distances.Built.set _ _ (Distances.Built.new _)) (by decide)⟩

theorem Distances.example_nonneg (c : Cell) :
    0 ≤ ((Distances.new ⟨0, 0⟩).setDistance ⟨0, 2⟩ 2).getDistance c := by
  rw [Distances.getDistance_setDistance, Distances.getDistance_new]
  split
  · decide
  · split <;> decide

/-- Instance of C16 on the map with the entries `(0, 0)` at distance 0 and `(0, 2)` at
distance 2, whose largest distance is 2. -/
theorem Distances.getMaxDistance_max_witness :
    ((Distances.new ⟨0, 0⟩).setDistance ⟨0, 2⟩ 2).Built ∧
      (∀ c, ((Distances.new ⟨0, 0⟩).setDistance ⟨0, 2⟩ 2).contains c = true →
        0 ≤ ((Distances.new ⟨0, 0⟩).setDistance ⟨0, 2⟩ 2).getDistance c) ∧
      ((Distances.new ⟨0, 0⟩).setDistance ⟨0, 2⟩ 2).getMaxDistance IterOrder.stored = 2 ∧
      ((∀ c, ((Distances.new ⟨0, 0⟩).setDistance ⟨0, 2⟩ 2).contains c = true →
          ((Distances.new ⟨0, 0⟩).setDistance ⟨0, 2⟩ 2).getDistance c
            ≤ ((Distances.new ⟨0, 0⟩).setDistance ⟨0, 2⟩ 2).getMaxDistance IterOrder.stored) ∧
        (∃ c, ((Distances.new ⟨0, 0⟩).setDistance ⟨0, 2⟩ 2).contains c = true ∧
          ((Distances.new ⟨0, 0⟩).setDistance ⟨0, 2⟩ 2).getDistance c
            = ((Distances.new ⟨0, 0⟩).setDistance ⟨0, 2⟩ 2).getMaxDistance IterOrder.stored) ∧
        ∀ r, (Distances.new r).getMaxDistance IterOrder.stored = 0) :=
  ⟨Distances.Built.set _ _ (Distances.Built.new _), fun c _ => Distances.example_nonneg c,
    by decide,
    Distances.getMaxDistance_max IterOrder.stored _
      (Distances.Built.set _ _ (Distances.Built.new _))
      (fun c _ => Distances.example_nonneg c)⟩

end MazeBuilder

namespace MazeBuilder

/-! ## The U-shaped maze -/

theorem uMaze_cell_iff (n : Nat) (p : Cell) :
    (uMaze n).validCell p = true ↔ (p.row = 0 ∨ p.row = 1) ∧ 0 ≤ p.col ∧ p.col < n := by
  rw [Grid.validCell_iff]
  simp only [uMaze]
  omega

theorem uRank_range (n : Nat) {p : Cell} (hp : (uMaze n).validCell p = true) :
    0 ≤ uRank n p ∧ uRank n p < 2 * (n : Int) := by
  rw [uMaze_cell_iff] at hp
  obtain ⟨hr, h0, h1⟩ := hp
  unfold uRank
  split <;> omega

theorem uRank_inj (n : Nat) {p q : Cell} (hp : (uMaze n).validCell p = true)
    (hq : (uMaze n).validCell q = true) (h : uRank n p = uRank n q) : p = q := by
  rw [uMaze_cell_iff] at hp hq
  obtain ⟨pr, pc⟩ := p
  obtain ⟨qr, qc⟩ := q
  simp only at hp hq
  simp only [uRank] at h
  simp only [Cell.mk.injEq]
  split at h <;> split at h <;> omega

theorem uCell_spec (n : Nat) (k : Int) (h0 : 0 ≤ k) (h1 : k < 2 * (n : Int)) :
    (uMaze n).validCell (uCell n k) = true ∧ uRank n (uCell n k) = k := by
  by_cases hk : k < n
  · have e : uCell n k = ⟨0, k⟩ := by
      unfold uCell
      rw [if_pos hk]
    rw [e, uMaze_cell_iff]
    exact ⟨⟨Or.inl rfl, h0, hk⟩, by simp [uRank]⟩
  · have e : uCell n k = ⟨1, 2 * (n : Int) - 1 - k⟩ := by
      unfold uCell
      rw [if_neg hk]
    rw [e, uMaze_cell_iff]
    refine ⟨⟨Or.inr rfl, ?_, ?_⟩, ?_⟩
    · show 0 ≤ 2 * (n : Int) - 1 - k
      omega
    · show 2 * (n : Int) - 1 - k < n
      omega
    · show (if (1 : Int) = 0 then _ else _) = k
      rw [if_neg (by decide)]
      show 2 * (n : Int) - 1 - (2 * (n : Int) - 1 - k) = k
      omega

theorem uMaze_step_iff (n : Nat) (p q : Cell) :
    (uMaze n).linked p q = true ↔
      (uMaze n).validCell p = true ∧ (uMaze n).validCell q = true ∧
        (uRank n q = uRank n p + 1 ∨ uRank n q = uRank n p - 1) := by
  rw [Grid.linked_iff]
  constructor
  · rintro ⟨hp, hq, dir, hdir, hnb⟩
    refine ⟨hp, hq, ?_⟩
    rw [uMaze_cell_iff] at hp hq
    obtain ⟨pr, pc⟩ := p
    obtain ⟨qr, qc⟩ := q
    simp only at hp hq
    simp only [Grid.getLinks, uMaze, List.mem_append] at hdir
    simp only [Cell.neighbor, Cell.mk.injEq] at hnb
    simp only [uRank]
    rcases hdir with ((hdir | hdir) | hdir) | hdir <;> split at hdir <;>
      simp only [List.mem_singleton, List.not_mem_nil] at hdir <;> subst hdir <;>
      simp only [DIRECTION_OFFSETS] at hnb <;> split <;> split <;> omega
  · rintro ⟨hp, hq, hstep⟩
    refine ⟨hp, hq, ?_⟩
    rw [uMaze_cell_iff] at hp hq
    obtain ⟨pr, pc⟩ := p
    obtain ⟨qr, qc⟩ := q
    simp only at hp hq
    simp only [uRank] at hstep
    simp only [Grid.getLinks, uMaze, List.mem_append, Cell.neighbor, Cell.mk.injEq]
    by_cases hrow : qr = pr
    · by_cases hcol : qc = pc + 1
      · refine ⟨Direction.EAST, Or.inl (Or.inl (Or.inr ?_)), ?_⟩
        · rw [if_pos (by omega)]
          simp
        · simp only [DIRECTION_OFFSETS]
          omega
      · have hcol2 : qc = pc - 1 := by
          split at hstep <;> split at hstep <;> omega
        refine ⟨Direction.WEST, Or.inl (Or.inl (Or.inl ?_)), ?_⟩
        · rw [if_pos (by omega)]
          simp
        · simp only [DIRECTION_OFFSETS]
          omega
    · have hcols : pc + 1 = n ∧ qc + 1 = n := by
        split at hstep <;> split at hstep <;> omega
      by_cases hp0 : pr = 0
      · refine ⟨Direction.SOUTH, Or.inl (Or.inr ?_), ?_⟩
        · rw [if_pos ⟨hp0, hcols.1⟩]
          simp
        · simp only [DIRECTION_OFFSETS]
          omega
      · refine ⟨Direction.NORTH, Or.inr ?_, ?_⟩
        · rw [if_pos ⟨by omega, hcols.1⟩]
          simp
        · simp only [DIRECTION_OFFSETS]
          omega

theorem uMaze_bidirectional (n : Nat) : (uMaze n).bidirectional := by
  intro p q h
  rw [uMaze_step_iff] at h ⊢
  obtain ⟨h1, h2, h3⟩ := h
  exact ⟨h2, h1, by omega⟩

theorem uMaze_chain_lower (n : Nat) {a p : Cell} {m : Nat} (h : Chain (uMaze n) a p m) :
    uRank n p - uRank n a ≤ m ∧ uRank n a - uRank n p ≤ m := by
  induction h with
  | nil => simp
  | snoc _ hl ih =>
    have := ((uMaze_step_iff n _ _).mp hl).2.2
    push_cast
    constructor <;> omega

theorem uMaze_chain_upper (n : Nat) (a : Cell) (ha : (uMaze n).validCell a = true) :
    ∀ (k : Nat) (c : Cell), (uMaze n).validCell c = true →
      (uRank n c - uRank n a = k ∨ uRank n a - uRank n c = k) → Chain (uMaze n) a c k := by
  intro k
  induction k with
  | zero =>
    intro c hc hk
    have : c = a := uRank_inj n hc ha (by omega)
    rw [this]
    exact Chain.nil
  | succ k ih =>
    intro c hc hk
    push_cast at hk
    have hra := uRank_range n ha
    have hrc := uRank_range n hc
    by_cases hlt : uRank n a < uRank n c
    · obtain ⟨v1, v2⟩ := uCell_spec n (uRank n c - 1) (by omega) (by omega)
      have h1 := ih (uCell n (uRank n c - 1)) v1 (by omega)
      refine Chain.snoc h1 ?_
      rw [uMaze_step_iff]
      exact ⟨v1, hc, by omega⟩
    · obtain ⟨v1, v2⟩ := uCell_spec n (uRank n c + 1) (by omega) (by omega)
      have h1 := ih (uCell n (uRank n c + 1)) v1 (by omega)
      refine Chain.snoc h1 ?_
      rw [uMaze_step_iff]
      exact ⟨v1, hc, by omega⟩

/-- The distances recorded by a search on the U-shaped maze: a cell is recorded when its
distance from the root along the U is below `INT_MAX`, with that distance, and it is not
recorded otherwise. -/
theorem uMaze_distance (n : Nat) {root : Cell} {D : Distances}
    (hdone : SearchDone (uMaze n) root D) (hroot : (uMaze n).validCell root = true)
    (p : Cell) (hp : (uMaze n).validCell p = true) :
    (|uRank n p - uRank n root| < INT_MAX →
        D.contains p = true ∧ D.getDistance p = |uRank n p - uRank n root|) ∧
      (INT_MAX ≤ |uRank n p - uRank n root| →
        D.contains p = false ∧ D.getDistance p = INT_MAX) := by
  constructor
  · intro hlt
    have hup := uMaze_chain_upper n root hroot (uRank n p - uRank n root).natAbs p hp
      (by omega)
    have hle := hdone.le_chain_length hup
    rw [Int.abs_eq_natAbs] at hlt
    have hcont : D.contains p = true := D.contains_of_lt_max p (by omega)
    refine ⟨hcont, ?_⟩
    have hlow := uMaze_chain_lower n (hdone.chain hcont)
    have h0 := hdone.nonneg hcont
    rw [Int.abs_eq_natAbs]
    omega
  · intro hge
    have hnc : D.contains p = false := by
      by_contra hc
      have hcont : D.contains p = true := by simpa using hc
      have hlow := uMaze_chain_lower n (hdone.chain hcont)
      have h0 := hdone.nonneg hcont
      have h1 := hdone.lt_max hcont
      rw [Int.abs_eq_natAbs] at hge
      omega
    exact ⟨hnc, D.getDistance_of_not_contains p hnc⟩

end MazeBuilder

namespace MazeBuilder

/-! ## The U-shaped maze is a tree -/

theorem uMaze_adj (n : Nat) {a b : Cell} (h : (linkGraph (uMaze n)).Adj a b) :
    (uMaze n).validCell a = true ∧ (uMaze n).validCell b = true ∧
      (uRank n b = uRank n a + 1 ∨ uRank n b = uRank n a - 1) :=
  (uMaze_step_iff n a b).mp h.1

/-- A trail of the U-shaped maze keeps going the way of its first step. -/
theorem uMaze_trail_mono (n : Nat) :
    ∀ {a b : Cell} (p : (linkGraph (uMaze n)).Walk a b) (prev : Cell),
      p.IsTrail → s(prev, a) ∉ p.edges → (uMaze n).validCell prev = true →
      (uRank n a = uRank n prev + 1 → ∀ z ∈ p.support, uRank n prev < uRank n z) ∧
        (uRank n a = uRank n prev - 1 → ∀ z ∈ p.support, uRank n z < uRank n prev) := by
  intro a b p
  induction p with
  | nil =>
    intro prev _ _ _
    constructor
    · intro h z hz
      simp only [SimpleGraph.Walk.support_nil, List.mem_singleton] at hz
      rw [hz]; omega
    · intro h z hz
      simp only [SimpleGraph.Walk.support_nil, List.mem_singleton] at hz
      rw [hz]; omega
  | @cons a a1 b hadj q ih =>
    intro prev htrail hprev hpv
    rw [SimpleGraph.Walk.cons_isTrail_iff] at htrail
    rw [SimpleGraph.Walk.edges_cons, List.mem_cons, not_or] at hprev
    obtain ⟨hav, h1v, hstep⟩ := uMaze_adj n hadj
    have hne : a1 ≠ prev := by
      intro e
      apply hprev.1
      rw [e, Sym2.eq_swap]
    have hrk : uRank n a1 ≠ uRank n prev := fun e => hne (uRank_inj n h1v hpv e)
    obtain ⟨ih1, ih2⟩ := ih a htrail.1 htrail.2 hav
    constructor
    · intro h z hz
      rw [SimpleGraph.Walk.support_cons] at hz
      rcases List.mem_cons.mp hz with e | e
      · rw [e]; omega
      · have := ih1 (by omega) z e
        omega
    · intro h z hz
      rw [SimpleGraph.Walk.support_cons] at hz
      rcases List.mem_cons.mp hz with e | e
      · rw [e]; omega
      · have := ih2 (by omega) z e
        omega

theorem uMaze_acyclic (n : Nat) : (linkGraph (uMaze n)).IsAcyclic := by
  intro v c hc
  cases c with
  | nil => exact hc.ne_nil rfl
  | @cons _ v1 _ hadj q =>
    have htrail := hc.toIsCircuit.toIsTrail
    rw [SimpleGraph.Walk.cons_isTrail_iff] at htrail
    obtain ⟨hvv, _, hstep⟩ := uMaze_adj n hadj
    obtain ⟨m1, m2⟩ := uMaze_trail_mono n q v htrail.1 htrail.2 hvv
    have hend := q.end_mem_support
    rcases hstep with e | e
    · have := m1 e v hend
      omega
    · have := m2 e v hend
      omega

theorem uMaze_connected (n : Nat) (p q : Cell) (hp : (uMaze n).validCell p = true)
    (hq : (uMaze n).validCell q = true) :
    Chain (uMaze n) p q (uRank n q - uRank n p).natAbs :=
  uMaze_chain_upper n p hp _ q hq (by omega)

theorem uMaze_isTree (n : Nat) (hn : 1 ≤ n) : (uMaze n).IsTree := by
  refine ⟨?_, uMaze_bidirectional n, ?_, uMaze_acyclic n⟩
  · rw [uMaze_cell_iff]
    refine ⟨Or.inl rfl, ?_, ?_⟩ <;> simp only <;> omega
  · intro p q hp hq
    exact ⟨_, uMaze_connected n p q hp hq⟩

/-- The diameter of the U-shaped maze of `n` columns is `2 * n - 1`, the distance between
the two cells of the column 0. -/
theorem uMaze_diameter (n : Nat) (hn : 1 ≤ n) : IsDiameter (uMaze n) (2 * n - 1) := by
  have h00 : (uMaze n).validCell ⟨0, 0⟩ = true := by
    rw [uMaze_cell_iff]
    refine ⟨Or.inl rfl, ?_, ?_⟩ <;> simp only <;> omega
  have h10 : (uMaze n).validCell ⟨1, 0⟩ = true := by
    rw [uMaze_cell_iff]
    refine ⟨Or.inr rfl, ?_, ?_⟩ <;> simp only <;> omega
  have r00 : uRank n ⟨0, 0⟩ = 0 := by simp [uRank]
  have r10 : uRank n ⟨1, 0⟩ = 2 * (n : Int) - 1 := by simp [uRank]
  refine ⟨⟨⟨0, 0⟩, ⟨1, 0⟩, h00, h10, ?_, ?_⟩, ?_⟩
  · exact uMaze_chain_upper n _ h00 _ _ h10 (by rw [r00, r10]; omega)
  · intro m hm
    have := (uMaze_chain_lower n hm).1
    rw [r00, r10] at this
    omega
  · intro p q m hp hq hd
    have h1 := hd.2 _ (uMaze_connected n p q hp hq)
    have h2 := uRank_range n hp
    have h3 := uRank_range n hq
    omega

end MazeBuilder

namespace MazeBuilder

/-! ## A perfect maze with more cells than `INT_MAX` -/

theorem wideU_valid (p : Cell) :
    wideU.validCell p = true ↔ (p.row = 0 ∨ p.row = 1) ∧ 0 ≤ p.col ∧ p.col < 1073741825 :=
  uMaze_cell_iff 1073741825 p

theorem wideU_origin : wideU.validCell ⟨0, 0⟩ = true := by
  rw [wideU_valid]
  exact ⟨Or.inl rfl, by decide, by decide⟩

theorem wideU_corner : wideU.validCell ⟨1, 0⟩ = true := by
  rw [wideU_valid]
  exact ⟨Or.inr rfl, by decide, by decide⟩

theorem wideU_bidirectional : wideU.bidirectional := uMaze_bidirectional 1073741825

theorem wideU_size : wideU.rows * wideU.cols = 2147483650 ∧ wideU.cols ≤ INT_MAX ∧
    ¬ wideU.rows * wideU.cols ≤ INT_MAX := by
  refine ⟨by decide, by decide, by decide⟩

theorem wideU_search :
    ∃ d, Dijkstra.calculateDistances wideU ⟨0, 0⟩ = some d ∧ SearchDone wideU ⟨0, 0⟩ d :=
  Dijkstra.calculateDistances_done wideU ⟨0, 0⟩ wideU_origin

/-- The chain of 2147483649 link steps along the U, from the cell `(0, 0)` to the cell
`(1, 0)`. -/
theorem wideU_chain : Chain wideU ⟨0, 0⟩ ⟨1, 0⟩ 2147483649 :=
  uMaze_chain_upper 1073741825 ⟨0, 0⟩ wideU_origin 2147483649 ⟨1, 0⟩ wideU_corner
    (Or.inl (by decide))

theorem wideU_reachable (p : Cell) (hp : wideU.validCell p = true) :
    Reachable wideU ⟨0, 0⟩ p :=
  ⟨_, uMaze_connected 1073741825 ⟨0, 0⟩ p wideU_origin hp⟩

/-- The search from `(0, 0)` does not record the cell `(1, 0)`, which is 2147483649 link
steps away. -/
theorem wideU_far {D : Distances} (hdone : SearchDone wideU ⟨0, 0⟩ D) :
    D.contains ⟨1, 0⟩ = false ∧ D.getDistance ⟨1, 0⟩ = INT_MAX :=
  (uMaze_distance 1073741825 hdone wideU_origin ⟨1, 0⟩ wideU_corner).2 (by decide)

/-- The search from `(0, 0)` records the cell `(1, 3)`, which is `INT_MAX - 1` link steps
away, and does not record the next cell `(1, 2)`. -/
theorem wideU_edge {D : Distances} (hdone : SearchDone wideU ⟨0, 0⟩ D) :
    D.contains ⟨1, 3⟩ = true ∧ D.getDistance ⟨1, 3⟩ = 2147483646 ∧
      D.contains ⟨1, 2⟩ = false ∧ D.getDistance ⟨1, 2⟩ = INT_MAX := by
  have v3 : wideU.validCell ⟨1, 3⟩ = true := by
    rw [wideU_valid]
    exact ⟨Or.inr rfl, by decide, by decide⟩
  have v2 : wideU.validCell ⟨1, 2⟩ = true := by
    rw [wideU_valid]
    exact ⟨Or.inr rfl, by decide, by decide⟩
  have h3 := (uMaze_distance 1073741825 hdone wideU_origin ⟨1, 3⟩ v3).1 (by decide)
  have h2 := (uMaze_distance 1073741825 hdone wideU_origin ⟨1, 2⟩ v2).2 (by decide)
  refine ⟨h3.1, ?_, h2.1, h2.2⟩
  rw [h3.2]
  decide

theorem wideU_link : wideU.linked ⟨1, 3⟩ ⟨1, 2⟩ = true := by
  rw [show wideU = uMaze 1073741825 from rfl, uMaze_step_iff]
  refine ⟨?_, ?_, Or.inl (by decide)⟩
  · rw [uMaze_cell_iff]
    exact ⟨Or.inr rfl, by decide, by decide⟩
  · rw [uMaze_cell_iff]
    exact ⟨Or.inr rfl, by decide, by decide⟩

theorem wideU_path {d : Distances}
    (hd : Dijkstra.calculateDistances wideU ⟨0, 0⟩ = some d)
    (hdone : SearchDone wideU ⟨0, 0⟩ d) :
    Dijkstra.shortestPath wideU ⟨0, 0⟩ ⟨1, 0⟩ = some [] := by
  rw [Dijkstra.shortestPath_eq hd, if_pos (wideU_far hdone).2]

end MazeBuilder

namespace MazeBuilder

/-! ## The claims that need the number of cells to fit in an `int` -/

/-- Counterexample to C1 as stated: on the U-shaped perfect maze of 2 rows and 1073741825
columns, the in-bounds cell `(1, 0)` is at the end of a chain of link steps from the
in-bounds root `(0, 0)`, and yet its distance in the returned map is the sentinel
`INT_MAX`. -/
theorem Dijkstra.calculateDistances_shortest_counterexample :
    wideU.validCell ⟨0, 0⟩ = true ∧ wideU.validCell ⟨1, 0⟩ = true ∧
      Reachable wideU ⟨0, 0⟩ ⟨1, 0⟩ ∧
      ∃ d, Dijkstra.calculateDistances wideU ⟨0, 0⟩ = some d ∧
        d.getDistance ⟨1, 0⟩ = INT_MAX ∧
        ¬ (d.getDistance ⟨1, 0⟩ = INT_MAX ↔ ¬ Reachable wideU ⟨0, 0⟩ ⟨1, 0⟩) := by
  obtain ⟨d, hd, hdone⟩ := wideU_search
  have hfar := (wideU_far hdone).2
  refine ⟨wideU_origin, wideU_corner, ⟨_, wideU_chain⟩, d, hd, hfar, ?_⟩
  intro h
  exact h.mp hfar ⟨_, wideU_chain⟩

/-- Counterexample to C2 as stated: on the U-shaped perfect maze of 2 rows and 1073741825
columns, whose links are bidirectional, the end `(1, 0)` can be reached from the start
`(0, 0)`, and `shortestPath` returns the empty sequence, which does not have
`distance[end] + 1` positions. -/
theorem Dijkstra.shortestPath_length_counterexample :
    wideU.bidirectional ∧ wideU.validCell ⟨0, 0⟩ = true ∧ wideU.validCell ⟨1, 0⟩ = true ∧
      Reachable wideU ⟨0, 0⟩ ⟨1, 0⟩ ∧
      ∃ d path, Dijkstra.calculateDistances wideU ⟨0, 0⟩ = some d ∧
        Dijkstra.shortestPath wideU ⟨0, 0⟩ ⟨1, 0⟩ = some path ∧ path.length = 0 ∧
        (path.length : Int) ≠ d.getDistance ⟨1, 0⟩ + 1 := by
  obtain ⟨d, hd, hdone⟩ := wideU_search
  refine ⟨wideU_bidirectional, wideU_origin, wideU_corner, ⟨_, wideU_chain⟩, d, [], hd,
    wideU_path hd hdone, rfl, ?_⟩
  rw [(wideU_far hdone).2]
  decide

/-- Counterexample to C3 as stated: on the U-shaped perfect maze of 2 rows and 1073741825
columns, whose links are bidirectional, the end `(1, 0)` can be reached from the start
`(0, 0)`, and the sequence returned by `shortestPath` neither begins with the start nor ends
with the end. -/
theorem Dijkstra.shortestPath_walk_counterexample :
    wideU.bidirectional ∧ wideU.validCell ⟨0, 0⟩ = true ∧ wideU.validCell ⟨1, 0⟩ = true ∧
      Reachable wideU ⟨0, 0⟩ ⟨1, 0⟩ ∧
      ∃ path, Dijkstra.shortestPath wideU ⟨0, 0⟩ ⟨1, 0⟩ = some path ∧
        path.head? ≠ some ⟨0, 0⟩ ∧ path.getLast? ≠ some ⟨1, 0⟩ := by
  obtain ⟨d, hd, hdone⟩ := wideU_search
  exact ⟨wideU_bidirectional, wideU_origin, wideU_corner, ⟨_, wideU_chain⟩, [],
    wideU_path hd hdone, by simp, by simp⟩

/-- Counterexample to C4 as stated: on the U-shaped perfect maze of 2 rows and 1073741825
columns, `shortestPath` returns the empty sequence for the end `(1, 0)`, which can be
reached from the start `(0, 0)` through links. -/
theorem Dijkstra.shortestPath_empty_iff_counterexample :
    Reachable wideU ⟨0, 0⟩ ⟨1, 0⟩ ∧
      ∃ path, Dijkstra.shortestPath wideU ⟨0, 0⟩ ⟨1, 0⟩ = some path ∧ path = [] ∧
        ¬ (path = [] ↔ ¬ Reachable wideU ⟨0, 0⟩ ⟨1, 0⟩) := by
  obtain ⟨d, hd, hdone⟩ := wideU_search
  refine ⟨⟨_, wideU_chain⟩, [], wideU_path hd hdone, rfl, ?_⟩
  intro h
  exact h.mp rfl ⟨_, wideU_chain⟩

/-- Counterexample to C10 as stated: on the U-shaped perfect maze of 2 rows and 1073741825
columns, whose links are bidirectional, the cell `(1, 2)` is a linked neighbour of the cell
`(1, 3)`; in the map of the search from the in-bounds root `(0, 0)` the cell `(1, 3)` is
present, with the distance `INT_MAX - 1`, and the cell `(1, 2)` is absent. -/
theorem Dijkstra.calculateDistances_neighbours_counterexample :
    wideU.bidirectional ∧ wideU.validCell ⟨0, 0⟩ = true ∧
      wideU.linked ⟨1, 3⟩ ⟨1, 2⟩ = true ∧
      ∃ d, Dijkstra.calculateDistances wideU ⟨0, 0⟩ = some d ∧
        d.contains ⟨1, 3⟩ = true ∧ d.getDistance ⟨1, 3⟩ = INT_MAX - 1 ∧
        d.contains ⟨1, 2⟩ = false := by
  obtain ⟨d, hd, hdone⟩ := wideU_search
  obtain ⟨h1, h2, h3, _⟩ := wideU_edge hdone
  refine ⟨wideU_bidirectional, wideU_origin, wideU_link, d, hd, h1, ?_, h3⟩
  rw [h2]
  decide

/-- Counterexample to C13 as stated: on the U-shaped perfect maze of 2 rows and 1073741825
columns, every cell can be reached from the in-bounds root `(0, 0)`, and `getCells(grid)`
on the returned map has fewer than `R * C` entries, whatever the enumeration order of the
map. -/
theorem Dijkstra.calculateDistances_full_counterexample :
    wideU.validCell ⟨0, 0⟩ = true ∧
      (∀ p, wideU.validCell p = true → Reachable wideU ⟨0, 0⟩ p) ∧
      ∀ o : IterOrder, ∃ d l, Dijkstra.calculateDistances wideU ⟨0, 0⟩ = some d ∧
        d.getCells o wideU = some l ∧ (l.length : Int) < wideU.rows * wideU.cols := by
  refine ⟨wideU_origin, wideU_reachable, ?_⟩
  intro o
  obtain ⟨d, hd, hdone⟩ := wideU_search
  obtain ⟨l, h1, h2, h3⟩ := hdone.wellFormed.getCells_spec o wideU
  refine ⟨d, l, hd, h1, ?_⟩
  have hnot : (⟨1, 0⟩ : Cell) ∉ l := by
    intro hmem
    have := ((h3 _).mp hmem).1
    rw [(wideU_far hdone).1] at this
    exact Bool.false_ne_true this
  have hnd : ((⟨1, 0⟩ : Cell) :: l).Nodup := List.nodup_cons.mpr ⟨hnot, h2⟩
  have hsub : ((⟨1, 0⟩ : Cell) :: l) ⊆ wideU.allCells := by
    intro c hc
    rw [Grid.mem_allCells]
    rcases List.mem_cons.mp hc with e | e
    · rw [e]
      exact wideU_corner
    · exact ((h3 c).mp e).2
  have hle := (List.subperm_of_subset hnd hsub).length_le
  have hlen := wideU.length_allCells_of_valid wideU_origin
  rw [← hlen]
  rw [List.length_cons] at hle
  omega

/-- With bidirectional links, the sequence returned by `longestPath` has at most `INT_MAX`
positions, whatever the size of the grid. -/
theorem Dijkstra.longestPath_short (o : IterOrder) (g : Grid)
    (hv0 : g.validCell ⟨0, 0⟩ = true) (hbi : g.bidirectional) :
    ∃ path, Dijkstra.longestPath o g = some path ∧ (path.length : Int) ≤ INT_MAX := by
  obtain ⟨d1, hd1, hdone1⟩ := Dijkstra.calculateDistances_done g ⟨0, 0⟩ hv0
  obtain ⟨u, hm1, huc, _⟩ := hdone1.getMaxCell_spec o
  obtain ⟨d2, hd2, hdone2⟩ := Dijkstra.calculateDistances_done g u (hdone1.valid huc)
  obtain ⟨v, hm2, hvc, _⟩ := hdone2.getMaxCell_spec o
  obtain ⟨path, hp1, hp2, _⟩ := Dijkstra.shortestPath_spec hd2 hdone2 hbi hvc
  have hv00 : g.isValid 0 0 = true := hv0
  have hlt := hdone2.lt_max hvc
  refine ⟨path, ?_, by omega⟩
  simp only [Dijkstra.longestPath, hv00, if_true, Grid.at, hd1, hm1, hd2, hm2, hp1]

/-- Counterexample to C5 as stated: the U-shaped perfect maze of 2 rows and 1073741825
columns is a tree over all its cells, with the diameter 2147483649, and the sequence
returned by `longestPath` has fewer positions than the diameter plus one, whatever the
enumeration order of the maps. -/
theorem Dijkstra.longestPath_tree_diameter_counterexample :
    wideU.IsTree ∧ IsDiameter wideU 2147483649 ∧
      ∀ o : IterOrder, ∃ path, Dijkstra.longestPath o wideU = some path ∧
        path.length < 2147483649 + 1 := by
  refine ⟨uMaze_isTree 1073741825 (by decide), uMaze_diameter 1073741825 (by decide), ?_⟩
  intro o
  obtain ⟨path, h1, h2⟩ := Dijkstra.longestPath_short o wideU wideU_origin wideU_bidirectional
  have h3 : (path.length : Int) ≤ 2147483647 := h2
  exact ⟨path, h1, by omega⟩

end MazeBuilder
